import Mathlib

/-!
# Indic shaper: consonant-syllable reordering

A shallow embedding of `src/hb-ot-shape-complex-indic.cc` and a verification of the statements
the specification makes about `found_consonant_syllable`.

Conventions of the embedding:

* The glyph buffer `buffer->info` is a list of slots; `info[i]` is `slot info i`.
* `unsigned int` indices and the 32-bit `hb_mask_t` are natural numbers.  Masks are only
  combined with `|` and `&`, which never leave 32 bits; `!m` is `lnot m`.  Indices are only
  incremented, decremented and subtracted; on a span with `start < end` no subtraction of the
  source goes below zero and no decrement is applied to zero, so no wrap-around is modelled.
* Every loop of the source is a structurally recursive function: `for` loops without `break`
  go through `for_loop`, the loops with `break` and the `do ... while` loops have functions of
  their own, named after what they look for.
* A slot index at or beyond the length of the list lies outside the model: reading it yields
  the default slot and writing it leaves the list unchanged.  The theorems say where they rely
  on the span lying inside the buffer (`end ≤ info.length`).
* The header `hb-ot-shape-complex-indic-private.hh` and `hb-private.hh` are not among the
  sources: the enumerators of the former are parameters (`indic_enums`), and `FLAG` and
  `hb_bubble_sort` of the latter are modelled from the specification.
* The classifier `setup_masks` reads three tables that are not among the sources; they are
  parameters (`indic_tables`), and the C library `bsearch` is a binary search.
* The map builder of `collect_features` is the list of the features and pauses appended to it.
* `found_consonant_syllable_checked` is the same function with every slot access watched; it
  serves the statement that no access leaves the syllable.
-/

namespace Indic

/-! ## Data model -/

/-- The fields of `hb_glyph_info_t` the Indic shaper reads or writes: the code point, the
feature mask, and the two per-slot attributes `indic_category()` and `indic_position()`. -/
structure hb_glyph_info_t where
  codepoint : Nat
  mask : Nat
  indic_category : Nat
  indic_position : Nat
deriving DecidableEq, Repr, Inhabited

/-- Modelled from the spec: the enumerators of `indic_category_t` and `indic_position_t`,
declared in `hb-ot-shape-complex-indic-private.hh`, which is not among the sources.  Their
numeric values are taken as parameters; each is the value of a 4-bit attribute. -/
structure indic_enums where
  OT_X : Nat
  OT_C : Nat
  OT_Ra : Nat
  OT_V : Nat
  OT_N : Nat
  OT_H : Nat
  OT_ZWNJ : Nat
  OT_ZWJ : Nat
  OT_M : Nat
  OT_SM : Nat
  OT_VD : Nat
  OT_A : Nat
  OT_NBSP : Nat
  POS_PRE_C : Nat
  POS_BASE_C : Nat
  POS_ABOVE_C : Nat
  POS_BELOW_C : Nat
  POS_POST_C : Nat
  POS_PRE_M : Nat
  POS_ABOVE_M : Nat
  POS_BELOW_M : Nat
  POS_POST_M : Nat
  POS_SMVD : Nat
  POS_REPH : Nat
  POS_END : Nat
deriving DecidableEq, Repr

/-- Modelled from the spec: one assignment of numbers to the enumerators, the categories in the
order of the data model of the spec (section 3) and the positions in the order it lists them,
which satisfies `PRE_C < BASE_C < ABOVE_C < BELOW_C < POST_C < SMVD < END` and
`BASE_C < REPH`.  The header that fixes the real numbers is not among the sources; this
assignment serves the concrete scenarios only. -/
def spec_enums : indic_enums where
  OT_X := 0
  OT_C := 1
  OT_Ra := 2
  OT_V := 3
  OT_H := 4
  OT_ZWJ := 5
  OT_ZWNJ := 6
  OT_M := 7
  OT_SM := 8
  OT_VD := 9
  OT_A := 10
  OT_N := 11
  OT_NBSP := 12
  POS_PRE_C := 0
  POS_BASE_C := 1
  POS_ABOVE_C := 2
  POS_BELOW_C := 3
  POS_POST_C := 4
  POS_PRE_M := 5
  POS_ABOVE_M := 6
  POS_BELOW_M := 7
  POS_POST_M := 8
  POS_SMVD := 9
  POS_REPH := 10
  POS_END := 11

/-- Modelled from the spec: the `FLAG` helper of `hb-private.hh` (not among the sources), the
word whose only set bit is bit `x`; a category is tested against a set of categories by
and-ing its flag with the union of theirs. -/
def FLAG (x : Nat) : Nat := 1 <<< x

/-- The feature enum, in the order of the `indic_basic_features` array. -/
def _NUKT : Nat := 0
/-- Index of the `akhn` mask. -/
def AKHN : Nat := 1
/-- Index of the `rphf` mask. -/
def RPHF : Nat := 2
/-- Index of the `rkrf` mask. -/
def _RKRF : Nat := 3
/-- Index of the `pref` mask. -/
def PREF : Nat := 4
/-- Index of the `blwf` mask. -/
def BLWF : Nat := 5
/-- Index of the `half` mask. -/
def HALF : Nat := 6
/-- Index of the `vatu` mask. -/
def _VATU : Nat := 7
/-- Index of the `pstf` mask. -/
def PSTF : Nat := 8
/-- Index of the `cjct` mask. -/
def CJCT : Nat := 9

/-- The part of `hb_ot_map_t` that `found_consonant_syllable` consults: the script tag chosen
for each table index (`get_chosen_script`). -/
structure hb_ot_map_t where
  chosen_script : Nat → Nat

/-- The C expression `info[i]`. -/
def slot (info : List hb_glyph_info_t) (i : Nat) : hb_glyph_info_t := info.getD i default

/-- The C logical negation `!x` of an unsigned word, as the word it converts to. -/
def lnot (x : Nat) : Nat := if x = 0 then 1 else 0

/-- A C loop `for (i = a; i < a + n; i++) body`, without `break`. -/
def for_loop {σ : Type} (body : Nat → σ → σ) : Nat → Nat → σ → σ
  | 0, _, s => s
  | n + 1, i, s => for_loop body n (i + 1) (body i s)

/-! ## The predicates on slots -/

/-- Source `is_joiner`. -/
def is_joiner (K : indic_enums) (info : hb_glyph_info_t) : Bool :=
  decide (FLAG info.indic_category &&& (FLAG K.OT_ZWJ ||| FLAG K.OT_ZWNJ) ≠ 0)

/-- Source `is_consonant`. -/
def is_consonant (K : indic_enums) (info : hb_glyph_info_t) : Bool :=
  decide (FLAG info.indic_category &&& (FLAG K.OT_C ||| FLAG K.OT_Ra) ≠ 0)

/-- The test of the mark-attachment loop: category ZWNJ, ZWJ, N or H. -/
def is_attached (K : indic_enums) (info : hb_glyph_info_t) : Bool :=
  decide (FLAG info.indic_category &&&
    (FLAG K.OT_ZWNJ ||| FLAG K.OT_ZWJ ||| FLAG K.OT_N ||| FLAG K.OT_H) ≠ 0)

/-! ## Step 1 of `found_consonant_syllable`: the base consonant -/

/-- The Reph precondition (the `if` that raises `limit`). -/
def reph_precondition (K : indic_enums) (info : List hb_glyph_info_t) (mask_array : Nat → Nat)
    (start end_ : Nat) : Bool :=
  decide (mask_array RPHF ≠ 0) && decide (start + 2 < end_) &&
    decide ((slot info start).indic_category = K.OT_Ra) &&
    decide ((slot info (start + 1)).indic_category = K.OT_H)

/-- The `do ... while (i > limit)` scan.  The first numeric argument is the value of `i` on
entry to the body, which first decrements it; the second is the current `base`.  The result is
`base` on leaving the loop.  (`i = 0` on entry would wrap around; the loop is only ever entered
with `i = end > 0`, and re-entered with `i > limit`.) -/
def base_scan (K : indic_enums) (info : List hb_glyph_info_t) (limit : Nat) : Nat → Nat → Nat
  | 0, base => base
  | i + 1, base =>
    if is_consonant K (slot info i) then
      if (slot info i).indic_position ≠ K.POS_BELOW_C ∧
          (slot info i).indic_position ≠ K.POS_POST_C then
        i
      else if i > limit then base_scan K info limit i i else i
    else if is_joiner K (slot info i) then base
    else if i > limit then base_scan K info limit i base else base

/-- The base index `found_consonant_syllable` holds after `if (base < start) base = start;`. -/
def find_base (K : indic_enums) (info : List hb_glyph_info_t) (mask_array : Nat → Nat)
    (start end_ : Nat) : Nat :=
  let has_reph := reph_precondition K info mask_array start end_
  let limit := if has_reph then start + 2 else start
  let base := if has_reph then start else end_
  let base := base_scan K info limit end_ base
  if base < start then start else base

/-! ## Step "Reorder characters" -/

/-- Writing the position attribute of slot `i`. -/
def set_position (info : List hb_glyph_info_t) (i pos : Nat) : List hb_glyph_info_t :=
  info.set i { slot info i with indic_position := pos }

/-- Writing the mask of slot `i`. -/
def set_mask (info : List hb_glyph_info_t) (i mask : Nat) : List hb_glyph_info_t :=
  info.set i { slot info i with mask := mask }

/-- The loop `for (i = start; i < base; i++) info[i].indic_position() = POS_PRE_C;` and the
assignment `info[base].indic_position() = POS_BASE_C;`. -/
def reorder_characters (K : indic_enums) (info : List hb_glyph_info_t) (start base : Nat) :
    List hb_glyph_info_t :=
  let info := for_loop (fun i info => set_position info i K.POS_PRE_C) (base - start) start info
  set_position info base K.POS_BASE_C

/-- The block "Handle beginning Ra". -/
def handle_beginning_ra (K : indic_enums) (info : List hb_glyph_info_t) (mask_array : Nat → Nat)
    (has_reph : Bool) (start end_ : Nat) : List hb_glyph_info_t :=
  if has_reph && decide (start + 3 ≤ end_) && !is_joiner K (slot info (start + 2)) then
    let info := set_position info start K.POS_REPH
    set_mask info start (mask_array RPHF)
  else info

/-! ## Old-style script tags: the first post-base halant -/

/-- The outer loop of the halant move, `for (i = base + 1; i < end; i++)`: the index of the
first slot of category H among the `n` slots from `i` on, at which the loop body runs and
breaks. -/
def first_halant (K : indic_enums) (info : List hb_glyph_info_t) : Nat → Nat → Option Nat
  | 0, _ => none
  | n + 1, i =>
    if (slot info i).indic_category = K.OT_H then some i else first_halant K info n (i + 1)

/-- The inner loop `for (j = end - 1; j > i; j--) if (consonant) break;`, entered with `j`:
the value of `j` on leaving it. -/
def last_consonant (K : indic_enums) (info : List hb_glyph_info_t) (i : Nat) : Nat → Nat
  | 0 => 0
  | j + 1 =>
    if j + 1 > i then
      if FLAG (slot info (j + 1)).indic_category &&& (FLAG K.OT_C ||| FLAG K.OT_Ra) ≠ 0 then j + 1
      else last_consonant K info i j
    else j + 1

/-- The three statements `t = info[i]; memmove (&info[i], &info[i + 1], (j - i) * sizeof
(info[0])); info[j] = t;`: the slots `i+1 .. j` move down one index and the slot of index `i`
lands at `j`. -/
def move_halant (info : List hb_glyph_info_t) (i j : Nat) : List hb_glyph_info_t :=
  let t := slot info i
  let info := for_loop (fun k acc => acc.set k (slot info (k + 1))) (j - i) i info
  info.set j t

/-- The block "For old-style Indic script tags, move the first post-base Halant after last
consonant". -/
def old_style_halant (K : indic_enums) (map : hb_ot_map_t) (info : List hb_glyph_info_t)
    (base end_ : Nat) : List hb_glyph_info_t :=
  if map.chosen_script 0 &&& 0x000000FF ≠ 50 then
    match first_halant K info (end_ - (base + 1)) (base + 1) with
    | none => info
    | some i =>
      let j := last_consonant K info i (end_ - 1)
      if j > i then move_halant info i j else info
  else info

/-! ## Mark attachment -/

/-- The loop "Attach ZWJ, ZWNJ, nukta, and halant to previous char to move with them". -/
def attach_marks (K : indic_enums) (info : List hb_glyph_info_t) (start end_ : Nat) :
    List hb_glyph_info_t :=
  for_loop (fun i info =>
      if is_attached K (slot info i) then
        set_position info i (slot info (i - 1)).indic_position
      else info)
    (end_ - (start + 1)) (start + 1) info

/-- The state of the buffer when control reaches `if (end - start > 20)`: after base
selection, the position rewrites, the Reph block, the halant move and mark attachment. -/
def before_sort (K : indic_enums) (map : hb_ot_map_t) (info : List hb_glyph_info_t)
    (mask_array : Nat → Nat) (start end_ : Nat) : List hb_glyph_info_t :=
  let has_reph := reph_precondition K info mask_array start end_
  let base := find_base K info mask_array start end_
  let info := reorder_characters K info start base
  let info := handle_beginning_ra K info mask_array has_reph start end_
  let info := old_style_halant K map info base end_
  attach_marks K info start end_

/-- The state of the buffer when control reaches the halant block: after base selection, the
position rewrites and the block "Handle beginning Ra". -/
def before_halant_move (K : indic_enums) (info : List hb_glyph_info_t)
    (mask_array : Nat → Nat) (start end_ : Nat) : List hb_glyph_info_t :=
  handle_beginning_ra K
    (reorder_characters K info start (find_base K info mask_array start end_)) mask_array
    (reph_precondition K info mask_array start end_) start end_

/-! ## The sort -/

/-- Source `compare_indic_order`. -/
def compare_indic_order (pa pb : hb_glyph_info_t) : Int :=
  let a : Int := pa.indic_position
  let b : Int := pb.indic_position
  if a < b then -1 else if a = b then 0 else 1

/-- One pass of the bubble sort over the array: neighbours are exchanged when `compar` says
the left one is greater, so the slot carried along is the greatest met so far. -/
def bubble_pass (compar : hb_glyph_info_t → hb_glyph_info_t → Int) :
    hb_glyph_info_t → List hb_glyph_info_t → List hb_glyph_info_t
  | a, [] => [a]
  | a, b :: rest =>
    if compar a b > 0 then b :: bubble_pass compar a rest else a :: bubble_pass compar b rest

/-- The passes of the bubble sort: after a pass over the first `n + 1` slots the last of them
is in place and the next pass covers the first `n`. -/
def bubble_passes (compar : hb_glyph_info_t → hb_glyph_info_t → Int) :
    Nat → List hb_glyph_info_t → List hb_glyph_info_t
  | 0, l => l
  | n + 1, l =>
    match l with
    | [] => []
    | a :: rest =>
      let l1 := bubble_pass compar a rest
      bubble_passes compar n (l1.take (l1.length - 1)) ++ l1.drop (l1.length - 1)

/-- Modelled from the spec: `hb_bubble_sort`, a template of `hb-private.hh` that is not among
the sources.  Section 4.4 of the spec: "stably sort the slots in `[start, end)` by the numeric
value of `position`"; the source calls it a bubble sort, which this is: neighbours are
exchanged when `compar` is positive, pass after pass. -/
def hb_bubble_sort (array : List hb_glyph_info_t)
    (compar : hb_glyph_info_t → hb_glyph_info_t → Int) : List hb_glyph_info_t :=
  bubble_passes compar array.length array

/-- The call `hb_bubble_sort (info + start, end - start, compare_indic_order)`. -/
def sort_syllable (info : List hb_glyph_info_t) (start end_ : Nat) : List hb_glyph_info_t :=
  info.take start ++ hb_bubble_sort ((info.drop start).take (end_ - start)) compare_indic_order
    ++ info.drop end_

/-! ## Masks and joiners -/

/-- The statement `info[i].mask |= mask;`. -/
def or_mask (info : List hb_glyph_info_t) (i mask : Nat) : List hb_glyph_info_t :=
  set_mask info i ((slot info i).mask ||| mask)

/-- The block "Setup masks now". -/
def setup_syllable_masks (info : List hb_glyph_info_t) (mask_array : Nat → Nat)
    (start base end_ : Nat) : List hb_glyph_info_t :=
  let mask := mask_array HALF ||| mask_array AKHN ||| mask_array CJCT
  let info := for_loop (fun i info => or_mask info i mask) (base - start) start info
  let mask := mask_array AKHN ||| mask_array CJCT
  let info := or_mask info base mask
  let mask := mask_array BLWF ||| mask_array PSTF ||| mask_array CJCT
  for_loop (fun i info => or_mask info i mask) (end_ - (base + 1)) (base + 1) info

/-- The statement `if (non_joiner) info[j].mask &= !mask_array[HALF];`. -/
def clear_half (mask_array : Nat → Nat) (non_joiner : Bool) (info : List hb_glyph_info_t)
    (j : Nat) : List hb_glyph_info_t :=
  if non_joiner then set_mask info j ((slot info j).mask &&& lnot (mask_array HALF)) else info

/-- The inner `do ... while (j > start && !is_consonant (info[j]))` of the joiner block, entered
with `j`, which the body first decrements. -/
def joiner_walk (K : indic_enums) (mask_array : Nat → Nat) (non_joiner : Bool) (start : Nat) :
    Nat → List hb_glyph_info_t → List hb_glyph_info_t
  | 0, info => info
  | j + 1, info =>
    if j > start ∧ ¬ is_consonant K (slot (clear_half mask_array non_joiner info j) j) then
      joiner_walk K mask_array non_joiner start j (clear_half mask_array non_joiner info j)
    else clear_half mask_array non_joiner info j

/-- The block "Apply ZWJ/ZWNJ effects". -/
def apply_joiners (K : indic_enums) (info : List hb_glyph_info_t) (mask_array : Nat → Nat)
    (start end_ : Nat) : List hb_glyph_info_t :=
  for_loop (fun i info =>
      if is_joiner K (slot info i) then
        let non_joiner := decide ((slot info i).indic_category = K.OT_ZWNJ)
        joiner_walk K mask_array non_joiner start i info
      else info)
    (end_ - (start + 1)) (start + 1) info

/-- Source `found_consonant_syllable`: the buffer it leaves behind. -/
def found_consonant_syllable (K : indic_enums) (map : hb_ot_map_t)
    (info : List hb_glyph_info_t) (mask_array : Nat → Nat) (start end_ : Nat) :
    List hb_glyph_info_t :=
  let base := find_base K info mask_array start end_
  let info := before_sort K map info mask_array start end_
  if end_ - start > 20 then info
  else
    let info := sort_syllable info start end_
    let info := setup_syllable_masks info mask_array start base end_
    apply_joiners K info mask_array start end_

/-! ## The same function with every slot access watched

A second embedding of `found_consonant_syllable` in which each read or write of `info[i]` is
guarded: it yields `none` as soon as an index outside `[start, end)` is touched or a loop
counter that is zero is decremented, and otherwise the buffer the function leaves behind.  The
call of `hb_bubble_sort` receives the sub-array `info + start` of length `end - start` and is
not instrumented. -/

/-- The value `r` of an access to `info[i]`, provided `i` lies in `[start, end)`. -/
def in_span {α : Type} (start end_ i : Nat) (r : α) : Option α :=
  if start ≤ i ∧ i < end_ then some r else none

/-- A `for` loop whose body may fail. -/
def for_loop_checked {σ : Type} (body : Nat → σ → Option σ) : Nat → Nat → σ → Option σ
  | 0, _, s => some s
  | n + 1, i, s => (body i s).bind (fun s1 => for_loop_checked body n (i + 1) s1)

/-- The Reph precondition, with its two reads, which the `&&` chain performs only after
`start + 2 < end` has been found true. -/
def reph_precondition_checked (K : indic_enums) (info : List hb_glyph_info_t)
    (mask_array : Nat → Nat) (start end_ : Nat) : Option Bool :=
  if mask_array RPHF ≠ 0 ∧ start + 2 < end_ then
    (in_span start end_ start (slot info start)).bind (fun a =>
      if a.indic_category = K.OT_Ra then
        (in_span start end_ (start + 1) (slot info (start + 1))).bind (fun b =>
          some (decide (b.indic_category = K.OT_H)))
      else some false)
  else some false

/-- The backward scan, with its reads; entering the body with `i = 0` is a failure. -/
def base_scan_checked (K : indic_enums) (info : List hb_glyph_info_t) (limit start end_ : Nat) :
    Nat → Nat → Option Nat
  | 0, _ => none
  | i + 1, base =>
    (in_span start end_ i (slot info i)).bind (fun x =>
      if is_consonant K x then
        if x.indic_position ≠ K.POS_BELOW_C ∧ x.indic_position ≠ K.POS_POST_C then some i
        else if i > limit then base_scan_checked K info limit start end_ i i else some i
      else if is_joiner K x then some base
      else if i > limit then base_scan_checked K info limit start end_ i base else some base)

/-- Base selection, with its reads: the base index and `has_reph`. -/
def find_base_checked (K : indic_enums) (info : List hb_glyph_info_t) (mask_array : Nat → Nat)
    (start end_ : Nat) : Option (Nat × Bool) :=
  (reph_precondition_checked K info mask_array start end_).bind (fun has_reph =>
    (base_scan_checked K info (if has_reph then start + 2 else start) start end_ end_
        (if has_reph then start else end_)).bind (fun base =>
      some (if base < start then start else base, has_reph)))

/-- The position rewrites, with their writes. -/
def reorder_characters_checked (K : indic_enums) (info : List hb_glyph_info_t)
    (start end_ base : Nat) : Option (List hb_glyph_info_t) :=
  (for_loop_checked (fun i info => in_span start end_ i (set_position info i K.POS_PRE_C))
      (base - start) start info).bind (fun info =>
    in_span start end_ base (set_position info base K.POS_BASE_C))

/-- The block "Handle beginning Ra", with its read of `info[start + 2]` and its writes. -/
def handle_beginning_ra_checked (K : indic_enums) (info : List hb_glyph_info_t)
    (mask_array : Nat → Nat) (has_reph : Bool) (start end_ : Nat) :
    Option (List hb_glyph_info_t) :=
  if has_reph && decide (start + 3 ≤ end_) then
    (in_span start end_ (start + 2) (slot info (start + 2))).bind (fun x =>
      if !is_joiner K x then
        (in_span start end_ start (set_position info start K.POS_REPH)).bind (fun info =>
          in_span start end_ start (set_mask info start (mask_array RPHF)))
      else some info)
  else some info

/-- The search for the first halant, with its reads. -/
def first_halant_checked (K : indic_enums) (info : List hb_glyph_info_t) (start end_ : Nat) :
    Nat → Nat → Option (Option Nat)
  | 0, _ => some none
  | n + 1, i =>
    (in_span start end_ i (slot info i)).bind (fun x =>
      if x.indic_category = K.OT_H then some (some i)
      else first_halant_checked K info start end_ n (i + 1))

/-- The search for the last consonant, with its reads. -/
def last_consonant_checked (K : indic_enums) (info : List hb_glyph_info_t) (start end_ i : Nat) :
    Nat → Option Nat
  | 0 => some 0
  | j + 1 =>
    if j + 1 > i then
      (in_span start end_ (j + 1) (slot info (j + 1))).bind (fun x =>
        if FLAG x.indic_category &&& (FLAG K.OT_C ||| FLAG K.OT_Ra) ≠ 0 then some (j + 1)
        else last_consonant_checked K info start end_ i j)
    else some (j + 1)

/-- The halant move, with the read of `info[i]`, the reads and writes of the `memmove` and
the write of `info[j]`. -/
def move_halant_checked (info : List hb_glyph_info_t) (start end_ i j : Nat) :
    Option (List hb_glyph_info_t) :=
  (in_span start end_ i (slot info i)).bind (fun t =>
    (for_loop_checked (fun k acc =>
        (in_span start end_ (k + 1) (slot info (k + 1))).bind (fun x =>
          in_span start end_ k (acc.set k x)))
      (j - i) i info).bind (fun info1 => in_span start end_ j (info1.set j t)))

/-- The halant block, with its accesses. -/
def old_style_halant_checked (K : indic_enums) (map : hb_ot_map_t)
    (info : List hb_glyph_info_t) (start base end_ : Nat) : Option (List hb_glyph_info_t) :=
  if map.chosen_script 0 &&& 0x000000FF ≠ 50 then
    (first_halant_checked K info start end_ (end_ - (base + 1)) (base + 1)).bind (fun found =>
      match found with
      | none => some info
      | some i =>
        (last_consonant_checked K info start end_ i (end_ - 1)).bind (fun j =>
          if j > i then move_halant_checked info start end_ i j else some info))
  else some info

/-- Mark attachment, with its reads of `info[i]` and `info[i - 1]` and its write. -/
def attach_marks_checked (K : indic_enums) (info : List hb_glyph_info_t) (start end_ : Nat) :
    Option (List hb_glyph_info_t) :=
  for_loop_checked (fun i info =>
      (in_span start end_ i (slot info i)).bind (fun x =>
        if is_attached K x then
          (in_span start end_ (i - 1) (slot info (i - 1))).bind (fun y =>
            in_span start end_ i (set_position info i y.indic_position))
        else some info))
    (end_ - (start + 1)) (start + 1) info

/-- The block "Setup masks now", with its writes. -/
def setup_syllable_masks_checked (info : List hb_glyph_info_t) (mask_array : Nat → Nat)
    (start base end_ : Nat) : Option (List hb_glyph_info_t) :=
  (for_loop_checked (fun i info => in_span start end_ i
        (or_mask info i (mask_array HALF ||| mask_array AKHN ||| mask_array CJCT)))
      (base - start) start info).bind (fun info =>
    (in_span start end_ base (or_mask info base (mask_array AKHN ||| mask_array CJCT))).bind
      (fun info =>
        for_loop_checked (fun i info => in_span start end_ i
            (or_mask info i (mask_array BLWF ||| mask_array PSTF ||| mask_array CJCT)))
          (end_ - (base + 1)) (base + 1) info))

/-- The walk back from a joiner, with its accesses; entering the body with `j = 0` is a
failure, and `info[j]` is read by the loop condition only after `j > start` has been found
true. -/
def joiner_walk_checked (K : indic_enums) (mask_array : Nat → Nat) (non_joiner : Bool)
    (start end_ : Nat) : Nat → List hb_glyph_info_t → Option (List hb_glyph_info_t)
  | 0, _ => none
  | j + 1, info =>
    (if non_joiner then in_span start end_ j (clear_half mask_array non_joiner info j)
      else some info).bind (fun info1 =>
      if j > start then
        (in_span start end_ j (slot info1 j)).bind (fun x =>
          if ¬ is_consonant K x then
            joiner_walk_checked K mask_array non_joiner start end_ j info1
          else some info1)
      else some info1)

/-- The joiner block, with its accesses. -/
def apply_joiners_checked (K : indic_enums) (info : List hb_glyph_info_t)
    (mask_array : Nat → Nat) (start end_ : Nat) : Option (List hb_glyph_info_t) :=
  for_loop_checked (fun i info =>
      (in_span start end_ i (slot info i)).bind (fun x =>
        if is_joiner K x then
          joiner_walk_checked K mask_array (decide (x.indic_category = K.OT_ZWNJ)) start end_
            i info
        else some info))
    (end_ - (start + 1)) (start + 1) info

/-- Source `found_consonant_syllable` with every slot access watched. -/
def found_consonant_syllable_checked (K : indic_enums) (map : hb_ot_map_t)
    (info : List hb_glyph_info_t) (mask_array : Nat → Nat) (start end_ : Nat) :
    Option (List hb_glyph_info_t) :=
  (find_base_checked K info mask_array start end_).bind (fun found =>
    (reorder_characters_checked K info start end_ found.1).bind (fun info =>
      (handle_beginning_ra_checked K info mask_array found.2 start end_).bind (fun info =>
        (old_style_halant_checked K map info start found.1 end_).bind (fun info =>
          (attach_marks_checked K info start end_).bind (fun info =>
            if end_ - start > 20 then some info
            else
              (setup_syllable_masks_checked (sort_syllable info start end_) mask_array start
                  found.1 end_).bind (fun info =>
                apply_joiners_checked K info mask_array start end_))))))

/-! ## The pipeline adapter -/

/-- Modelled from the spec: the `HB_TAG` helper of `hb-common.h` (not among the sources), which
packs the four ASCII bytes of a tag big-endian into one word. -/
def HB_TAG (a b c d : Char) : Nat :=
  (a.toNat <<< 24) ||| (b.toNat <<< 16) ||| (c.toNat <<< 8) ||| d.toNat

/-- An entry of the `indic_basic_features` array. -/
structure indic_basic_feature_t where
  tag : Nat
  is_global : Bool
deriving DecidableEq, Repr, Inhabited

/-- Source `indic_basic_features`. -/
def indic_basic_features : List indic_basic_feature_t :=
  [ { tag := HB_TAG 'n' 'u' 'k' 't', is_global := true },
    { tag := HB_TAG 'a' 'k' 'h' 'n', is_global := false },
    { tag := HB_TAG 'r' 'p' 'h' 'f', is_global := false },
    { tag := HB_TAG 'r' 'k' 'r' 'f', is_global := true },
    { tag := HB_TAG 'p' 'r' 'e' 'f', is_global := false },
    { tag := HB_TAG 'b' 'l' 'w' 'f', is_global := false },
    { tag := HB_TAG 'h' 'a' 'l' 'f', is_global := false },
    { tag := HB_TAG 'v' 'a' 't' 'u', is_global := true },
    { tag := HB_TAG 'p' 's' 't' 'f', is_global := false },
    { tag := HB_TAG 'c' 'j' 'c' 't', is_global := false } ]

/-- Source `indic_other_features`. -/
def indic_other_features : List Nat :=
  [ HB_TAG 'p' 'r' 'e' 's', HB_TAG 'a' 'b' 'v' 's', HB_TAG 'b' 'l' 'w' 's',
    HB_TAG 'p' 's' 't' 's', HB_TAG 'h' 'a' 'l' 'n', HB_TAG 'd' 'i' 's' 't',
    HB_TAG 'a' 'b' 'v' 'm', HB_TAG 'b' 'l' 'w' 'm' ]

/-- The two pause callbacks this file hands to the map builder. -/
inductive pause_callback where
  | initial_reordering
  | final_reordering
deriving DecidableEq, Repr

/-- What one call on the map builder appends: a boolean feature with its tag and the `global`
argument of the call (`none` when the call leaves it to the default of the declaration), or a
GSUB pause with its callback (`none` for `NULL`). -/
inductive map_builder_entry where
  | bool_feature (tag : Nat) (is_global : Option Bool)
  | gsub_pause (callback : Option pause_callback)
deriving DecidableEq, Repr

/-- Modelled from the spec: `hb_ot_map_builder_t`, declared in `hb-ot-map-private.hh`, which is
not among the sources; sections 4.6 and 6 of the spec: features and pauses are appended to the
builder in the order of the calls. -/
abbrev hb_ot_map_builder_t : Type := List map_builder_entry

/-- Modelled from the spec: the builder method `add_bool_feature`, which appends a feature. -/
def add_bool_feature (map : hb_ot_map_builder_t) (tag : Nat) (is_global : Option Bool) :
    hb_ot_map_builder_t :=
  List.append map [map_builder_entry.bool_feature tag is_global]

/-- Modelled from the spec: the builder method `add_gsub_pause`, which appends a pause. -/
def add_gsub_pause (map : hb_ot_map_builder_t) (callback : Option pause_callback) :
    hb_ot_map_builder_t :=
  List.append map [map_builder_entry.gsub_pause callback]

/-- Source `_hb_ot_shape_complex_collect_features_indic`; the segment properties are not
read. -/
def _hb_ot_shape_complex_collect_features_indic (map : hb_ot_map_builder_t) :
    hb_ot_map_builder_t :=
  let map := add_bool_feature map (HB_TAG 'l' 'o' 'c' 'l') none
  let map := add_bool_feature map (HB_TAG 'c' 'c' 'm' 'p') none
  let map := add_gsub_pause map (some pause_callback.initial_reordering)
  let map := for_loop (fun i map =>
      let map := add_bool_feature map (indic_basic_features.getD i default).tag
        (some (indic_basic_features.getD i default).is_global)
      add_gsub_pause map none)
    indic_basic_features.length 0 map
  let map := add_gsub_pause map (some pause_callback.final_reordering)
  for_loop (fun i map =>
      let map := add_bool_feature map (indic_other_features.getD i 0) (some true)
      add_gsub_pause map none)
    indic_other_features.length 0 map

/-- The loop of source `initial_reordering` that fills `mask_array`, an array of
`ARRAY_LENGTH (indic_basic_features)` words initialised to zero, from the map method
`get_1_mask`, the part of the map the loop consults. -/
def initial_reordering_mask_array (get_1_mask : Nat → Nat) : List Nat :=
  let mask_array := List.replicate indic_basic_features.length 0
  let num_masks := indic_basic_features.length
  for_loop (fun i mask_array =>
      mask_array.set i (get_1_mask (indic_basic_features.getD i default).tag))
    num_masks 0 mask_array

/-- The array `initial_reordering` hands on, read as `mask_array[i]`. -/
def initial_reordering_masks (get_1_mask : Nat → Nat) (i : Nat) : Nat :=
  (initial_reordering_mask_array get_1_mask).getD i 0

/-! ## The classifier -/

/-- Source `compare_codepoint`, on the two code points its pointer arguments are read as. -/
def compare_codepoint (a b : Nat) : Int :=
  if a < b then -1 else if a = b then 0 else 1

/-- A record of the consonant-position table: a code point and its position. -/
structure consonant_position_t where
  u : Nat
  position : Nat
deriving DecidableEq, Repr

/-- Modelled from the spec: the three tables of section 4.1, whose contents are declared in
headers that are not among the sources and are taken as parameters: the combined category
database `get_indic_categories` (low nibble category, high nibble position), the
consonant-position table `consonant_positions` and the Ra table `ra_chars`. -/
structure indic_tables where
  get_indic_categories : Nat → Nat
  consonant_positions : List consonant_position_t
  ra_chars : List Nat

/-- The loop of a binary search over `base[lo .. hi)`: `read` is the code point an element is
read as by the comparison function; the first argument bounds the number of halvings. -/
def bsearch_loop {α : Type} (key : Nat) (base : List α) (read : α → Nat)
    (compar : Nat → Nat → Int) : Nat → Nat → Nat → Option α
  | 0, _, _ => none
  | fuel + 1, lo, hi =>
    if lo < hi then
      match base[lo + (hi - lo) / 2]? with
      | none => none
      | some r =>
        if compar key (read r) < 0 then
          bsearch_loop key base read compar fuel lo (lo + (hi - lo) / 2)
        else if compar key (read r) > 0 then
          bsearch_loop key base read compar fuel (lo + (hi - lo) / 2 + 1) hi
        else some r
    else none

/-- Modelled from the spec: the C library function `bsearch`, which the source calls on its
tables; section 4.1 of the spec: "lookup is binary search".  The result is the element found,
or `none` for the null pointer.  As many halvings as the array has elements are allowed, which
is more than a binary search takes. -/
def bsearch {α : Type} (key : Nat) (base : List α) (read : α → Nat)
    (compar : Nat → Nat → Int) : Option α :=
  bsearch_loop key base read compar base.length 0 base.length

/-- Source `consonant_position`. -/
def consonant_position (K : indic_enums) (T : indic_tables) (u : Nat) : Nat :=
  match bsearch u T.consonant_positions (fun r => r.u) compare_codepoint with
  | some record => record.position
  | none => K.POS_BASE_C

/-- Source `is_ra`. -/
def is_ra (T : indic_tables) (u : Nat) : Bool :=
  (bsearch u T.ra_chars (fun c => c) compare_codepoint).isSome

/-- The body of the loop of source `_hb_ot_shape_complex_setup_masks_indic`, on the slot
`buffer->info[i]`.  The packed value of the category database is one byte, so both nibbles
fit their attribute. -/
def setup_masks_slot (K : indic_enums) (T : indic_tables) (info : hb_glyph_info_t) :
    hb_glyph_info_t :=
  let type := T.get_indic_categories info.codepoint
  let info : hb_glyph_info_t := { info with indic_category := type &&& 0x0F }
  let info : hb_glyph_info_t := { info with indic_position := type >>> 4 }
  let info : hb_glyph_info_t :=
    if info.indic_category = K.OT_C then
      let info : hb_glyph_info_t :=
        { info with indic_position := consonant_position K T info.codepoint }
      if is_ra T info.codepoint then { info with indic_category := K.OT_Ra } else info
    else if info.indic_category = K.OT_SM ∨ info.indic_category = K.OT_VD then
      { info with indic_position := K.POS_SMVD }
    else if info.codepoint = 0x200C then { info with indic_category := K.OT_ZWNJ }
    else if info.codepoint = 0x200D then { info with indic_category := K.OT_ZWJ }
    else info
  if info.codepoint = 0x0952 then
    { info with indic_category := K.OT_A, indic_position := K.POS_SMVD }
  else info

/-- Source `_hb_ot_shape_complex_setup_masks_indic`: the buffer it leaves behind.  The map and
the font are not read, and the allocation of the two attributes is bookkeeping. -/
def _hb_ot_shape_complex_setup_masks_indic (K : indic_enums) (T : indic_tables)
    (buffer : List hb_glyph_info_t) : List hb_glyph_info_t :=
  let count := buffer.length
  for_loop (fun i buffer => buffer.set i (setup_masks_slot K T (slot buffer i))) count 0 buffer

/-- A small instance of the tables for the scenarios: KA and RA are consonants without an
entry in the consonant-position table, U+09AC is a consonant recorded with a below-base form,
RA is the one Ra, HALANT has category H. -/
def test_tables : indic_tables where
  get_indic_categories := fun u =>
    if u = 0x0915 ∨ u = 0x0930 ∨ u = 0x09AC then spec_enums.OT_C ||| (spec_enums.POS_BASE_C <<< 4)
    else if u = 0x094D then spec_enums.OT_H ||| (spec_enums.POS_END <<< 4)
    else spec_enums.OT_X ||| (spec_enums.POS_END <<< 4)
  consonant_positions :=
    [ { u := 0x09AC, position := spec_enums.POS_BELOW_C },
      { u := 0x09AF, position := spec_enums.POS_POST_C } ]
  ra_chars := [0x0930, 0x09B0]

/-! ## Scenario data -/

/-- A slot of the given code point and category, with a position and an entry mask. -/
def mk_slot (codepoint category position mask : Nat) : hb_glyph_info_t :=
  { codepoint := codepoint, mask := mask, indic_category := category,
    indic_position := position }

/-- A mask array with a distinct bit for each of the ten basic features: entry `i` is
bit `i + 4`, the four low bits being left for global features. -/
def test_masks (i : Nat) : Nat := if i < 10 then 1 <<< (i + 4) else 0

/-- A mask array for a script without Reph: as `test_masks`, but the `rphf` mask is zero. -/
def test_masks_no_reph (i : Nat) : Nat := if i = RPHF then 0 else test_masks i

/-- A map whose chosen script tag is `dev2`. -/
def map_dev2 : hb_ot_map_t := { chosen_script := fun _ => 0x64657632 }

/-- A map whose chosen script tag is `deva`. -/
def map_deva : hb_ot_map_t := { chosen_script := fun _ => 0x64657661 }

/-- KA, U+0915: a consonant whose classifier position is the default `POS_BASE_C`; entry mask
`1`, a global feature bit. -/
def slot_KA : hb_glyph_info_t := mk_slot 0x0915 spec_enums.OT_C spec_enums.POS_BASE_C 1

/-- SSA, U+0937: a consonant of default position. -/
def slot_SSA : hb_glyph_info_t := mk_slot 0x0937 spec_enums.OT_C spec_enums.POS_BASE_C 1

/-- RA, U+0930: the consonant Ra, of default position. -/
def slot_RA : hb_glyph_info_t := mk_slot 0x0930 spec_enums.OT_Ra spec_enums.POS_BASE_C 1

/-- HALANT, U+094D. -/
def slot_HALANT : hb_glyph_info_t := mk_slot 0x094D spec_enums.OT_H spec_enums.POS_END 1

/-- ZWNJ, U+200C. -/
def slot_ZWNJ : hb_glyph_info_t := mk_slot 0x200C spec_enums.OT_ZWNJ spec_enums.POS_END 1

/-- ZWJ, U+200D. -/
def slot_ZWJ : hb_glyph_info_t := mk_slot 0x200D spec_enums.OT_ZWJ spec_enums.POS_END 1

/-- A consonant syllable of 21 slots, KA HALANT ZWNJ followed by nine times KA HALANT; the
first two slots enter with the `half` bit of `test_masks` set besides the global bit. -/
def long_syllable : List hb_glyph_info_t :=
  mk_slot 0x0915 spec_enums.OT_C spec_enums.POS_BASE_C 1025 ::
    mk_slot 0x094D spec_enums.OT_H spec_enums.POS_END 1025 :: slot_ZWNJ ::
    [slot_KA, slot_HALANT, slot_KA, slot_HALANT, slot_KA, slot_HALANT, slot_KA, slot_HALANT,
      slot_KA, slot_HALANT, slot_KA, slot_HALANT, slot_KA, slot_HALANT, slot_KA, slot_HALANT,
      slot_KA, slot_HALANT]

/-- AA matra, U+093E: a dependent vowel sign, here standing after a syllable. -/
def slot_AA : hb_glyph_info_t := mk_slot 0x093E spec_enums.OT_M spec_enums.POS_POST_M 1

/-- A consonant whose classifier position is `POS_BELOW_C` (it has a below-base form). -/
def slot_below : hb_glyph_info_t := mk_slot 0x09AC spec_enums.OT_C spec_enums.POS_BELOW_C 1

/-- A consonant whose classifier position is `POS_POST_C` (it has a post-base form). -/
def slot_post : hb_glyph_info_t := mk_slot 0x09AF spec_enums.OT_C spec_enums.POS_POST_C 1

/-! ## Vocabulary of the statements -/

/-- The slots of the syllable `[start, end)`, in order. -/
def syllable (info : List hb_glyph_info_t) (start end_ : Nat) : List hb_glyph_info_t :=
  (info.drop start).take (end_ - start)

/-- A slot with its mask blanked: what the mask-writing steps leave alone. -/
def unmask (x : hb_glyph_info_t) : hb_glyph_info_t := { x with mask := 0 }

/-- A slot with its position blanked: what the position-writing steps leave alone. -/
def unposition (x : hb_glyph_info_t) : hb_glyph_info_t := { x with indic_position := 0 }

/-- The code point and category of a slot, which no step writes. -/
def glyph_of (x : hb_glyph_info_t) : Nat × Nat := (x.codepoint, x.indic_category)

/-- The mask the block "Setup masks now" ORs into the slot of index `i`. -/
def feature_mask (mask_array : Nat → Nat) (base i : Nat) : Nat :=
  if i < base then mask_array HALF ||| mask_array AKHN ||| mask_array CJCT
  else if i = base then mask_array AKHN ||| mask_array CJCT
  else mask_array BLWF ||| mask_array PSTF ||| mask_array CJCT

/-- The condition of the block "Handle beginning Ra", read on the buffer as it enters the
function: Reph is taken. -/
def reph_taken (K : indic_enums) (info : List hb_glyph_info_t) (mask_array : Nat → Nat)
    (start end_ : Nat) : Bool :=
  reph_precondition K info mask_array start end_ && decide (start + 3 ≤ end_) &&
    !is_joiner K (slot info (start + 2))

/-! ## Lemmas: flags and predicates -/

theorem FLAG_and_ne_zero (a m : Nat) : FLAG a &&& m ≠ 0 ↔ m.testBit a = true := by
  unfold FLAG
  rw [Nat.one_shiftLeft]
  constructor
  · intro h
    obtain ⟨i, hi⟩ := Nat.ne_zero_implies_bit_true h
    rw [Nat.testBit_and, Nat.testBit_two_pow] at hi
    simp only [Bool.and_eq_true, decide_eq_true_eq] at hi
    rw [hi.1]
    exact hi.2
  · intro h h0
    have h1 : (2 ^ a &&& m).testBit a = true := by
      rw [Nat.testBit_and, Nat.testBit_two_pow_self, h]
      rfl
    rw [h0] at h1
    simp at h1

theorem testBit_FLAG (a b : Nat) : (FLAG a).testBit b = decide (a = b) := by
  unfold FLAG
  rw [Nat.one_shiftLeft, Nat.testBit_two_pow]

theorem is_consonant_iff (K : indic_enums) (x : hb_glyph_info_t) :
    is_consonant K x = true ↔ x.indic_category = K.OT_C ∨ x.indic_category = K.OT_Ra := by
  unfold is_consonant
  rw [decide_eq_true_iff, FLAG_and_ne_zero, Nat.testBit_or, testBit_FLAG, testBit_FLAG]
  simp only [Bool.or_eq_true, decide_eq_true_eq]
  constructor <;> rintro (h | h) <;> simp [h]

theorem is_joiner_iff (K : indic_enums) (x : hb_glyph_info_t) :
    is_joiner K x = true ↔ x.indic_category = K.OT_ZWJ ∨ x.indic_category = K.OT_ZWNJ := by
  unfold is_joiner
  rw [decide_eq_true_iff, FLAG_and_ne_zero, Nat.testBit_or, testBit_FLAG, testBit_FLAG]
  simp only [Bool.or_eq_true, decide_eq_true_eq]
  constructor <;> rintro (h | h) <;> simp [h]

theorem is_attached_iff (K : indic_enums) (x : hb_glyph_info_t) :
    is_attached K x = true ↔ x.indic_category = K.OT_ZWNJ ∨ x.indic_category = K.OT_ZWJ ∨
      x.indic_category = K.OT_N ∨ x.indic_category = K.OT_H := by
  unfold is_attached
  rw [decide_eq_true_iff, FLAG_and_ne_zero, Nat.testBit_or, Nat.testBit_or, Nat.testBit_or,
    testBit_FLAG, testBit_FLAG, testBit_FLAG, testBit_FLAG]
  simp only [Bool.or_eq_true, decide_eq_true_eq]
  constructor
  · rintro (((h | h) | h) | h) <;> simp [h]
  · rintro (h | h | h | h) <;> simp [h]

theorem is_consonant_congr (K : indic_enums) {x y : hb_glyph_info_t}
    (h : x.indic_category = y.indic_category) : is_consonant K x = is_consonant K y := by
  unfold is_consonant
  rw [h]

theorem is_joiner_congr (K : indic_enums) {x y : hb_glyph_info_t}
    (h : x.indic_category = y.indic_category) : is_joiner K x = is_joiner K y := by
  unfold is_joiner
  rw [h]

theorem is_attached_congr (K : indic_enums) {x y : hb_glyph_info_t}
    (h : x.indic_category = y.indic_category) : is_attached K x = is_attached K y := by
  unfold is_attached
  rw [h]

/-! ## Lemmas: slots of a list -/

theorem slot_of_lt {l : List hb_glyph_info_t} {i : Nat} (h : i < l.length) :
    slot l i = l[i] := by
  unfold slot
  rw [List.getD_eq_getElem?_getD, List.getElem?_eq_getElem h]
  rfl

theorem slot_of_le {l : List hb_glyph_info_t} {i : Nat} (h : l.length ≤ i) :
    slot l i = default := by
  unfold slot
  rw [List.getD_eq_getElem?_getD, List.getElem?_eq_none h]
  rfl

theorem slot_set_self {l : List hb_glyph_info_t} {i : Nat} (x : hb_glyph_info_t)
    (h : i < l.length) : slot (l.set i x) i = x := by
  unfold slot
  rw [List.getD_eq_getElem?_getD, List.getElem?_set_self h]
  rfl

theorem slot_set_ne {l : List hb_glyph_info_t} {i j : Nat} (x : hb_glyph_info_t)
    (h : i ≠ j) : slot (l.set i x) j = slot l j := by
  unfold slot
  rw [List.getD_eq_getElem?_getD, List.getD_eq_getElem?_getD, List.getElem?_set_ne h]

theorem slot_eq_of_getElem? {l l1 : List hb_glyph_info_t} {i j : Nat} (h : l[i]? = l1[j]?) :
    slot l i = slot l1 j := by
  unfold slot
  rw [List.getD_eq_getElem?_getD, List.getD_eq_getElem?_getD, h]

theorem getElem?_eq_some_slot {l : List hb_glyph_info_t} {i : Nat} (h : i < l.length) :
    l[i]? = some (slot l i) := by
  rw [slot_of_lt h, List.getElem?_eq_getElem h]

/-- Overwriting a slot by one with the same image under `g` leaves the images unchanged. -/
theorem map_set_slot {β : Type} (g : hb_glyph_info_t → β) (l : List hb_glyph_info_t) (i : Nat)
    (x : hb_glyph_info_t) (h : g x = g (slot l i)) : (l.set i x).map g = l.map g := by
  apply List.ext_getElem?
  intro n
  rw [List.getElem?_map, List.getElem?_map, List.getElem?_set]
  by_cases hin : i = n
  · subst hin
    by_cases hl : i < l.length
    · simp only [hl, if_true, getElem?_eq_some_slot hl, Option.map_some', h]
    · simp only [hl, if_false, if_true]
      rw [List.getElem?_eq_none (by omega)]
  · simp only [hin, if_false]

/-- The loop-invariant rule for `for_loop`. -/
theorem for_loop_invariant {σ : Type} (body : Nat → σ → σ) (P : Nat → σ → Prop) :
    ∀ (n a : Nat) (s : σ), P a s →
      (∀ i t, a ≤ i → i < a + n → P i t → P (i + 1) (body i t)) →
      P (a + n) (for_loop body n a s)
  | 0, a, s, h0, _ => by simpa [for_loop] using h0
  | n + 1, a, s, h0, hstep => by
    have h1 : P (a + 1) (body a s) := hstep a s (le_refl a) (by omega) h0
    have h2 := for_loop_invariant body P n (a + 1) (body a s) h1
      (fun i t hi1 hi2 hP => hstep i t (by omega) (by omega) hP)
    have e : a + (n + 1) = a + 1 + n := by omega
    rw [e]
    simpa [for_loop] using h2

/-! ## Lemmas: the backward scan -/

/-- The scan stops at `k` when `k` is a consonant without a below-base or post-base form and
every slot after it is passed over. -/
theorem base_scan_stops (K : indic_enums) (info : List hb_glyph_info_t) (limit k : Nat)
    (hc : is_consonant K (slot info k) = true)
    (hp1 : (slot info k).indic_position ≠ K.POS_BELOW_C)
    (hp2 : (slot info k).indic_position ≠ K.POS_POST_C) (hlk : limit ≤ k) :
    ∀ (i base : Nat), k < i →
      (∀ j, k < j → j < i → is_consonant K (slot info j) = true →
        (slot info j).indic_position = K.POS_BELOW_C ∨
          (slot info j).indic_position = K.POS_POST_C) →
      (∀ j, k < j → j < i → is_joiner K (slot info j) = false) →
      base_scan K info limit i base = k
  | 0, _, hki, _, _ => by omega
  | i + 1, base, hki, hmax, hjoin => by
    by_cases hik : i = k
    · subst hik
      simp [base_scan, hc, hp1, hp2]
    · have hlt : k < i := by omega
      have hlim : i > limit := by omega
      have ih := fun b => base_scan_stops K info limit k hc hp1 hp2 hlk i b hlt
        (fun j h1 h2 => hmax j h1 (by omega)) (fun j h1 h2 => hjoin j h1 (by omega))
      have hj := hjoin i hlt (by omega)
      by_cases hci : is_consonant K (slot info i) = true
      · have hpos := hmax i hlt (by omega) hci
        have hneg : ¬ ((slot info i).indic_position ≠ K.POS_BELOW_C ∧
            (slot info i).indic_position ≠ K.POS_POST_C) := by
          rintro ⟨h1, h2⟩
          rcases hpos with h | h
          · exact h1 h
          · exact h2 h
        rw [base_scan, if_pos hci, if_neg hneg, if_pos hlim]
        exact ih i
      · rw [base_scan, if_neg hci, hj, if_neg (by simp), if_pos hlim]
        exact ih base

theorem start_le_find_base (K : indic_enums) (info : List hb_glyph_info_t)
    (mask_array : Nat → Nat) (start end_ : Nat) :
    start ≤ find_base K info mask_array start end_ := by
  unfold find_base
  simp only
  split_ifs <;> omega

/-! ## Claims about the base consonant -/

/-- C1 (the code departs from the claim): on the syllable KA, HALANT, ZWJ the backward scan
meets the joiner before any consonant and stops; `base` keeps its initial value `end` and the
guard `base < start` does not fire.  The base index is 3, which is not below `end = 3`,
although the span holds a consonant at index 0; the same happens with `rphf` disabled. -/
theorem C1_base_escapes_syllable :
    find_base spec_enums [slot_KA, slot_HALANT, slot_ZWJ] test_masks 0 3 = 3 ∧
      ¬ find_base spec_enums [slot_KA, slot_HALANT, slot_ZWJ] test_masks 0 3 < 3 ∧
      find_base spec_enums [slot_KA, slot_HALANT, slot_ZWJ] test_masks_no_reph 0 3 = 3 ∧
      is_consonant spec_enums (slot [slot_KA, slot_HALANT, slot_ZWJ] 0) = true := by
  decide

/-- C6: with `limit` the lower bound of the scan (`start + 2` under the Reph precondition,
`start` otherwise), if `k` in `[limit, end)` is the greatest index of a consonant whose
position is neither `POS_BELOW_C` nor `POS_POST_C` and no joiner stands in `(k, end)`, the
selected base is `k`. -/
theorem C6_base_is_last_plain_consonant (K : indic_enums) (info : List hb_glyph_info_t)
    (mask_array : Nat → Nat) (start end_ k : Nat)
    (hlimit : (if reph_precondition K info mask_array start end_ then start + 2 else start) ≤ k)
    (hk : k < end_)
    (hc : is_consonant K (slot info k) = true)
    (hp : (slot info k).indic_position ≠ K.POS_BELOW_C ∧
      (slot info k).indic_position ≠ K.POS_POST_C)
    (hmax : ∀ j, k < j → j < end_ → is_consonant K (slot info j) = true →
      (slot info j).indic_position = K.POS_BELOW_C ∨
        (slot info j).indic_position = K.POS_POST_C)
    (hjoin : ∀ j, k < j → j < end_ → is_joiner K (slot info j) = false) :
    find_base K info mask_array start end_ = k := by
  have hscan := fun b => base_scan_stops K info
    (if reph_precondition K info mask_array start end_ then start + 2 else start) k hc hp.1 hp.2
    hlimit end_ b hk hmax hjoin
  have hsk : start ≤ k := by
    split at hlimit <;> omega
  unfold find_base
  simp only [hscan]
  rw [if_neg (by omega)]

/-- C6, the two scenarios of the claim: KA HALANT SSA has base 2, and RA HALANT KA HALANT SSA
with `rphf` enabled has base 4. -/
theorem C6_base_is_last_plain_consonant_witness :
    find_base spec_enums [slot_KA, slot_HALANT, slot_SSA] test_masks 0 3 = 2 ∧
      reph_precondition spec_enums [slot_RA, slot_HALANT, slot_KA, slot_HALANT, slot_SSA]
        test_masks 0 5 = true ∧
      find_base spec_enums [slot_RA, slot_HALANT, slot_KA, slot_HALANT, slot_SSA]
        test_masks 0 5 = 4 :=
  ⟨C6_base_is_last_plain_consonant spec_enums [slot_KA, slot_HALANT, slot_SSA] test_masks 0 3 2
      (by decide) (by decide) (by decide) (by decide) (fun j h1 h2 => by omega)
      (fun j h1 h2 => by omega),
    by decide,
    C6_base_is_last_plain_consonant spec_enums
      [slot_RA, slot_HALANT, slot_KA, slot_HALANT, slot_SSA] test_masks 0 5 4
      (by decide) (by decide) (by decide) (by decide) (fun j h1 h2 => by omega)
      (fun j h1 h2 => by omega)⟩

/-! ## Lemmas: loops over the buffer -/

theorem length_eq_of_map_eq {β : Type} {g : hb_glyph_info_t → β} {l l1 : List hb_glyph_info_t}
    (h : l.map g = l1.map g) : l.length = l1.length := by
  simpa using congrArg List.length h

theorem slot_congr_of_map_eq {β : Type} {g : hb_glyph_info_t → β} {l l1 : List hb_glyph_info_t}
    (h : l.map g = l1.map g) (i : Nat) : g (slot l i) = g (slot l1 i) := by
  have hlen := length_eq_of_map_eq h
  by_cases hi : i < l.length
  · have h1 := congrArg (fun t => t[i]?) h
    simp only [List.getElem?_map, getElem?_eq_some_slot hi,
      getElem?_eq_some_slot (hlen ▸ hi), Option.map_some', Option.some.injEq] at h1
    exact h1
  · rw [slot_of_le (by omega), slot_of_le (by omega)]

theorem for_loop_map_eq {β : Type} (g : hb_glyph_info_t → β)
    (body : Nat → List hb_glyph_info_t → List hb_glyph_info_t)
    (h : ∀ i t, (body i t).map g = t.map g) :
    ∀ (n a : Nat) (s : List hb_glyph_info_t), (for_loop body n a s).map g = s.map g
  | 0, _, _ => rfl
  | n + 1, a, s => by
    rw [for_loop, for_loop_map_eq g body h n (a + 1) (body a s), h]

theorem for_loop_length (body : Nat → List hb_glyph_info_t → List hb_glyph_info_t)
    (h : ∀ i t, (body i t).length = t.length) :
    ∀ (n a : Nat) (s : List hb_glyph_info_t), (for_loop body n a s).length = s.length
  | 0, _, _ => rfl
  | n + 1, a, s => by
    rw [for_loop, for_loop_length body h n (a + 1) (body a s), h]

/-- A loop whose body at `i` writes slot `i` only leaves the slots outside its range alone. -/
theorem for_loop_slot_outside (body : Nat → List hb_glyph_info_t → List hb_glyph_info_t)
    (h : ∀ i t j, j ≠ i → slot (body i t) j = slot t j) :
    ∀ (n a : Nat) (s : List hb_glyph_info_t) (j : Nat), j < a ∨ a + n ≤ j →
      slot (for_loop body n a s) j = slot s j
  | 0, _, _, _, _ => rfl
  | n + 1, a, s, j, hj => by
    rw [for_loop, for_loop_slot_outside body h n (a + 1) (body a s) j (by omega),
      h a s j (by omega)]

/-- A loop whose body at `i` rewrites slot `i` by `f i` and writes nothing else. -/
theorem for_loop_slot_inside (body : Nat → List hb_glyph_info_t → List hb_glyph_info_t)
    (f : Nat → hb_glyph_info_t → hb_glyph_info_t)
    (hlen : ∀ i t, (body i t).length = t.length)
    (hself : ∀ i t, i < t.length → slot (body i t) i = f i (slot t i))
    (hother : ∀ i t j, j ≠ i → slot (body i t) j = slot t j) :
    ∀ (n a : Nat) (s : List hb_glyph_info_t) (j : Nat), a ≤ j → j < a + n → j < s.length →
      slot (for_loop body n a s) j = f j (slot s j)
  | 0, _, _, _, _, _, _ => by omega
  | n + 1, a, s, j, h1, h2, h3 => by
    rw [for_loop]
    by_cases hja : j = a
    · subst hja
      rw [for_loop_slot_outside body hother n (j + 1) (body j s) j (by omega), hself j s h3]
    · have hlen1 : (body a s).length = s.length := hlen a s
      rw [for_loop_slot_inside body f hlen hself hother n (a + 1) (body a s) j (by omega) (by omega)
        (by omega), hother a s j hja]

theorem for_loop_id {σ : Type} (body : Nat → σ → σ) (s : σ) :
    ∀ (n a : Nat), (∀ i, a ≤ i → i < a + n → body i s = s) → for_loop body n a s = s
  | 0, _, _ => rfl
  | n + 1, a, h => by
    rw [for_loop, h a (le_refl a) (by omega)]
    exact for_loop_id body s n (a + 1) (fun i h1 h2 => h i (by omega) (by omega))

/-! ## Lemmas: single writes -/

theorem set_position_length (l : List hb_glyph_info_t) (i p : Nat) :
    (set_position l i p).length = l.length := by
  simp [set_position]

theorem set_mask_length (l : List hb_glyph_info_t) (i m : Nat) :
    (set_mask l i m).length = l.length := by
  simp [set_mask]

theorem or_mask_length (l : List hb_glyph_info_t) (i m : Nat) :
    (or_mask l i m).length = l.length := by
  simp [or_mask, set_mask]

theorem slot_set_position_self {l : List hb_glyph_info_t} {i : Nat} (p : Nat)
    (h : i < l.length) :
    slot (set_position l i p) i = { slot l i with indic_position := p } :=
  slot_set_self _ h

theorem slot_set_position_ne (l : List hb_glyph_info_t) {i j : Nat} (p : Nat) (h : j ≠ i) :
    slot (set_position l i p) j = slot l j :=
  slot_set_ne _ (Ne.symm h)

theorem slot_set_mask_self {l : List hb_glyph_info_t} {i : Nat} (m : Nat) (h : i < l.length) :
    slot (set_mask l i m) i = { slot l i with mask := m } :=
  slot_set_self _ h

theorem slot_set_mask_ne (l : List hb_glyph_info_t) {i j : Nat} (m : Nat) (h : j ≠ i) :
    slot (set_mask l i m) j = slot l j :=
  slot_set_ne _ (Ne.symm h)

theorem slot_or_mask_self {l : List hb_glyph_info_t} {i : Nat} (m : Nat) (h : i < l.length) :
    slot (or_mask l i m) i = { slot l i with mask := (slot l i).mask ||| m } :=
  slot_set_self _ h

theorem slot_or_mask_ne (l : List hb_glyph_info_t) {i j : Nat} (m : Nat) (h : j ≠ i) :
    slot (or_mask l i m) j = slot l j :=
  slot_set_ne _ (Ne.symm h)

theorem set_position_map_unposition (l : List hb_glyph_info_t) (i p : Nat) :
    (set_position l i p).map unposition = l.map unposition :=
  map_set_slot _ _ _ _ rfl

theorem set_position_map_glyph_of (l : List hb_glyph_info_t) (i p : Nat) :
    (set_position l i p).map glyph_of = l.map glyph_of :=
  map_set_slot _ _ _ _ rfl

theorem set_mask_map_unmask (l : List hb_glyph_info_t) (i m : Nat) :
    (set_mask l i m).map unmask = l.map unmask :=
  map_set_slot _ _ _ _ rfl

theorem set_mask_map_glyph_of (l : List hb_glyph_info_t) (i m : Nat) :
    (set_mask l i m).map glyph_of = l.map glyph_of :=
  map_set_slot _ _ _ _ rfl

theorem or_mask_map_unmask (l : List hb_glyph_info_t) (i m : Nat) :
    (or_mask l i m).map unmask = l.map unmask :=
  map_set_slot _ _ _ _ rfl

theorem map_glyph_of_of_unposition {l l1 : List hb_glyph_info_t}
    (h : l.map unposition = l1.map unposition) : l.map glyph_of = l1.map glyph_of := by
  have h1 := congrArg (List.map glyph_of) h
  simpa [List.map_map, Function.comp_def, glyph_of, unposition] using h1

theorem map_glyph_of_of_unmask {l l1 : List hb_glyph_info_t}
    (h : l.map unmask = l1.map unmask) : l.map glyph_of = l1.map glyph_of := by
  have h1 := congrArg (List.map glyph_of) h
  simpa [List.map_map, Function.comp_def, glyph_of, unmask] using h1

theorem category_eq_of_glyph_of {x y : hb_glyph_info_t} (h : glyph_of x = glyph_of y) :
    x.indic_category = y.indic_category :=
  congrArg Prod.snd h

theorem codepoint_eq_of_glyph_of {x y : hb_glyph_info_t} (h : glyph_of x = glyph_of y) :
    x.codepoint = y.codepoint :=
  congrArg Prod.fst h

/-! ## Lemmas: the steps that write positions or masks in place -/

theorem reorder_characters_map (K : indic_enums) (l : List hb_glyph_info_t) (start base : Nat) :
    (reorder_characters K l start base).map unposition = l.map unposition := by
  unfold reorder_characters
  simp only
  rw [set_position_map_unposition]
  exact for_loop_map_eq unposition _ (fun i t => set_position_map_unposition t i _) _ _ _

theorem handle_beginning_ra_map (K : indic_enums) (l : List hb_glyph_info_t)
    (mask_array : Nat → Nat) (has_reph : Bool) (start end_ : Nat) :
    (handle_beginning_ra K l mask_array has_reph start end_).map glyph_of = l.map glyph_of := by
  unfold handle_beginning_ra
  split
  · simp only
    rw [set_mask_map_glyph_of, set_position_map_glyph_of]
  · rfl

theorem attach_marks_map (K : indic_enums) (l : List hb_glyph_info_t) (start end_ : Nat) :
    (attach_marks K l start end_).map unposition = l.map unposition := by
  unfold attach_marks
  apply for_loop_map_eq unposition
  intro i t
  split
  · exact set_position_map_unposition t i _
  · rfl

theorem setup_syllable_masks_map (l : List hb_glyph_info_t) (mask_array : Nat → Nat)
    (start base end_ : Nat) :
    (setup_syllable_masks l mask_array start base end_).map unmask = l.map unmask := by
  unfold setup_syllable_masks
  rw [for_loop_map_eq unmask _ (fun i t => or_mask_map_unmask t i _), or_mask_map_unmask,
    for_loop_map_eq unmask _ (fun i t => or_mask_map_unmask t i _)]

theorem joiner_walk_map (K : indic_enums) (mask_array : Nat → Nat) (non_joiner : Bool)
    (start : Nat) : ∀ (j : Nat) (l : List hb_glyph_info_t),
      (joiner_walk K mask_array non_joiner start j l).map unmask = l.map unmask
  | 0, _ => rfl
  | j + 1, l => by
    have h1 : (clear_half mask_array non_joiner l j).map unmask = l.map unmask := by
      unfold clear_half
      split
      · exact set_mask_map_unmask l j _
      · rfl
    rw [joiner_walk]
    split
    · rw [joiner_walk_map K mask_array non_joiner start j _, h1]
    · exact h1

theorem apply_joiners_map (K : indic_enums) (l : List hb_glyph_info_t)
    (mask_array : Nat → Nat) (start end_ : Nat) :
    (apply_joiners K l mask_array start end_).map unmask = l.map unmask := by
  unfold apply_joiners
  apply for_loop_map_eq unmask
  intro i t
  simp only
  split
  · exact joiner_walk_map K mask_array _ start i t
  · rfl

/-! ## Lemmas: the bubble sort -/

theorem compare_indic_order_pos (a b : hb_glyph_info_t) :
    compare_indic_order a b > 0 ↔ b.indic_position < a.indic_position := by
  unfold compare_indic_order
  simp only
  split_ifs with h1 h2
  · constructor
    · intro h; omega
    · intro h; omega
  · constructor
    · intro h; omega
    · intro h; omega
  · constructor
    · intro _; omega
    · intro _; omega

theorem bubble_pass_perm (compar : hb_glyph_info_t → hb_glyph_info_t → Int) :
    ∀ (l : List hb_glyph_info_t) (a : hb_glyph_info_t), (bubble_pass compar a l).Perm (a :: l)
  | [], _ => List.Perm.refl _
  | b :: rest, a => by
    rw [bubble_pass]
    split
    · exact ((bubble_pass_perm compar rest a).cons b).trans (List.Perm.swap a b rest)
    · exact (bubble_pass_perm compar rest b).cons a

/-- After a pass the last slot is a greatest one. -/
theorem bubble_pass_last (compar : hb_glyph_info_t → hb_glyph_info_t → Int)
    (hc : ∀ a b, compar a b > 0 ↔ b.indic_position < a.indic_position) :
    ∀ (l : List hb_glyph_info_t) (a : hb_glyph_info_t),
      ∃ init m, bubble_pass compar a l = init ++ [m] ∧
        ∀ x ∈ init, x.indic_position ≤ m.indic_position
  | [], a => ⟨[], a, rfl, by simp⟩
  | b :: rest, a => by
    rw [bubble_pass]
    split
    · rename_i hgt
      obtain ⟨init, m, he, hle⟩ := bubble_pass_last compar hc rest a
      refine ⟨b :: init, m, by rw [he]; rfl, ?_⟩
      have ha : a ∈ init ++ [m] := by
        rw [← he]
        exact (bubble_pass_perm compar rest a).mem_iff.mpr (List.mem_cons_self a rest)
      have ham : a.indic_position ≤ m.indic_position := by
        rcases List.mem_append.mp ha with h | h
        · exact hle a h
        · simp only [List.mem_singleton] at h
          rw [h]
      have hba := (hc a b).mp hgt
      intro x hx
      rcases List.mem_cons.mp hx with h | h
      · rw [h]; omega
      · exact hle x h
    · rename_i hgt
      obtain ⟨init, m, he, hle⟩ := bubble_pass_last compar hc rest b
      refine ⟨a :: init, m, by rw [he]; rfl, ?_⟩
      have hb : b ∈ init ++ [m] := by
        rw [← he]
        exact (bubble_pass_perm compar rest b).mem_iff.mpr (List.mem_cons_self b rest)
      have hbm : b.indic_position ≤ m.indic_position := by
        rcases List.mem_append.mp hb with h | h
        · exact hle b h
        · simp only [List.mem_singleton] at h
          rw [h]
      have hab : ¬ b.indic_position < a.indic_position := fun h => hgt ((hc a b).mpr h)
      intro x hx
      rcases List.mem_cons.mp hx with h | h
      · rw [h]; omega
      · exact hle x h

/-- A pass never exchanges two slots of equal position. -/
theorem bubble_pass_filter (compar : hb_glyph_info_t → hb_glyph_info_t → Int)
    (hc : ∀ a b, compar a b > 0 ↔ b.indic_position < a.indic_position) (p : Nat) :
    ∀ (l : List hb_glyph_info_t) (a : hb_glyph_info_t),
      (bubble_pass compar a l).filter (fun x => decide (x.indic_position = p)) =
        (a :: l).filter (fun x => decide (x.indic_position = p))
  | [], _ => rfl
  | b :: rest, a => by
    rw [bubble_pass]
    split
    · rename_i hgt
      have hba := (hc a b).mp hgt
      rw [List.filter_cons, bubble_pass_filter compar hc p rest a]
      by_cases h1 : a.indic_position = p
      · have h2 : ¬ b.indic_position = p := by omega
        simp [List.filter_cons, h1, h2]
      · simp [List.filter_cons, h1]
    · rw [List.filter_cons, bubble_pass_filter compar hc p rest b]
      simp [List.filter_cons]

theorem bubble_passes_perm (compar : hb_glyph_info_t → hb_glyph_info_t → Int) :
    ∀ (n : Nat) (l : List hb_glyph_info_t), (bubble_passes compar n l).Perm l
  | 0, _ => List.Perm.refl _
  | _ + 1, [] => List.Perm.refl _
  | n + 1, a :: rest => by
    rw [bubble_passes]
    have h1 := bubble_passes_perm compar n
      ((bubble_pass compar a rest).take ((bubble_pass compar a rest).length - 1))
    have h2 := List.take_append_drop ((bubble_pass compar a rest).length - 1)
      (bubble_pass compar a rest)
    have h3 := (List.perm_append_right_iff
      ((bubble_pass compar a rest).drop ((bubble_pass compar a rest).length - 1))).mpr h1
    rw [h2] at h3
    exact h3.trans (bubble_pass_perm compar rest a)

theorem bubble_passes_sorted (compar : hb_glyph_info_t → hb_glyph_info_t → Int)
    (hc : ∀ a b, compar a b > 0 ↔ b.indic_position < a.indic_position) :
    ∀ (n : Nat) (l : List hb_glyph_info_t), l.length ≤ n →
      (bubble_passes compar n l).Pairwise (fun x y => x.indic_position ≤ y.indic_position)
  | 0, l, h => by
    have : l = [] := List.length_eq_zero.mp (by omega)
    subst this
    exact List.Pairwise.nil
  | _ + 1, [], _ => List.Pairwise.nil
  | n + 1, a :: rest, h => by
    rw [bubble_passes]
    obtain ⟨init, m, he, hle⟩ := bubble_pass_last compar hc rest a
    have hlen : (bubble_pass compar a rest).length = rest.length + 1 := by
      simpa using (bubble_pass_perm compar rest a).length_eq
    have hinit : init.length = rest.length := by
      have := congrArg List.length he
      simp only [hlen, List.length_append, List.length_singleton] at this
      omega
    have e1 : (bubble_pass compar a rest).length - 1 = init.length := by omega
    rw [e1, he, List.take_left, List.drop_left]
    rw [List.pairwise_append]
    refine ⟨bubble_passes_sorted compar hc n init ?_, List.pairwise_singleton _ _, ?_⟩
    · simp only [List.length_cons] at h
      omega
    · intro x hx y hy
      simp only [List.mem_singleton] at hy
      rw [hy]
      exact hle x ((bubble_passes_perm compar n init).mem_iff.mp hx)

theorem bubble_passes_filter (compar : hb_glyph_info_t → hb_glyph_info_t → Int)
    (hc : ∀ a b, compar a b > 0 ↔ b.indic_position < a.indic_position) (p : Nat) :
    ∀ (n : Nat) (l : List hb_glyph_info_t),
      (bubble_passes compar n l).filter (fun x => decide (x.indic_position = p)) =
        l.filter (fun x => decide (x.indic_position = p))
  | 0, _ => rfl
  | _ + 1, [] => rfl
  | n + 1, a :: rest => by
    rw [bubble_passes]
    rw [List.filter_append, bubble_passes_filter compar hc p n, ← List.filter_append,
      List.take_append_drop, bubble_pass_filter compar hc p rest a]

theorem hb_bubble_sort_perm (l : List hb_glyph_info_t) :
    (hb_bubble_sort l compare_indic_order).Perm l :=
  bubble_passes_perm _ _ _

theorem hb_bubble_sort_sorted (l : List hb_glyph_info_t) :
    (hb_bubble_sort l compare_indic_order).Pairwise
      (fun x y => x.indic_position ≤ y.indic_position) :=
  bubble_passes_sorted _ compare_indic_order_pos _ _ (le_refl _)

theorem hb_bubble_sort_stable (l : List hb_glyph_info_t) (p : Nat) :
    (hb_bubble_sort l compare_indic_order).filter (fun x => decide (x.indic_position = p)) =
      l.filter (fun x => decide (x.indic_position = p)) :=
  bubble_passes_filter _ compare_indic_order_pos p _ _

theorem hb_bubble_sort_length (l : List hb_glyph_info_t) :
    (hb_bubble_sort l compare_indic_order).length = l.length :=
  (hb_bubble_sort_perm l).length_eq

/-! ## Lemmas: the slots of a syllable -/

theorem split_at_span {α : Type} (a : List α) (s e : Nat) (h : s ≤ e) :
    a.take s ++ ((a.drop s).take (e - s) ++ a.drop e) = a := by
  have h1 : a.drop e = (a.drop s).drop (e - s) := by
    rw [List.drop_drop]
    congr 1
    omega
  rw [h1, List.take_append_drop, List.take_append_drop]

/-- Two lists that are permutations of each other and agree outside a span are permutations
of each other inside it. -/
theorem span_perm {α : Type} (a b : List α) (s e : Nat) (hse : s ≤ e) (hp : a.Perm b)
    (hl : a.take s = b.take s) (hr : a.drop e = b.drop e) :
    ((a.drop s).take (e - s)).Perm ((b.drop s).take (e - s)) := by
  have ha := split_at_span a s e hse
  have hb := split_at_span b s e hse
  rw [← ha, ← hb, hl, hr] at hp
  exact (List.perm_append_right_iff _).mp ((List.perm_append_left_iff _).mp hp)

theorem syllable_length (l : List hb_glyph_info_t) (s e : Nat) (he : e ≤ l.length) :
    (syllable l s e).length = e - s := by
  unfold syllable
  rw [List.length_take, List.length_drop]
  omega

theorem syllable_map {β : Type} (g : hb_glyph_info_t → β) (l : List hb_glyph_info_t)
    (s e : Nat) : (syllable l s e).map g = ((l.map g).drop s).take (e - s) := by
  unfold syllable
  rw [List.map_take, List.map_drop]

theorem syllable_map_congr {β : Type} (g : hb_glyph_info_t → β) {l l1 : List hb_glyph_info_t}
    (h : l.map g = l1.map g) (s e : Nat) : (syllable l s e).map g = (syllable l1 s e).map g := by
  rw [syllable_map, syllable_map, h]

theorem slot_syllable (l : List hb_glyph_info_t) (s e i : Nat) (h : s + i < e) :
    slot (syllable l s e) i = slot l (s + i) := by
  apply slot_eq_of_getElem?
  unfold syllable
  rw [List.getElem?_take, if_pos (by omega), List.getElem?_drop]

theorem mem_syllable_iff (l : List hb_glyph_info_t) (s e : Nat) (he : e ≤ l.length)
    (x : hb_glyph_info_t) : x ∈ syllable l s e ↔ ∃ i, s ≤ i ∧ i < e ∧ slot l i = x := by
  constructor
  · intro hx
    obtain ⟨n, hn, hxn⟩ := List.mem_iff_getElem.mp hx
    have hlen := syllable_length l s e he
    refine ⟨s + n, by omega, by omega, ?_⟩
    rw [← slot_syllable l s e n (by omega), slot_of_lt hn, hxn]
  · rintro ⟨i, h1, h2, h3⟩
    have hlen := syllable_length l s e he
    have hi : i - s < (syllable l s e).length := by omega
    have e1 : slot (syllable l s e) (i - s) = x := by
      rw [slot_syllable l s e (i - s) (by omega), ← h3]
      congr 1
      omega
    rw [slot_of_lt hi] at e1
    rw [← e1]
    exact List.getElem_mem _

/-! ## Lemmas: the sort of the syllable -/

theorem sort_syllable_length (l : List hb_glyph_info_t) (s e : Nat) (hse : s ≤ e) :
    (sort_syllable l s e).length = l.length := by
  have h := congrArg List.length (split_at_span l s e hse)
  unfold sort_syllable
  simp only [List.length_append, hb_bubble_sort_length] at h ⊢
  omega

theorem sort_syllable_perm (l : List hb_glyph_info_t) (s e : Nat) (hse : s ≤ e) :
    (sort_syllable l s e).Perm l := by
  have h := split_at_span l s e hse
  unfold sort_syllable
  rw [List.append_assoc]
  conv_rhs => rw [← h]
  exact (List.perm_append_left_iff _).mpr
    ((List.perm_append_right_iff _).mpr (hb_bubble_sort_perm _))

theorem syllable_sort_syllable (l : List hb_glyph_info_t) (s e : Nat) (hse : s ≤ e)
    (he : e ≤ l.length) :
    syllable (sort_syllable l s e) s e = hb_bubble_sort (syllable l s e) compare_indic_order := by
  have hlen : (hb_bubble_sort (syllable l s e) compare_indic_order).length = e - s := by
    rw [hb_bubble_sort_length, syllable_length l s e he]
  have hts : (l.take s).length = s := by
    rw [List.length_take]
    omega
  unfold sort_syllable
  unfold syllable at hlen ⊢
  rw [List.append_assoc, List.drop_left' hts, List.take_left' hlen]

theorem take_sort_syllable (l : List hb_glyph_info_t) (s e : Nat) (hs : s ≤ l.length) :
    (sort_syllable l s e).take s = l.take s := by
  have hts : (l.take s).length = s := by
    rw [List.length_take]
    omega
  unfold sort_syllable
  rw [List.append_assoc, List.take_left' hts]

theorem drop_sort_syllable (l : List hb_glyph_info_t) (s e : Nat) (hse : s ≤ e)
    (he : e ≤ l.length) : (sort_syllable l s e).drop e = l.drop e := by
  have hlen : (l.take s ++ hb_bubble_sort (syllable l s e) compare_indic_order).length = e := by
    rw [List.length_append, hb_bubble_sort_length, syllable_length l s e he, List.length_take]
    omega
  unfold sort_syllable
  exact List.drop_left' hlen

/-! ## Lemmas: the halant move -/

theorem move_halant_length (l : List hb_glyph_info_t) (i j : Nat) :
    (move_halant l i j).length = l.length := by
  unfold move_halant
  simp only [List.length_set]
  exact for_loop_length _ (fun k t => List.length_set t k _) _ _ _

theorem slot_move_halant (l : List hb_glyph_info_t) (i j : Nat) (hij : i < j)
    (hj : j < l.length) (m : Nat) :
    slot (move_halant l i j) m =
      if m < i then slot l m else if m < j then slot l (m + 1)
      else if m = j then slot l i else slot l m := by
  have hlen : (for_loop (fun k acc => acc.set k (slot l (k + 1))) (j - i) i l).length
      = l.length := for_loop_length _ (fun k t => List.length_set t k _) _ _ _
  have hother : ∀ (k : Nat) (t : List hb_glyph_info_t) (n : Nat), n ≠ k →
      slot (t.set k (slot l (k + 1))) n = slot t n := fun k t n h => slot_set_ne _ (Ne.symm h)
  unfold move_halant
  simp only
  by_cases hmj : m = j
  · subst hmj
    rw [slot_set_self _ (by omega), if_neg (by omega), if_neg (by omega), if_pos rfl]
  · rw [slot_set_ne _ (Ne.symm hmj)]
    by_cases hmi : m < i
    · rw [if_pos hmi]
      exact for_loop_slot_outside _ hother _ _ _ _ (Or.inl hmi)
    · rw [if_neg hmi]
      by_cases hmj2 : m < j
      · rw [if_pos hmj2]
        exact for_loop_slot_inside _ (fun k _ => slot l (k + 1))
          (fun k t => List.length_set t k _) (fun k t hk => slot_set_self _ hk) hother _ _ _ _
          (by omega) (by omega) (by omega)
      · rw [if_neg hmj2, if_neg hmj]
        exact for_loop_slot_outside _ hother _ _ _ _ (Or.inr (by omega))

/-- The halant move as a rotation of the list. -/
theorem move_halant_eq (l : List hb_glyph_info_t) (i j : Nat) (hij : i < j)
    (hj : j < l.length) :
    move_halant l i j =
      l.take i ++ ((l.drop (i + 1)).take (j - i) ++ (slot l i :: l.drop (j + 1))) := by
  apply List.ext_getElem?
  intro n
  have hti : (l.take i).length = i := by
    rw [List.length_take]; omega
  have htm : ((l.drop (i + 1)).take (j - i)).length = j - i := by
    rw [List.length_take, List.length_drop]; omega
  by_cases hn : n < l.length
  · rw [getElem?_eq_some_slot (by rw [move_halant_length]; exact hn),
      slot_move_halant l i j hij hj n]
    by_cases h1 : n < i
    · rw [if_pos h1, List.getElem?_append_left (by omega), List.getElem?_take, if_pos h1,
        getElem?_eq_some_slot hn]
    · rw [if_neg h1, List.getElem?_append_right (by omega), hti]
      by_cases h2 : n < j
      · rw [if_pos h2, List.getElem?_append_left (by omega), List.getElem?_take,
          if_pos (by omega), List.getElem?_drop]
        have e1 : i + 1 + (n - i) = n + 1 := by omega
        rw [e1, getElem?_eq_some_slot (by omega)]
      · rw [if_neg h2, List.getElem?_append_right (by omega), htm]
        by_cases h3 : n = j
        · subst h3
          have e1 : n - i - (n - i) = 0 := by omega
          rw [if_pos rfl, e1, List.getElem?_cons_zero]
        · have e1 : n - i - (j - i) = (n - j - 1) + 1 := by omega
          rw [if_neg h3, e1, List.getElem?_cons_succ, List.getElem?_drop]
          have e2 : j + 1 + (n - j - 1) = n := by omega
          rw [e2, getElem?_eq_some_slot hn]
  · rw [List.getElem?_eq_none (by rw [move_halant_length]; omega)]
    symm
    apply List.getElem?_eq_none
    simp only [List.length_append, List.length_cons, hti, htm, List.length_drop]
    omega

theorem move_halant_perm (l : List hb_glyph_info_t) (i j : Nat) (hij : i < j)
    (hj : j < l.length) : (move_halant l i j).Perm l := by
  have h0 : l.drop i = slot l i :: l.drop (i + 1) := by
    rw [slot_of_lt (by omega : i < l.length)]
    exact List.drop_eq_getElem_cons (by omega)
  have h1 : l.drop (i + 1) = (l.drop (i + 1)).take (j - i) ++ l.drop (j + 1) := by
    have e : l.drop (j + 1) = (l.drop (i + 1)).drop (j - i) := by
      rw [List.drop_drop]
      congr 1
      omega
    rw [e, List.take_append_drop]
  have h2 : l = l.take i ++ (slot l i :: ((l.drop (i + 1)).take (j - i) ++ l.drop (j + 1))) := by
    rw [← h1, ← h0, List.take_append_drop]
  rw [move_halant_eq l i j hij hj]
  conv_rhs => rw [h2]
  exact (List.perm_append_left_iff _).mpr List.perm_middle

theorem first_halant_some (K : indic_enums) (l : List hb_glyph_info_t) :
    ∀ (n a i : Nat), first_halant K l n a = some i →
      a ≤ i ∧ i < a + n ∧ (slot l i).indic_category = K.OT_H ∧
        ∀ m, a ≤ m → m < i → (slot l m).indic_category ≠ K.OT_H
  | 0, _, _, h => by simp [first_halant] at h
  | n + 1, a, i, h => by
    rw [first_halant] at h
    split at h
    · rename_i hc
      simp only [Option.some.injEq] at h
      subst h
      exact ⟨le_refl _, by omega, hc, fun m h1 h2 => by omega⟩
    · rename_i hc
      obtain ⟨h1, h2, h3, h4⟩ := first_halant_some K l n (a + 1) i h
      refine ⟨by omega, by omega, h3, ?_⟩
      intro m hm1 hm2
      by_cases hma : m = a
      · subst hma; exact hc
      · exact h4 m (by omega) hm2

theorem last_consonant_le (K : indic_enums) (l : List hb_glyph_info_t) (i : Nat) :
    ∀ (j : Nat), last_consonant K l i j ≤ j
  | 0 => le_refl _
  | j + 1 => by
    rw [last_consonant]
    split_ifs
    · exact le_refl _
    · exact Nat.le_succ_of_le (last_consonant_le K l i j)
    · exact le_refl _

/-- The halant block either leaves the buffer alone or moves one slot of `(base, end)`. -/
theorem old_style_halant_cases (K : indic_enums) (map : hb_ot_map_t)
    (l : List hb_glyph_info_t) (base end_ : Nat) :
    old_style_halant K map l base end_ = l ∨
      ∃ i j, base + 1 ≤ i ∧ i < j ∧ j < end_ ∧
        old_style_halant K map l base end_ = move_halant l i j := by
  unfold old_style_halant
  split
  · split
    · exact Or.inl rfl
    · rename_i i hi
      simp only
      split
      · rename_i hgt
        obtain ⟨h1, h2, _, _⟩ := first_halant_some K l _ _ i hi
        have h3 := last_consonant_le K l i (end_ - 1)
        exact Or.inr ⟨i, _, h1, hgt, by omega, rfl⟩
      · exact Or.inl rfl
  · exact Or.inl rfl

theorem old_style_halant_length (K : indic_enums) (map : hb_ot_map_t)
    (l : List hb_glyph_info_t) (base end_ : Nat) :
    (old_style_halant K map l base end_).length = l.length := by
  rcases old_style_halant_cases K map l base end_ with h | ⟨i, j, _, _, _, h⟩
  · rw [h]
  · rw [h, move_halant_length]

theorem old_style_halant_perm (K : indic_enums) (map : hb_ot_map_t)
    (l : List hb_glyph_info_t) (base end_ : Nat) (he : end_ ≤ l.length) :
    (old_style_halant K map l base end_).Perm l := by
  rcases old_style_halant_cases K map l base end_ with h | ⟨i, j, _, h2, h3, h⟩
  · rw [h]
  · rw [h]
    exact move_halant_perm l i j h2 (by omega)

theorem slot_old_style_halant (K : indic_enums) (map : hb_ot_map_t)
    (l : List hb_glyph_info_t) (base end_ : Nat) (he : end_ ≤ l.length) (m : Nat)
    (hm : m ≤ base ∨ end_ ≤ m) : slot (old_style_halant K map l base end_) m = slot l m := by
  rcases old_style_halant_cases K map l base end_ with h | ⟨i, j, h1, h2, h3, h⟩
  · rw [h]
  · rw [h, slot_move_halant l i j h2 (by omega) m]
    rcases hm with hm | hm
    · rw [if_pos (by omega)]
    · rw [if_neg (by omega), if_neg (by omega), if_neg (by omega)]

/-! ## Lemmas: lengths, and the state before the sort -/

theorem reorder_characters_length (K : indic_enums) (l : List hb_glyph_info_t)
    (start base : Nat) : (reorder_characters K l start base).length = l.length :=
  length_eq_of_map_eq (reorder_characters_map K l start base)

theorem handle_beginning_ra_length (K : indic_enums) (l : List hb_glyph_info_t)
    (mask_array : Nat → Nat) (has_reph : Bool) (start end_ : Nat) :
    (handle_beginning_ra K l mask_array has_reph start end_).length = l.length :=
  length_eq_of_map_eq (handle_beginning_ra_map K l mask_array has_reph start end_)

theorem attach_marks_length (K : indic_enums) (l : List hb_glyph_info_t) (start end_ : Nat) :
    (attach_marks K l start end_).length = l.length :=
  length_eq_of_map_eq (attach_marks_map K l start end_)

theorem setup_syllable_masks_length (l : List hb_glyph_info_t) (mask_array : Nat → Nat)
    (start base end_ : Nat) :
    (setup_syllable_masks l mask_array start base end_).length = l.length :=
  length_eq_of_map_eq (setup_syllable_masks_map l mask_array start base end_)

theorem apply_joiners_length (K : indic_enums) (l : List hb_glyph_info_t)
    (mask_array : Nat → Nat) (start end_ : Nat) :
    (apply_joiners K l mask_array start end_).length = l.length :=
  length_eq_of_map_eq (apply_joiners_map K l mask_array start end_)

theorem before_sort_length (K : indic_enums) (map : hb_ot_map_t) (info : List hb_glyph_info_t)
    (mask_array : Nat → Nat) (start end_ : Nat) :
    (before_sort K map info mask_array start end_).length = info.length := by
  unfold before_sort
  simp only [attach_marks_length, old_style_halant_length, handle_beginning_ra_length,
    reorder_characters_length]

/-- Above 20 slots the function returns at once, with the buffer as it is before the sort. -/
theorem found_consonant_syllable_long (K : indic_enums) (map : hb_ot_map_t)
    (info : List hb_glyph_info_t) (mask_array : Nat → Nat) (start end_ : Nat)
    (h : end_ - start > 20) :
    found_consonant_syllable K map info mask_array start end_ =
      before_sort K map info mask_array start end_ := by
  unfold found_consonant_syllable
  simp only [if_pos h]

/-- Up to 20 slots: the sort, the masks, the joiners. -/
theorem found_consonant_syllable_short (K : indic_enums) (map : hb_ot_map_t)
    (info : List hb_glyph_info_t) (mask_array : Nat → Nat) (start end_ : Nat)
    (h : end_ - start ≤ 20) :
    found_consonant_syllable K map info mask_array start end_ =
      apply_joiners K
        (setup_syllable_masks
          (sort_syllable (before_sort K map info mask_array start end_) start end_)
          mask_array start (find_base K info mask_array start end_) end_)
        mask_array start end_ := by
  unfold found_consonant_syllable
  simp only [if_neg (by omega : ¬ end_ - start > 20)]

/-- After the sort only masks are written. -/
theorem found_consonant_syllable_map_unmask (K : indic_enums) (map : hb_ot_map_t)
    (info : List hb_glyph_info_t) (mask_array : Nat → Nat) (start end_ : Nat)
    (h : end_ - start ≤ 20) :
    (found_consonant_syllable K map info mask_array start end_).map unmask =
      (sort_syllable (before_sort K map info mask_array start end_) start end_).map unmask := by
  rw [found_consonant_syllable_short K map info mask_array start end_ h, apply_joiners_map,
    setup_syllable_masks_map]

theorem filter_position_map_unmask (l : List hb_glyph_info_t) (p : Nat) :
    (l.filter (fun x => decide (x.indic_position = p))).map unmask =
      (l.map unmask).filter (fun x => decide (x.indic_position = p)) := by
  rw [List.filter_map]
  rfl

theorem pairwise_position_map_unmask (l : List hb_glyph_info_t) :
    (l.map unmask).Pairwise (fun x y => x.indic_position ≤ y.indic_position) ↔
      l.Pairwise (fun x y => x.indic_position ≤ y.indic_position) := by
  rw [List.pairwise_map]
  rfl

/-- The slots of the syllable after the call are, masks aside, the sorted slots. -/
theorem syllable_found_consonant_syllable (K : indic_enums) (map : hb_ot_map_t)
    (info : List hb_glyph_info_t) (mask_array : Nat → Nat) (start end_ : Nat)
    (hse : start ≤ end_) (he : end_ ≤ info.length) (h20 : end_ - start ≤ 20) :
    (syllable (found_consonant_syllable K map info mask_array start end_) start end_).map unmask
      = (hb_bubble_sort (syllable (before_sort K map info mask_array start end_) start end_)
          compare_indic_order).map unmask := by
  rw [syllable_map_congr unmask
      (found_consonant_syllable_map_unmask K map info mask_array start end_ h20),
    syllable_sort_syllable _ _ _ hse (by rw [before_sort_length]; exact he)]

/-! ## Lemmas: mark attachment -/

theorem attach_marks_spec (K : indic_enums) (l : List hb_glyph_info_t) (start end_ : Nat)
    (hse : start < end_) (he : end_ ≤ l.length) (i : Nat) (h1 : start < i) (h2 : i < end_)
    (hi : is_attached K (slot (attach_marks K l start end_) i) = true) :
    (slot (attach_marks K l start end_) i).indic_position =
      (slot (attach_marks K l start end_) (i - 1)).indic_position := by
  have key := for_loop_invariant
    (fun i info =>
      if is_attached K (slot info i) then
        set_position info i (slot info (i - 1)).indic_position
      else info)
    (fun i t => t.length = l.length ∧ ∀ j, start < j → j < i →
      is_attached K (slot t j) = true →
      (slot t j).indic_position = (slot t (j - 1)).indic_position)
    (end_ - (start + 1)) (start + 1) l ⟨rfl, fun j h1 h2 => by omega⟩
    (by
      intro k t hk1 hk2 ⟨hlen, hP⟩
      by_cases hat : is_attached K (slot t k) = true
      · simp only [hat, if_true]
        refine ⟨by rw [set_position_length, hlen], ?_⟩
        intro j hj1 hj2 hj3
        by_cases hjk : j = k
        · subst hjk
          rw [slot_set_position_self _ (by omega), slot_set_position_ne _ _ (by omega)]
        · rw [slot_set_position_ne _ _ hjk] at hj3 ⊢
          rw [slot_set_position_ne _ _ (by omega)]
          exact hP j hj1 (by omega) hj3
      · simp only [hat]
        refine ⟨hlen, ?_⟩
        intro j hj1 hj2 hj3
        by_cases hjk : j = k
        · subst hjk
          exact absurd hj3 hat
        · exact hP j hj1 (by omega) hj3)
  have e : start + 1 + (end_ - (start + 1)) = end_ := by omega
  rw [e] at key
  exact key.2 i h1 h2 hi

/-! ## Claims about the sort and mark attachment -/

/-- C4: for a syllable of at most 20 slots inside the buffer, the slots of `[start, end)` after
`found_consonant_syllable` are, masks aside (they are written after the sort), what
`hb_bubble_sort` with `compare_indic_order` makes of the slots as they stood after mark
attachment; their positions are non-decreasing; for every position value the slots of that
position come in the order they had after mark attachment; and they are a rearrangement of
those slots. -/
theorem C4_syllable_is_stably_sorted (K : indic_enums) (map : hb_ot_map_t)
    (info : List hb_glyph_info_t) (mask_array : Nat → Nat) (start end_ : Nat)
    (hse : start < end_) (he : end_ ≤ info.length) (h20 : end_ - start ≤ 20) :
    (syllable (found_consonant_syllable K map info mask_array start end_) start end_).map unmask
        = (hb_bubble_sort (syllable (before_sort K map info mask_array start end_) start end_)
            compare_indic_order).map unmask ∧
      (syllable (found_consonant_syllable K map info mask_array start end_) start end_).Pairwise
        (fun x y => x.indic_position ≤ y.indic_position) ∧
      (∀ p : Nat,
        ((syllable (found_consonant_syllable K map info mask_array start end_) start end_).filter
            (fun x => decide (x.indic_position = p))).map unmask =
          ((syllable (before_sort K map info mask_array start end_) start end_).filter
            (fun x => decide (x.indic_position = p))).map unmask) ∧
      ((syllable (found_consonant_syllable K map info mask_array start end_) start
          end_).map unmask).Perm
        ((syllable (before_sort K map info mask_array start end_) start end_).map unmask) := by
  have h := syllable_found_consonant_syllable K map info mask_array start end_
    (Nat.le_of_lt hse) he h20
  refine ⟨h, ?_, ?_, ?_⟩
  · rw [← pairwise_position_map_unmask, h, pairwise_position_map_unmask]
    exact hb_bubble_sort_sorted _
  · intro p
    rw [filter_position_map_unmask, h, ← filter_position_map_unmask, hb_bubble_sort_stable]
  · rw [h]
    exact (hb_bubble_sort_perm _).map unmask

/-- C4 at KA ZWNJ HALANT SSA under `dev2`: the hypotheses hold there. -/
theorem C4_syllable_is_stably_sorted_witness :
    (0 < 4 ∧ 4 ≤ [slot_KA, slot_ZWNJ, slot_HALANT, slot_SSA].length ∧ 4 - 0 ≤ 20) ∧
    (syllable (found_consonant_syllable spec_enums map_dev2
      [slot_KA, slot_ZWNJ, slot_HALANT, slot_SSA] test_masks 0 4) 0 4).Pairwise
        (fun x y => x.indic_position ≤ y.indic_position) :=
  ⟨by decide,
    (C4_syllable_is_stably_sorted spec_enums map_dev2 [slot_KA, slot_ZWNJ, slot_HALANT, slot_SSA]
      test_masks 0 4 (by decide) (by decide) (by decide)).2.1⟩

/-- C5: in a syllable of any length inside the buffer, a slot of category ZWNJ, ZWJ, N or H that
stands at `i` with `start < i < end` when control reaches the sort carries the position of the
slot standing at `i - 1` at that moment; and nothing after that moment writes a position: the
slots of the syllable after the call are, masks aside, a rearrangement of the slots at that
moment. -/
theorem C5_marks_carry_position_of_predecessor (K : indic_enums) (map : hb_ot_map_t)
    (info : List hb_glyph_info_t) (mask_array : Nat → Nat) (start end_ : Nat)
    (hse : start < end_) (he : end_ ≤ info.length) :
    (∀ i, start < i → i < end_ →
      is_attached K (slot (before_sort K map info mask_array start end_) i) = true →
      (slot (before_sort K map info mask_array start end_) i).indic_position =
        (slot (before_sort K map info mask_array start end_) (i - 1)).indic_position) ∧
      ((syllable (found_consonant_syllable K map info mask_array start end_) start
          end_).map unmask).Perm
        ((syllable (before_sort K map info mask_array start end_) start end_).map unmask) := by
  constructor
  · intro i h1 h2 h3
    unfold before_sort at h3 ⊢
    exact attach_marks_spec K _ start end_ hse
      (by simp only [old_style_halant_length, handle_beginning_ra_length,
        reorder_characters_length]; exact he) i h1 h2 h3
  · by_cases h20 : end_ - start ≤ 20
    · rw [syllable_found_consonant_syllable K map info mask_array start end_
        (Nat.le_of_lt hse) he h20]
      exact (hb_bubble_sort_perm _).map unmask
    · rw [found_consonant_syllable_long K map info mask_array start end_ (by omega)]

/-- C5 at RA HALANT KA under `dev2` with `rphf` enabled: the halant at index 1 carries the
position `POS_REPH` of the Ra before it. -/
theorem C5_marks_carry_position_of_predecessor_witness :
    (0 < 3 ∧ 3 ≤ [slot_RA, slot_HALANT, slot_KA].length) ∧
    (slot (before_sort spec_enums map_dev2 [slot_RA, slot_HALANT, slot_KA] test_masks 0 3)
        1).indic_position =
      (slot (before_sort spec_enums map_dev2 [slot_RA, slot_HALANT, slot_KA] test_masks 0 3)
        (1 - 1)).indic_position :=
  ⟨by decide,
    (C5_marks_carry_position_of_predecessor spec_enums map_dev2 [slot_RA, slot_HALANT, slot_KA]
      test_masks 0 3 (by decide) (by decide)).1 1 (by decide) (by decide) (by decide)⟩

/-! ## Claims about the masks: where the code departs from them -/

/-- C2 (the code departs from the claim): on RA HALANT KA under `dev2` with `rphf` enabled, a
syllable without ZWNJ, the Reph block assigns `mask_array[RPHF]` to the mask of the initial Ra
instead of or-ing it in.  The Ra enters with mask `1`; before the sort its mask is exactly the
`rphf` bit, and after the call the Ra, now at index 1, has the `rphf` and pre-base bits but
has lost the bit `1` it entered with. -/
theorem C2_reph_assignment_drops_entry_bits :
    (∀ i, i < 3 → (slot [slot_RA, slot_HALANT, slot_KA] i).indic_category
        ≠ spec_enums.OT_ZWNJ) ∧
      (slot [slot_RA, slot_HALANT, slot_KA] 0).mask = 1 ∧
      (slot (before_sort spec_enums map_dev2 [slot_RA, slot_HALANT, slot_KA] test_masks 0 3)
        0).mask = test_masks RPHF ∧
      (slot (found_consonant_syllable spec_enums map_dev2 [slot_RA, slot_HALANT, slot_KA]
        test_masks 0 3) 1).codepoint = 0x0930 ∧
      (slot (found_consonant_syllable spec_enums map_dev2 [slot_RA, slot_HALANT, slot_KA]
        test_masks 0 3) 1).mask =
          test_masks RPHF ||| (test_masks HALF ||| test_masks AKHN ||| test_masks CJCT) ∧
      (slot (found_consonant_syllable spec_enums map_dev2 [slot_RA, slot_HALANT, slot_KA]
        test_masks 0 3) 1).mask &&& 1 = 0 := by
  decide

/-- C3 (the code departs from the claim): on KA HALANT ZWNJ SSA the joiner pass and-s the
masks of the slots walked back from the ZWNJ with `!mask_array[HALF]`, the logical negation,
which is `0` here: the mask of KA, which holds the global bit and the `half`, `akhn` and `cjct`
bits just before the joiner pass, is `0` after the call, so the `akhn`, `cjct` and global bits
are cleared along with `half`. -/
theorem C3_zwnj_clears_every_bit :
    lnot (test_masks HALF) = 0 ∧
      (slot (setup_syllable_masks
        (sort_syllable (before_sort spec_enums map_dev2
          [slot_KA, slot_HALANT, slot_ZWNJ, slot_SSA] test_masks 0 4) 0 4)
        test_masks 0
        (find_base spec_enums [slot_KA, slot_HALANT, slot_ZWNJ, slot_SSA] test_masks 0 4) 4)
        0).mask = 1 ||| test_masks HALF ||| test_masks AKHN ||| test_masks CJCT ∧
      (slot (found_consonant_syllable spec_enums map_dev2
        [slot_KA, slot_HALANT, slot_ZWNJ, slot_SSA] test_masks 0 4) 0).mask = 0 ∧
      (slot (found_consonant_syllable spec_enums map_dev2
        [slot_KA, slot_HALANT, slot_ZWNJ, slot_SSA] test_masks 0 4) 0).mask
          &&& test_masks AKHN = 0 := by
  decide

set_option maxRecDepth 8000 in
/-- C8 (the code departs from the claim): on a consonant syllable of 21 slots the function
returns at `if (end - start > 20) return;`, before the block "Setup masks now" and before the
joiner block: every mask is the entry mask, no feature bit is or-ed in, and the slots before
the ZWNJ keep the `half` bit they entered with. -/
theorem C8_long_syllable_gets_no_masks :
    long_syllable.length = 21 ∧
      find_base spec_enums long_syllable test_masks 0 21 = 19 ∧
      (found_consonant_syllable spec_enums map_dev2 long_syllable test_masks 0 21).map
        (fun x => x.mask) = long_syllable.map (fun x => x.mask) ∧
      (slot (found_consonant_syllable spec_enums map_dev2 long_syllable test_masks 0 21)
        0).mask &&& test_masks CJCT = 0 ∧
      (slot (found_consonant_syllable spec_enums map_dev2 long_syllable test_masks 0 21)
        2).indic_category = spec_enums.OT_ZWNJ ∧
      (slot (found_consonant_syllable spec_enums map_dev2 long_syllable test_masks 0 21)
        1).mask &&& test_masks HALF = test_masks HALF := by
  decide

/-! ## Lemmas: the state before the sort, slot by slot -/

theorem getElem?_eq_of_slot {a b : List hb_glyph_info_t} (hlen : a.length = b.length) {n : Nat}
    (h : slot a n = slot b n) : a[n]? = b[n]? := by
  by_cases hn : n < a.length
  · rw [getElem?_eq_some_slot hn, getElem?_eq_some_slot (hlen ▸ hn), h]
  · rw [List.getElem?_eq_none (by omega), List.getElem?_eq_none (by omega)]

theorem take_eq_of_slot {a b : List hb_glyph_info_t} (hlen : a.length = b.length) (s : Nat)
    (h : ∀ m, m < s → slot a m = slot b m) : a.take s = b.take s := by
  apply List.ext_getElem?
  intro n
  rw [List.getElem?_take, List.getElem?_take]
  split
  · rename_i hn
    exact getElem?_eq_of_slot hlen (h n hn)
  · rfl

theorem drop_eq_of_slot {a b : List hb_glyph_info_t} (hlen : a.length = b.length) (e : Nat)
    (h : ∀ m, e ≤ m → slot a m = slot b m) : a.drop e = b.drop e := by
  apply List.ext_getElem?
  intro n
  rw [List.getElem?_drop, List.getElem?_drop]
  exact getElem?_eq_of_slot hlen (h (e + n) (by omega))

theorem syllable_old_style_halant_perm (K : indic_enums) (map : hb_ot_map_t)
    (l : List hb_glyph_info_t) (base start end_ : Nat) (hb : start ≤ base) (hse : start ≤ end_)
    (he : end_ ≤ l.length) :
    (syllable (old_style_halant K map l base end_) start end_).Perm (syllable l start end_) := by
  have hlen := old_style_halant_length K map l base end_
  exact span_perm _ _ start end_ hse (old_style_halant_perm K map l base end_ he)
    (take_eq_of_slot hlen start
      (fun m hm => slot_old_style_halant K map l base end_ he m (Or.inl (by omega))))
    (drop_eq_of_slot hlen end_
      (fun m hm => slot_old_style_halant K map l base end_ he m (Or.inr hm)))

theorem slot_attach_marks_outside (K : indic_enums) (l : List hb_glyph_info_t)
    (start end_ m : Nat) (hm : m ≤ start ∨ end_ ≤ m) :
    slot (attach_marks K l start end_) m = slot l m := by
  unfold attach_marks
  apply for_loop_slot_outside
  · intro i t j hj
    split
    · exact slot_set_position_ne _ _ hj
    · rfl
  · omega

/-- The Reph block reads the same joiner test on the buffer it gets as on the entry buffer. -/
theorem handle_beginning_ra_eq (K : indic_enums) (info : List hb_glyph_info_t)
    (mask_array : Nat → Nat) (start end_ base : Nat) :
    handle_beginning_ra K (reorder_characters K info start base) mask_array
        (reph_precondition K info mask_array start end_) start end_ =
      if reph_taken K info mask_array start end_ then
        set_mask (set_position (reorder_characters K info start base) start K.POS_REPH) start
          (mask_array RPHF)
      else reorder_characters K info start base := by
  have hcat : (slot (reorder_characters K info start base) (start + 2)).indic_category =
      (slot info (start + 2)).indic_category :=
    category_eq_of_glyph_of (slot_congr_of_map_eq
      (map_glyph_of_of_unposition (reorder_characters_map K info start base)) (start + 2))
  unfold handle_beginning_ra reph_taken
  rw [is_joiner_congr K hcat]

/-- The glyphs of the syllable before the sort are the entry glyphs, rearranged. -/
theorem before_sort_glyphs_perm (K : indic_enums) (map : hb_ot_map_t)
    (info : List hb_glyph_info_t) (mask_array : Nat → Nat) (start end_ : Nat)
    (hse : start ≤ end_) (he : end_ ≤ info.length) :
    ((syllable (before_sort K map info mask_array start end_) start end_).map glyph_of).Perm
      ((syllable info start end_).map glyph_of) := by
  unfold before_sort
  simp only
  rw [syllable_map_congr glyph_of (map_glyph_of_of_unposition (attach_marks_map K _ start end_))]
  refine ((syllable_old_style_halant_perm K map _ _ start end_
    (start_le_find_base K info mask_array start end_) hse
    (by rw [handle_beginning_ra_length, reorder_characters_length]; exact he)).map
      glyph_of).trans ?_
  rw [syllable_map_congr glyph_of (handle_beginning_ra_map K _ mask_array _ start end_),
    syllable_map_congr glyph_of
      (map_glyph_of_of_unposition (reorder_characters_map K info start _))]

/-- When Reph is not taken, every slot of the syllable reaches the sort with its entry mask. -/
theorem before_sort_unposition_perm (K : indic_enums) (map : hb_ot_map_t)
    (info : List hb_glyph_info_t) (mask_array : Nat → Nat) (start end_ : Nat)
    (hse : start ≤ end_) (he : end_ ≤ info.length)
    (hreph : reph_taken K info mask_array start end_ = false) :
    ((syllable (before_sort K map info mask_array start end_) start end_).map unposition).Perm
      ((syllable info start end_).map unposition) := by
  unfold before_sort
  simp only
  rw [syllable_map_congr unposition (attach_marks_map K _ start end_),
    handle_beginning_ra_eq, hreph]
  simp only [Bool.false_eq_true, if_false]
  refine ((syllable_old_style_halant_perm K map _ _ start end_
    (start_le_find_base K info mask_array start end_) hse
    (by rw [reorder_characters_length]; exact he)).map unposition).trans ?_
  rw [syllable_map_congr unposition (reorder_characters_map K info start _)]

/-- When Reph is taken, the initial Ra reaches the sort at index `start` with position
`POS_REPH` and the `rphf` mask as its whole mask. -/
theorem before_sort_reph_slot (K : indic_enums) (map : hb_ot_map_t)
    (info : List hb_glyph_info_t) (mask_array : Nat → Nat) (start end_ : Nat)
    (hse : start < end_) (he : end_ ≤ info.length)
    (hreph : reph_taken K info mask_array start end_ = true) :
    slot (before_sort K map info mask_array start end_) start =
      { slot info start with indic_position := K.POS_REPH, mask := mask_array RPHF } := by
  have hup := slot_congr_of_map_eq
    (reorder_characters_map K info start (find_base K info mask_array start end_)) start
  have hlen := reorder_characters_length K info start (find_base K info mask_array start end_)
  unfold before_sort
  simp only
  rw [slot_attach_marks_outside K _ start end_ start (Or.inl (le_refl _)),
    slot_old_style_halant K map _ _ end_
      (by rw [handle_beginning_ra_length, reorder_characters_length]; exact he) start
      (Or.inl (start_le_find_base K info mask_array start end_)),
    handle_beginning_ra_eq, hreph]
  simp only [if_true]
  rw [slot_set_mask_self _ (by rw [set_position_length, hlen]; omega),
    slot_set_position_self _ (by rw [hlen]; omega)]
  have h1 := congrArg hb_glyph_info_t.codepoint hup
  have h2 := congrArg hb_glyph_info_t.indic_category hup
  simp only [unposition] at h1 h2
  simp only [h1, h2]

/-! ## Lemmas: glyphs of the syllable through the sort -/

theorem sorted_glyphs_perm (K : indic_enums) (map : hb_ot_map_t)
    (info : List hb_glyph_info_t) (mask_array : Nat → Nat) (start end_ : Nat)
    (hse : start ≤ end_) (he : end_ ≤ info.length) :
    ((syllable (sort_syllable (before_sort K map info mask_array start end_) start end_)
        start end_).map glyph_of).Perm ((syllable info start end_).map glyph_of) := by
  rw [syllable_sort_syllable _ _ _ hse (by rw [before_sort_length]; exact he)]
  exact ((hb_bubble_sort_perm _).map glyph_of).trans
    (before_sort_glyphs_perm K map info mask_array start end_ hse he)

/-- The glyphs of the syllable after the call are the entry glyphs, rearranged. -/
theorem found_consonant_syllable_glyphs_perm (K : indic_enums) (map : hb_ot_map_t)
    (info : List hb_glyph_info_t) (mask_array : Nat → Nat) (start end_ : Nat)
    (hse : start ≤ end_) (he : end_ ≤ info.length) :
    ((syllable (found_consonant_syllable K map info mask_array start end_)
        start end_).map glyph_of).Perm ((syllable info start end_).map glyph_of) := by
  by_cases h20 : end_ - start ≤ 20
  · rw [syllable_map_congr glyph_of (map_glyph_of_of_unmask
      (found_consonant_syllable_map_unmask K map info mask_array start end_ h20))]
    exact sorted_glyphs_perm K map info mask_array start end_ hse he
  · rw [found_consonant_syllable_long K map info mask_array start end_ (by omega)]
    exact before_sort_glyphs_perm K map info mask_array start end_ hse he

/-- A slot of a syllable whose glyphs are a rearrangement of another's has the glyph of one
of its slots. -/
theorem glyph_of_slot_of_perm (a b : List hb_glyph_info_t) (start end_ : Nat)
    (ha : end_ ≤ a.length) (hb : end_ ≤ b.length)
    (hp : ((syllable a start end_).map glyph_of).Perm ((syllable b start end_).map glyph_of))
    (i : Nat) (hi1 : start ≤ i) (hi2 : i < end_) :
    ∃ k, start ≤ k ∧ k < end_ ∧ glyph_of (slot a i) = glyph_of (slot b k) := by
  have h1 : slot a i ∈ syllable a start end_ :=
    (mem_syllable_iff a start end_ ha _).mpr ⟨i, hi1, hi2, rfl⟩
  have h2 : glyph_of (slot a i) ∈ (syllable b start end_).map glyph_of :=
    hp.mem_iff.mp (List.mem_map_of_mem glyph_of h1)
  obtain ⟨y, hy, hyg⟩ := List.mem_map.mp h2
  obtain ⟨k, hk1, hk2, hk3⟩ := (mem_syllable_iff b start end_ hb y).mp hy
  exact ⟨k, hk1, hk2, by rw [hk3, hyg]⟩

theorem slot_sort_syllable (l : List hb_glyph_info_t) (s e : Nat) (hse : s ≤ e)
    (he : e ≤ l.length) (i : Nat) (hi1 : s ≤ i) (hi2 : i < e) :
    slot (sort_syllable l s e) i =
      slot (hb_bubble_sort (syllable l s e) compare_indic_order) (i - s) := by
  rw [← syllable_sort_syllable l s e hse he, slot_syllable _ s e (i - s) (by omega)]
  congr 1
  omega

/-! ## Lemmas: the masks -/

theorem lor_zero_slot (x : hb_glyph_info_t) : { x with mask := x.mask ||| 0 } = x := by
  cases x
  simp

theorem land_lor_of_land {a r : Nat} (m : Nat) (h : a &&& r = r) : (a ||| m) &&& r = r := by
  apply Nat.eq_of_testBit_eq
  intro i
  have h1 := congrArg (fun t => t.testBit i) h
  simp only [Nat.testBit_and, Nat.testBit_or] at h1 ⊢
  cases ha : a.testBit i <;> cases hm : m.testBit i <;> cases hr : r.testBit i <;>
    simp_all

theorem land_lnot_land (x h : Nat) : (x &&& lnot h) &&& h = 0 := by
  unfold lnot
  split
  · rename_i h0
    rw [h0, Nat.and_zero]
  · rw [Nat.and_zero, Nat.zero_and]

theorem land_land_eq_zero {a h : Nat} (m : Nat) (h0 : a &&& h = 0) : (a &&& m) &&& h = 0 := by
  rw [Nat.and_assoc, Nat.and_comm m h, ← Nat.and_assoc, h0, Nat.zero_and]

/-- The block "Setup masks now" ors bits into masks and writes nothing else. -/
theorem setup_syllable_masks_mono (l : List hb_glyph_info_t) (mask_array : Nat → Nat)
    (start base end_ : Nat) (i : Nat) :
    ∃ m, slot (setup_syllable_masks l mask_array start base end_) i =
      { slot l i with mask := (slot l i).mask ||| m } := by
  have step : ∀ (t : List hb_glyph_info_t) (k mk : Nat),
      (∀ i, ∃ m, slot t i = { slot l i with mask := (slot l i).mask ||| m }) →
      ∀ i, ∃ m, slot (or_mask t k mk) i = { slot l i with mask := (slot l i).mask ||| m } := by
    intro t k mk ht i
    obtain ⟨m, hm⟩ := ht i
    by_cases hik : i = k
    · subst hik
      by_cases hlt : i < t.length
      · refine ⟨m ||| mk, ?_⟩
        rw [slot_or_mask_self _ hlt, hm]
        simp only [Nat.lor_assoc]
      · refine ⟨m, ?_⟩
        unfold or_mask set_mask
        rw [List.set_eq_of_length_le (by omega), hm]
    · exact ⟨m, by rw [slot_or_mask_ne _ _ hik, hm]⟩
  have loop : ∀ (n a mk : Nat) (t : List hb_glyph_info_t),
      (∀ i, ∃ m, slot t i = { slot l i with mask := (slot l i).mask ||| m }) →
      ∀ i, ∃ m, slot (for_loop (fun i info => or_mask info i mk) n a t) i =
        { slot l i with mask := (slot l i).mask ||| m } := by
    intro n
    induction n with
    | zero => intro a mk t ht; exact ht
    | succ n ih =>
      intro a mk t ht
      rw [for_loop]
      exact ih (a + 1) mk _ (step t a mk ht)
  unfold setup_syllable_masks
  exact loop _ _ _ _ (step _ _ _ (loop _ _ _ _ (fun i => ⟨0, (lor_zero_slot _).symm⟩))) i

theorem slot_or_mask_loop_inside (mk n a : Nat) (t : List hb_glyph_info_t) (j : Nat)
    (h1 : a ≤ j) (h2 : j < a + n) (h3 : j < t.length) :
    slot (for_loop (fun i info => or_mask info i mk) n a t) j =
      { slot t j with mask := (slot t j).mask ||| mk } :=
  for_loop_slot_inside (fun i info => or_mask info i mk)
    (fun _ x => { x with mask := x.mask ||| mk })
    (fun k t => or_mask_length t k mk) (fun _ _ hk => slot_or_mask_self mk hk)
    (fun _ t _ hj => slot_or_mask_ne t mk hj) n a t j h1 h2 h3

theorem slot_or_mask_loop_outside (mk n a : Nat) (t : List hb_glyph_info_t) (j : Nat)
    (h : j < a ∨ a + n ≤ j) :
    slot (for_loop (fun i info => or_mask info i mk) n a t) j = slot t j :=
  for_loop_slot_outside (fun i info => or_mask info i mk)
    (fun _ t _ hj => slot_or_mask_ne t mk hj) n a t j h

theorem or_mask_loop_length (mk n a : Nat) (t : List hb_glyph_info_t) :
    (for_loop (fun i info => or_mask info i mk) n a t).length = t.length :=
  for_loop_length _ (fun k t => or_mask_length t k mk) _ _ _

/-- The mask each slot of the syllable gets from the block "Setup masks now". -/
theorem setup_syllable_masks_slot (l : List hb_glyph_info_t) (mask_array : Nat → Nat)
    (start base end_ : Nat) (hb1 : start ≤ base) (hb2 : base < end_) (he : end_ ≤ l.length)
    (i : Nat) (hi1 : start ≤ i) (hi2 : i < end_) :
    slot (setup_syllable_masks l mask_array start base end_) i =
      { slot l i with mask := (slot l i).mask ||| feature_mask mask_array base i } := by
  unfold setup_syllable_masks feature_mask
  simp only
  by_cases hlt : i < base
  · rw [if_pos hlt, slot_or_mask_loop_outside _ _ _ _ _ (Or.inl (by omega)),
      slot_or_mask_ne _ _ (by omega),
      slot_or_mask_loop_inside _ _ _ _ _ hi1 (by omega) (by omega)]
  · rw [if_neg hlt]
    by_cases heq : i = base
    · subst heq
      rw [if_pos rfl, slot_or_mask_loop_outside _ _ _ _ _ (Or.inl (by omega)),
        slot_or_mask_self _ (by rw [or_mask_loop_length]; omega),
        slot_or_mask_loop_outside _ _ _ _ _ (Or.inr (by omega))]
    · rw [if_neg heq, slot_or_mask_loop_inside _ _ _ _ _
          (by omega) (by omega) (by rw [or_mask_length, or_mask_loop_length]; omega),
        slot_or_mask_ne _ _ heq,
        slot_or_mask_loop_outside _ _ _ _ _ (Or.inr (by omega))]

/-! ## Lemmas: the joiners -/

theorem joiner_walk_false (K : indic_enums) (mask_array : Nat → Nat) (start : Nat) :
    ∀ (j : Nat) (l : List hb_glyph_info_t), joiner_walk K mask_array false start j l = l
  | 0, _ => rfl
  | j + 1, l => by
    have h1 : clear_half mask_array false l j = l := rfl
    rw [joiner_walk, h1]
    split
    · exact joiner_walk_false K mask_array start j l
    · rfl

/-- Without a ZWNJ in `(start, end)` the joiner block changes nothing. -/
theorem apply_joiners_id (K : indic_enums) (l : List hb_glyph_info_t) (mask_array : Nat → Nat)
    (start end_ : Nat)
    (h : ∀ i, start < i → i < end_ → (slot l i).indic_category ≠ K.OT_ZWNJ) :
    apply_joiners K l mask_array start end_ = l := by
  unfold apply_joiners
  apply for_loop_id
  intro i hi1 hi2
  simp only
  split
  · have hz : decide ((slot l i).indic_category = K.OT_ZWNJ) = false :=
      decide_eq_false (h i (by omega) (by omega))
    rw [hz]
    exact joiner_walk_false K mask_array start i l
  · rfl

/-- Without a ZWNJ in the syllable the call ends with the block "Setup masks now". -/
theorem found_consonant_syllable_no_zwnj (K : indic_enums) (map : hb_ot_map_t)
    (info : List hb_glyph_info_t) (mask_array : Nat → Nat) (start end_ : Nat)
    (hse : start ≤ end_) (he : end_ ≤ info.length) (h20 : end_ - start ≤ 20)
    (hzwnj : ∀ i, start ≤ i → i < end_ → (slot info i).indic_category ≠ K.OT_ZWNJ) :
    found_consonant_syllable K map info mask_array start end_ =
      setup_syllable_masks
        (sort_syllable (before_sort K map info mask_array start end_) start end_)
        mask_array start (find_base K info mask_array start end_) end_ := by
  rw [found_consonant_syllable_short K map info mask_array start end_ h20]
  apply apply_joiners_id
  intro k hk1 hk2
  have hperm : ((syllable (setup_syllable_masks
      (sort_syllable (before_sort K map info mask_array start end_) start end_)
      mask_array start (find_base K info mask_array start end_) end_) start end_).map
        glyph_of).Perm ((syllable info start end_).map glyph_of) := by
    rw [syllable_map_congr glyph_of
      (map_glyph_of_of_unmask (setup_syllable_masks_map _ mask_array start _ end_))]
    exact sorted_glyphs_perm K map info mask_array start end_ hse he
  obtain ⟨k1, h1, h2, h3⟩ := glyph_of_slot_of_perm _ info start end_
    (by rw [setup_syllable_masks_length, sort_syllable_length _ _ _ hse, before_sort_length]
        exact he) he hperm k (by omega) hk2
  rw [category_eq_of_glyph_of h3]
  exact hzwnj k1 h1 h2

/-! ## Claims about the masks and Reph that hold -/

/-- C7: for a syllable of at most 20 slots inside the buffer, without ZWNJ, on which Reph is
not taken and whose base lies in `[start, end)`: the slot sequence the sort produces is a
rearrangement of the entry slots of the syllable, each with its entry mask (positions aside),
and after the call the slot at each index `i` of `[start, end)` is the sorted slot of that
index with its mask or-ed with HALF|AKHN|CJCT if `i < base`, with AKHN|CJCT if `i = base`, and
with BLWF|PSTF|CJCT if `i > base`. -/
theorem C7_masks_by_index (K : indic_enums) (map : hb_ot_map_t)
    (info : List hb_glyph_info_t) (mask_array : Nat → Nat) (start end_ : Nat)
    (hse : start < end_) (he : end_ ≤ info.length) (h20 : end_ - start ≤ 20)
    (hzwnj : ∀ i, start ≤ i → i < end_ → (slot info i).indic_category ≠ K.OT_ZWNJ)
    (hreph : reph_taken K info mask_array start end_ = false)
    (hbase : find_base K info mask_array start end_ < end_) :
    ((hb_bubble_sort (syllable (before_sort K map info mask_array start end_) start end_)
        compare_indic_order).map unposition).Perm ((syllable info start end_).map unposition) ∧
      ∀ i, start ≤ i → i < end_ →
        slot (found_consonant_syllable K map info mask_array start end_) i =
          { slot (hb_bubble_sort
              (syllable (before_sort K map info mask_array start end_) start end_)
              compare_indic_order) (i - start) with
            mask := (slot (hb_bubble_sort
                (syllable (before_sort K map info mask_array start end_) start end_)
                compare_indic_order) (i - start)).mask |||
              feature_mask mask_array (find_base K info mask_array start end_) i } := by
  constructor
  · exact ((hb_bubble_sort_perm _).map unposition).trans
      (before_sort_unposition_perm K map info mask_array start end_ (Nat.le_of_lt hse) he hreph)
  · intro i hi1 hi2
    rw [found_consonant_syllable_no_zwnj K map info mask_array start end_ (Nat.le_of_lt hse) he
        h20 hzwnj,
      setup_syllable_masks_slot _ mask_array start _ end_
        (start_le_find_base K info mask_array start end_) hbase
        (by rw [sort_syllable_length _ _ _ (Nat.le_of_lt hse), before_sort_length]; exact he)
        i hi1 hi2,
      slot_sort_syllable _ _ _ (Nat.le_of_lt hse) (by rw [before_sort_length]; exact he)
        i hi1 hi2]

/-- C7 at KA HALANT SSA under `dev2`: the hypotheses hold there, the base is 2, and the masks
after the call are the entry mask `1` of each slot or-ed with the pre-base bits at 0 and 1 and
with the base bits at 2. -/
theorem C7_masks_by_index_witness :
    find_base spec_enums [slot_KA, slot_HALANT, slot_SSA] test_masks 0 3 = 2 ∧
      reph_taken spec_enums [slot_KA, slot_HALANT, slot_SSA] test_masks 0 3 = false ∧
      ∀ i, 0 ≤ i → i < 3 →
        slot (found_consonant_syllable spec_enums map_dev2 [slot_KA, slot_HALANT, slot_SSA]
          test_masks 0 3) i =
          { slot (hb_bubble_sort
              (syllable (before_sort spec_enums map_dev2 [slot_KA, slot_HALANT, slot_SSA]
                test_masks 0 3) 0 3) compare_indic_order) (i - 0) with
            mask := (slot (hb_bubble_sort
                (syllable (before_sort spec_enums map_dev2 [slot_KA, slot_HALANT, slot_SSA]
                  test_masks 0 3) 0 3) compare_indic_order) (i - 0)).mask |||
              feature_mask test_masks
                (find_base spec_enums [slot_KA, slot_HALANT, slot_SSA] test_masks 0 3) i } :=
  ⟨by decide, by decide,
    (C7_masks_by_index spec_enums map_dev2 [slot_KA, slot_HALANT, slot_SSA] test_masks 0 3
      (by decide) (by decide) (by decide)
      (fun i _ h => by interval_cases i <;> decide) (by decide) (by decide)).2⟩

/-! ## Lemmas: the walk back from a joiner -/

theorem clear_half_map (mask_array : Nat → Nat) (non_joiner : Bool)
    (l : List hb_glyph_info_t) (j : Nat) :
    (clear_half mask_array non_joiner l j).map unmask = l.map unmask := by
  unfold clear_half
  split
  · exact set_mask_map_unmask l j _
  · rfl

theorem is_consonant_of_map_unmask (K : indic_enums) {l l1 : List hb_glyph_info_t}
    (h : l.map unmask = l1.map unmask) (m : Nat) :
    is_consonant K (slot l m) = is_consonant K (slot l1 m) :=
  is_consonant_congr K (category_eq_of_glyph_of
    (slot_congr_of_map_eq (map_glyph_of_of_unmask h) m))

theorem clear_half_keeps_zero (mask_array : Nat → Nat) (non_joiner : Bool)
    (l : List hb_glyph_info_t) (j m : Nat) (h : (slot l m).mask &&& mask_array HALF = 0) :
    (slot (clear_half mask_array non_joiner l j) m).mask &&& mask_array HALF = 0 := by
  unfold clear_half
  split
  · by_cases hmj : m = j
    · subst hmj
      by_cases hlt : m < l.length
      · rw [slot_set_mask_self _ hlt]
        exact land_lnot_land _ _
      · unfold set_mask
        rw [List.set_eq_of_length_le (by omega)]
        exact h
    · rw [slot_set_mask_ne _ _ hmj]
      exact h
  · exact h

theorem clear_half_clears (mask_array : Nat → Nat) (l : List hb_glyph_info_t) (j : Nat)
    (hj : j < l.length) :
    (slot (clear_half mask_array true l j) j).mask &&& mask_array HALF = 0 := by
  unfold clear_half
  rw [if_pos rfl, slot_set_mask_self _ hj]
  exact land_lnot_land _ _

/-- The walk only clears: a mask without the `half` bit stays without it. -/
theorem joiner_walk_keeps_zero (K : indic_enums) (mask_array : Nat → Nat) (non_joiner : Bool)
    (start m : Nat) : ∀ (j : Nat) (l : List hb_glyph_info_t),
      (slot l m).mask &&& mask_array HALF = 0 →
      (slot (joiner_walk K mask_array non_joiner start j l) m).mask &&& mask_array HALF = 0
  | 0, _, h => h
  | j + 1, l, h => by
    have h1 := clear_half_keeps_zero mask_array non_joiner l j m h
    rw [joiner_walk]
    split
    · exact joiner_walk_keeps_zero K mask_array non_joiner start m j _ h1
    · exact h1

/-- The walk back from a ZWNJ at `j` clears the `half` bit of every slot from `j - 1` down to
the first consonant met, or down to `start`. -/
theorem joiner_walk_clears (K : indic_enums) (mask_array : Nat → Nat) (start j0 : Nat)
    (hs : start ≤ j0) : ∀ (j : Nat) (l : List hb_glyph_info_t), j ≤ l.length → j0 < j →
      (∀ m, j0 < m → m < j → is_consonant K (slot l m) = false) →
      (slot (joiner_walk K mask_array true start j l) j0).mask &&& mask_array HALF = 0
  | 0, _, _, h, _ => by omega
  | j + 1, l, hlen, hj, hw => by
    have hmap := clear_half_map mask_array true l j
    have hlen1 : (clear_half mask_array true l j).length = l.length := length_eq_of_map_eq hmap
    rw [joiner_walk]
    by_cases hjj : j0 = j
    · subst hjj
      have hc := clear_half_clears mask_array l j0 (by omega)
      split
      · exact joiner_walk_keeps_zero K mask_array true start j0 j0 _ hc
      · exact hc
    · have hnc : is_consonant K (slot (clear_half mask_array true l j) j) = false := by
        rw [is_consonant_of_map_unmask K hmap j]
        exact hw j (by omega) (by omega)
      rw [if_pos ⟨by omega, by simp [hnc]⟩]
      apply joiner_walk_clears K mask_array start j0 hs j _ (by omega) (by omega)
      intro m hm1 hm2
      rw [is_consonant_of_map_unmask K hmap m]
      exact hw m hm1 (by omega)

theorem apply_joiners_clears (K : indic_enums) (l : List hb_glyph_info_t)
    (mask_array : Nat → Nat) (start end_ : Nat) (he : end_ ≤ l.length)
    (i : Nat) (hi1 : start < i) (hi2 : i < end_)
    (hz : (slot l i).indic_category = K.OT_ZWNJ)
    (j : Nat) (hj1 : start ≤ j) (hj2 : j < i)
    (hw : ∀ m, j < m → m < i → is_consonant K (slot l m) = false) :
    (slot (apply_joiners K l mask_array start end_) j).mask &&& mask_array HALF = 0 := by
  have key := for_loop_invariant
    (fun i info =>
      if is_joiner K (slot info i) then
        let non_joiner := decide ((slot info i).indic_category = K.OT_ZWNJ)
        joiner_walk K mask_array non_joiner start i info
      else info)
    (fun k t => t.map unmask = l.map unmask ∧
      (i < k → (slot t j).mask &&& mask_array HALF = 0))
    (end_ - (start + 1)) (start + 1) l ⟨rfl, fun h => by omega⟩
    (by
      intro k t hk1 hk2 ⟨hmap, hP⟩
      have hcat : (slot t k).indic_category = (slot l k).indic_category :=
        category_eq_of_glyph_of (slot_congr_of_map_eq (map_glyph_of_of_unmask hmap) k)
      have hlen : t.length = l.length := length_eq_of_map_eq hmap
      by_cases hjn : is_joiner K (slot t k) = true
      · simp only [hjn, if_true]
        refine ⟨by rw [joiner_walk_map, hmap], ?_⟩
        intro hik
        by_cases hik2 : i < k
        · exact joiner_walk_keeps_zero K mask_array _ start j k t (hP hik2)
        · have hik3 : i = k := by omega
          subst hik3
          have hd : decide ((slot t i).indic_category = K.OT_ZWNJ) = true := by
            rw [hcat, hz]
            exact decide_eq_true rfl
          rw [hd]
          apply joiner_walk_clears K mask_array start j hj1 i t (by omega) hj2
          intro m hm1 hm2
          rw [is_consonant_of_map_unmask K hmap m]
          exact hw m hm1 hm2
      · simp only [hjn]
        refine ⟨hmap, ?_⟩
        intro hik
        by_cases hik2 : i < k
        · exact hP hik2
        · have hik3 : i = k := by omega
          subst hik3
          exfalso
          apply hjn
          rw [is_joiner_iff, hcat, hz]
          exact Or.inr rfl)
  have e : start + 1 + (end_ - (start + 1)) = end_ := by omega
  rw [e] at key
  exact key.2 hi2

/-- C10: for a syllable of at most 20 slots inside the buffer and a ZWNJ standing after the
call at an index `i` with `start < i < end`, every slot `j` walked back from `i - 1` (that is
`start <= j < i` with no consonant standing strictly between `j` and `i`, so down to and
including the first consonant met, or down to `start`) has the `mask_array[HALF]` bits clear
after the call. -/
theorem C10_zwnj_clears_half (K : indic_enums) (map : hb_ot_map_t)
    (info : List hb_glyph_info_t) (mask_array : Nat → Nat) (start end_ : Nat)
    (hse : start < end_) (he : end_ ≤ info.length) (h20 : end_ - start ≤ 20)
    (i : Nat) (hi1 : start < i) (hi2 : i < end_)
    (hz : (slot (found_consonant_syllable K map info mask_array start end_) i).indic_category
      = K.OT_ZWNJ)
    (j : Nat) (hj1 : start ≤ j) (hj2 : j < i)
    (hwalk : ∀ m, j < m → m < i →
      is_consonant K (slot (found_consonant_syllable K map info mask_array start end_) m)
        = false) :
    (slot (found_consonant_syllable K map info mask_array start end_) j).mask
      &&& mask_array HALF = 0 := by
  have hshort := found_consonant_syllable_short K map info mask_array start end_ h20
  have hmap := apply_joiners_map K
    (setup_syllable_masks
      (sort_syllable (before_sort K map info mask_array start end_) start end_)
      mask_array start (find_base K info mask_array start end_) end_) mask_array start end_
  rw [← hshort] at hmap
  have hcat : ∀ m, (slot (found_consonant_syllable K map info mask_array start end_)
      m).indic_category = (slot (setup_syllable_masks
        (sort_syllable (before_sort K map info mask_array start end_) start end_)
        mask_array start (find_base K info mask_array start end_) end_) m).indic_category :=
    fun m => category_eq_of_glyph_of (slot_congr_of_map_eq (map_glyph_of_of_unmask hmap) m)
  rw [hshort]
  apply apply_joiners_clears K _ mask_array start end_
    (by rw [setup_syllable_masks_length, sort_syllable_length _ _ _ (Nat.le_of_lt hse),
          before_sort_length]
        exact he) i hi1 hi2 (by rw [← hcat]; exact hz) j hj1 hj2
  intro m hm1 hm2
  rw [← is_consonant_congr K (hcat m)]
  exact hwalk m hm1 hm2

/-- C10 at KA ZWNJ HALANT SSA under `dev2`, the scenario of the claim: the ZWNJ stands at
index 1 after the call and the `half` bit is clear on the KA at index 0. -/
theorem C10_zwnj_clears_half_witness :
    (slot (found_consonant_syllable spec_enums map_dev2
        [slot_KA, slot_ZWNJ, slot_HALANT, slot_SSA] test_masks 0 4) 1).indic_category
      = spec_enums.OT_ZWNJ ∧
    (slot (found_consonant_syllable spec_enums map_dev2
        [slot_KA, slot_ZWNJ, slot_HALANT, slot_SSA] test_masks 0 4) 0).codepoint = 0x0915 ∧
    (slot (found_consonant_syllable spec_enums map_dev2
        [slot_KA, slot_ZWNJ, slot_HALANT, slot_SSA] test_masks 0 4) 0).mask
      &&& test_masks HALF = 0 :=
  ⟨by decide, by decide,
    C10_zwnj_clears_half spec_enums map_dev2 [slot_KA, slot_ZWNJ, slot_HALANT, slot_SSA]
      test_masks 0 4 (by decide) (by decide) (by decide) 1 (by decide) (by decide) (by decide)
      0 (by decide) (by decide) (fun m h1 h2 => by omega)⟩

/-! ## Lemmas: the predicates as Boolean tests, and the scenario RA HALANT consonant -/

theorem is_joiner_eq (K : indic_enums) (x : hb_glyph_info_t) :
    is_joiner K x =
      (decide (x.indic_category = K.OT_ZWJ) || decide (x.indic_category = K.OT_ZWNJ)) := by
  rw [Bool.eq_iff_iff, is_joiner_iff]
  simp

theorem is_attached_eq (K : indic_enums) (x : hb_glyph_info_t) :
    is_attached K x =
      (decide (x.indic_category = K.OT_ZWNJ) || decide (x.indic_category = K.OT_ZWJ) ||
        decide (x.indic_category = K.OT_N) || decide (x.indic_category = K.OT_H)) := by
  rw [Bool.eq_iff_iff, is_attached_iff]
  simp [or_assoc]

theorem reph_scenario_base (K : indic_enums) (mask_array : Nat → Nat)
    (ra h c : hb_glyph_info_t)
    (hc : c.indic_category = K.OT_C) (hcp : c.indic_position = K.POS_BASE_C)
    (hb1 : K.POS_BASE_C ≠ K.POS_BELOW_C) (hb2 : K.POS_BASE_C ≠ K.POS_POST_C) :
    find_base K [ra, h, c] mask_array 0 3 = 2 := by
  have hcons : is_consonant K c = true := (is_consonant_iff K c).mpr (Or.inl hc)
  simp [find_base, reph_precondition, base_scan, slot, hcons, hcp, hb1, hb2]

theorem reph_scenario_before_sort (K : indic_enums) (map : hb_ot_map_t)
    (mask_array : Nat → Nat) (hR : mask_array RPHF ≠ 0) (ra h c : hb_glyph_info_t)
    (hra : ra.indic_category = K.OT_Ra) (hh : h.indic_category = K.OT_H)
    (hc : c.indic_category = K.OT_C) (hcp : c.indic_position = K.POS_BASE_C)
    (hv2 : map.chosen_script 0 &&& 0x000000FF = 50)
    (hb1 : K.POS_BASE_C ≠ K.POS_BELOW_C) (hb2 : K.POS_BASE_C ≠ K.POS_POST_C)
    (hc1 : K.OT_C ≠ K.OT_ZWJ) (hc2 : K.OT_C ≠ K.OT_ZWNJ) (hc3 : K.OT_C ≠ K.OT_N)
    (hc4 : K.OT_C ≠ K.OT_H) :
    before_sort K map [ra, h, c] mask_array 0 3 =
      [{ ra with indic_position := K.POS_REPH, mask := mask_array RPHF },
       { h with indic_position := K.POS_REPH }, { c with indic_position := K.POS_BASE_C }] := by
  have hbase := reph_scenario_base K mask_array ra h c hc hcp hb1 hb2
  have hpre : reph_precondition K [ra, h, c] mask_array 0 3 = true := by
    simp [reph_precondition, slot, hR, hra, hh]
  unfold before_sort
  simp only [hbase, hpre]
  obtain ⟨rcp, rm, rcat, rpos⟩ := ra
  obtain ⟨hcp, hm, hcat, hpos⟩ := h
  obtain ⟨ccp, cm, ccat, cpos⟩ := c
  simp only at hra hh hc
  subst hra hh hc
  simp [reorder_characters, for_loop, set_position, slot, handle_beginning_ra, set_mask,
    old_style_halant, hv2, attach_marks, is_joiner_eq, is_attached_eq, hc1, hc2, hc3, hc4]

theorem reph_scenario_sorted (K : indic_enums) (ra h c : hb_glyph_info_t)
    (hord : K.POS_BASE_C < K.POS_REPH) (R : Nat) :
    hb_bubble_sort [{ ra with indic_position := K.POS_REPH, mask := R },
        { h with indic_position := K.POS_REPH }, { c with indic_position := K.POS_BASE_C }]
        compare_indic_order =
      [{ c with indic_position := K.POS_BASE_C },
        { ra with indic_position := K.POS_REPH, mask := R },
        { h with indic_position := K.POS_REPH }] := by
  have h1 : ¬ K.POS_REPH < K.POS_BASE_C := by omega
  have h2 : K.POS_REPH ≠ K.POS_BASE_C := by omega
  simp [hb_bubble_sort, bubble_passes, bubble_pass, compare_indic_order, hord, h1, h2]

/-- C9: with `rphf` enabled.  First, for every syllable of at least three slots inside the
buffer that starts with Ra, H and a third slot that is no joiner, and holds no ZWNJ: the
initial Ra reaches the sort with position `POS_REPH` and the `rphf` mask, and after the call
it stands at some index of `[start, end)` with its code point, category Ra, position
`POS_REPH` and a mask that contains `mask_array[RPHF]`.  Second, for the three-slot syllable
Ra, H, C with C of position `POS_BASE_C`, a script tag ending in '2' and `POS_REPH` ordered
after `POS_BASE_C` (the enumerators being distinct): the base is index 2 and the slots after
the call are, masks aside, C, Ra, H with positions `POS_BASE_C`, `POS_REPH`, `POS_REPH`. -/
theorem C9_reph_slot_and_order (K : indic_enums) (map : hb_ot_map_t)
    (mask_array : Nat → Nat) (hR : mask_array RPHF ≠ 0) :
    (∀ (info : List hb_glyph_info_t) (start end_ : Nat),
      start + 3 ≤ end_ → end_ ≤ info.length →
      (slot info start).indic_category = K.OT_Ra →
      (slot info (start + 1)).indic_category = K.OT_H →
      is_joiner K (slot info (start + 2)) = false →
      (∀ i, start ≤ i → i < end_ → (slot info i).indic_category ≠ K.OT_ZWNJ) →
      slot (before_sort K map info mask_array start end_) start =
          { slot info start with indic_position := K.POS_REPH, mask := mask_array RPHF } ∧
        ∃ j, start ≤ j ∧ j < end_ ∧
          (slot (found_consonant_syllable K map info mask_array start end_) j).codepoint
            = (slot info start).codepoint ∧
          (slot (found_consonant_syllable K map info mask_array start end_) j).indic_category
            = K.OT_Ra ∧
          (slot (found_consonant_syllable K map info mask_array start end_) j).indic_position
            = K.POS_REPH ∧
          (slot (found_consonant_syllable K map info mask_array start end_) j).mask
            &&& mask_array RPHF = mask_array RPHF) ∧
    (∀ (ra h c : hb_glyph_info_t),
      ra.indic_category = K.OT_Ra → h.indic_category = K.OT_H →
      c.indic_category = K.OT_C → c.indic_position = K.POS_BASE_C →
      map.chosen_script 0 &&& 0x000000FF = 50 →
      K.POS_BASE_C < K.POS_REPH →
      K.POS_BASE_C ≠ K.POS_BELOW_C → K.POS_BASE_C ≠ K.POS_POST_C →
      K.OT_C ≠ K.OT_ZWJ → K.OT_C ≠ K.OT_ZWNJ → K.OT_C ≠ K.OT_N → K.OT_C ≠ K.OT_H →
      find_base K [ra, h, c] mask_array 0 3 = 2 ∧
        (found_consonant_syllable K map [ra, h, c] mask_array 0 3).map unmask =
          [unmask { c with indic_position := K.POS_BASE_C },
            unmask { ra with indic_position := K.POS_REPH },
            unmask { h with indic_position := K.POS_REPH }]) := by
  constructor
  · intro info start end_ h3 he hra hh hjoin hzwnj
    have hse : start < end_ := by omega
    have htaken : reph_taken K info mask_array start end_ = true := by
      simp [reph_taken, reph_precondition, hR, hra, hh, hjoin]
      omega
    have hpre := before_sort_reph_slot K map info mask_array start end_ hse he htaken
    refine ⟨hpre, ?_⟩
    by_cases h20 : end_ - start ≤ 20
    · have hlen := before_sort_length K map info mask_array start end_
      have hmem : slot (before_sort K map info mask_array start end_) start ∈
          hb_bubble_sort (syllable (before_sort K map info mask_array start end_) start end_)
            compare_indic_order :=
        (hb_bubble_sort_perm _).mem_iff.mpr
          ((mem_syllable_iff _ start end_ (by rw [hlen]; exact he) _).mpr
            ⟨start, le_refl _, hse, rfl⟩)
      obtain ⟨n, hn, hxn⟩ := List.mem_iff_getElem.mp hmem
      have hn2 : n < end_ - start := by
        rw [hb_bubble_sort_length, syllable_length _ _ _ (by rw [hlen]; exact he)] at hn
        exact hn
      have hsorted : slot (sort_syllable (before_sort K map info mask_array start end_)
          start end_) (start + n) = slot (before_sort K map info mask_array start end_)
            start := by
        rw [slot_sort_syllable _ _ _ (Nat.le_of_lt hse) (by rw [hlen]; exact he) (start + n)
          (by omega) (by omega)]
        have e : start + n - start = n := by omega
        rw [e, slot_of_lt hn, hxn]
      obtain ⟨m, hm⟩ := setup_syllable_masks_mono
        (sort_syllable (before_sort K map info mask_array start end_) start end_)
        mask_array start (find_base K info mask_array start end_) end_ (start + n)
      rw [← found_consonant_syllable_no_zwnj K map info mask_array start end_
        (Nat.le_of_lt hse) he h20 hzwnj, hsorted, hpre] at hm
      refine ⟨start + n, by omega, by omega, ?_⟩
      rw [hm]
      exact ⟨rfl, hra, rfl, land_lor_of_land m (Nat.and_self _)⟩
    · refine ⟨start, le_refl _, hse, ?_⟩
      rw [found_consonant_syllable_long K map info mask_array start end_ (by omega), hpre]
      exact ⟨rfl, hra, rfl, Nat.and_self _⟩
  · intro ra h c hra hh hc hcp hv2 hord hb1 hb2 hc1 hc2 hc3 hc4
    refine ⟨reph_scenario_base K mask_array ra h c hc hcp hb1 hb2, ?_⟩
    have hw : ∀ l : List hb_glyph_info_t,
        sort_syllable l 0 l.length = hb_bubble_sort l compare_indic_order := by
      intro l
      simp [sort_syllable]
    have hpre := reph_scenario_before_sort K map mask_array hR ra h c hra hh hc hcp hv2 hb1 hb2
      hc1 hc2 hc3 hc4
    have hs : sort_syllable (before_sort K map [ra, h, c] mask_array 0 3) 0 3 = _ :=
      (congrArg (fun l => sort_syllable l 0 3) hpre).trans
        ((hw _).trans (reph_scenario_sorted K ra h c hord (mask_array RPHF)))
    rw [found_consonant_syllable_map_unmask K map [ra, h, c] mask_array 0 3 (by omega), hs]
    rfl

/-- C9 at RA HALANT KA under `dev2` with the `rphf` bit of `test_masks`, the scenario of the
claim: the Ra reaches the sort with `POS_REPH` and the `rphf` mask, the base is 2 and the code
points after the call read KA, RA, HALANT. -/
theorem C9_reph_slot_and_order_witness :
    test_masks RPHF ≠ 0 ∧
      slot (before_sort spec_enums map_dev2 [slot_RA, slot_HALANT, slot_KA] test_masks 0 3) 0 =
        { slot [slot_RA, slot_HALANT, slot_KA] 0 with
          indic_position := spec_enums.POS_REPH, mask := test_masks RPHF } ∧
      find_base spec_enums [slot_RA, slot_HALANT, slot_KA] test_masks 0 3 = 2 ∧
      (found_consonant_syllable spec_enums map_dev2 [slot_RA, slot_HALANT, slot_KA]
        test_masks 0 3).map unmask =
        [unmask { slot_KA with indic_position := spec_enums.POS_BASE_C },
          unmask { slot_RA with indic_position := spec_enums.POS_REPH },
          unmask { slot_HALANT with indic_position := spec_enums.POS_REPH }] :=
  ⟨by decide,
    ((C9_reph_slot_and_order spec_enums map_dev2 test_masks (by decide)).1
      [slot_RA, slot_HALANT, slot_KA] 0 3 (by decide) (by decide) (by decide) (by decide)
      (by decide) (fun i _ h => by interval_cases i <;> decide)).1,
    (C9_reph_slot_and_order spec_enums map_dev2 test_masks (by decide)).2
      slot_RA slot_HALANT slot_KA (by decide) (by decide) (by decide) (by decide) (by decide)
      (by decide) (by decide) (by decide) (by decide) (by decide) (by decide) (by decide)⟩

/-! ## Lemmas: the frame of the call -/

theorem slot_sort_syllable_outside (l : List hb_glyph_info_t) (s e : Nat) (hse : s ≤ e)
    (he : e ≤ l.length) (i : Nat) (hi : i < s ∨ e ≤ i) :
    slot (sort_syllable l s e) i = slot l i := by
  apply slot_eq_of_getElem?
  rcases hi with hi | hi
  · have h := congrArg (fun t => t[i]?) (take_sort_syllable l s e (by omega))
    simp only [List.getElem?_take, if_pos hi] at h
    exact h
  · have h := congrArg (fun t => t[i - e]?) (drop_sort_syllable l s e hse he)
    simp only [List.getElem?_drop] at h
    have e1 : e + (i - e) = i := by omega
    rw [e1] at h
    exact h

theorem found_consonant_syllable_length (K : indic_enums) (map : hb_ot_map_t)
    (info : List hb_glyph_info_t) (mask_array : Nat → Nat) (start end_ : Nat)
    (hse : start ≤ end_) :
    (found_consonant_syllable K map info mask_array start end_).length = info.length := by
  by_cases h20 : end_ - start ≤ 20
  · rw [found_consonant_syllable_short K map info mask_array start end_ h20,
      apply_joiners_length, setup_syllable_masks_length, sort_syllable_length _ _ _ hse,
      before_sort_length]
  · rw [found_consonant_syllable_long K map info mask_array start end_ (by omega),
      before_sort_length]

/-- Outside the syllable the state before the sort has the entry glyphs, slot by slot. -/
theorem before_sort_glyph_outside (K : indic_enums) (map : hb_ot_map_t)
    (info : List hb_glyph_info_t) (mask_array : Nat → Nat) (start end_ : Nat)
    (he : end_ ≤ info.length) (i : Nat) (hi : i < start ∨ end_ ≤ i) :
    glyph_of (slot (before_sort K map info mask_array start end_) i) =
      glyph_of (slot info i) := by
  unfold before_sort
  simp only
  rw [slot_congr_of_map_eq (map_glyph_of_of_unposition (attach_marks_map K _ start end_)) i,
    slot_old_style_halant K map _ _ end_
      (by rw [handle_beginning_ra_length, reorder_characters_length]; exact he) i
      (by have := start_le_find_base K info mask_array start end_; omega),
    slot_congr_of_map_eq (handle_beginning_ra_map K _ mask_array _ start end_) i,
    slot_congr_of_map_eq (map_glyph_of_of_unposition (reorder_characters_map K info start _)) i]

/-- Outside the syllable the call leaves every code point and category where it was. -/
theorem found_consonant_syllable_glyph_outside (K : indic_enums) (map : hb_ot_map_t)
    (info : List hb_glyph_info_t) (mask_array : Nat → Nat) (start end_ : Nat)
    (hse : start ≤ end_) (he : end_ ≤ info.length) (i : Nat) (hi : i < start ∨ end_ ≤ i) :
    glyph_of (slot (found_consonant_syllable K map info mask_array start end_) i) =
      glyph_of (slot info i) := by
  by_cases h20 : end_ - start ≤ 20
  · rw [slot_congr_of_map_eq (map_glyph_of_of_unmask
        (found_consonant_syllable_map_unmask K map info mask_array start end_ h20)) i,
      slot_sort_syllable_outside _ _ _ hse (by rw [before_sort_length]; exact he) i hi]
    exact before_sort_glyph_outside K map info mask_array start end_ he i hi
  · rw [found_consonant_syllable_long K map info mask_array start end_ (by omega)]
    exact before_sort_glyph_outside K map info mask_array start end_ he i hi

/-! ## Claims about the frame and the glyphs -/

/-- C12 (the code departs from the claim): on the buffer KA HALANT ZWJ AA with the syllable
`[0, 3)`, the scan stops at the joiner with `base = end = 3`, and the statements
`info[base].indic_position() = POS_BASE_C` and `info[base].mask |= mask` write the slot of
index 3, which lies outside the syllable: the AA enters with position `POS_POST_M` and mask `1`
and leaves with position `POS_BASE_C` and the `akhn` and `cjct` bits. -/
theorem C12_slot_after_syllable_is_written :
    3 ≤ [slot_KA, slot_HALANT, slot_ZWJ, slot_AA].length ∧
      find_base spec_enums [slot_KA, slot_HALANT, slot_ZWJ, slot_AA] test_masks 0 3 = 3 ∧
      slot [slot_KA, slot_HALANT, slot_ZWJ, slot_AA] 3 =
        mk_slot 0x093E spec_enums.OT_M spec_enums.POS_POST_M 1 ∧
      slot (found_consonant_syllable spec_enums map_dev2
          [slot_KA, slot_HALANT, slot_ZWJ, slot_AA] test_masks 0 3) 3 =
        mk_slot 0x093E spec_enums.OT_M spec_enums.POS_BASE_C
          (1 ||| test_masks AKHN ||| test_masks CJCT) ∧
      slot (found_consonant_syllable spec_enums map_dev2
          [slot_KA, slot_HALANT, slot_ZWJ, slot_AA] test_masks 0 3) 3 ≠
        slot [slot_KA, slot_HALANT, slot_ZWJ, slot_AA] 3 := by
  decide

/-- C13: for a syllable inside the buffer, of any length and under any script tag, the call
keeps the length of the buffer, the sequence of (code point, category) pairs over
`[start, end)` after the call is a permutation of the sequence before it, and at every index
outside `[start, end)` the code point and category are unchanged. -/
theorem C13_glyphs_permuted_inside_syllable (K : indic_enums) (map : hb_ot_map_t)
    (info : List hb_glyph_info_t) (mask_array : Nat → Nat) (start end_ : Nat)
    (hse : start < end_) (he : end_ ≤ info.length) :
    (found_consonant_syllable K map info mask_array start end_).length = info.length ∧
      ((syllable (found_consonant_syllable K map info mask_array start end_)
          start end_).map glyph_of).Perm ((syllable info start end_).map glyph_of) ∧
      ∀ i, i < start ∨ end_ ≤ i →
        glyph_of (slot (found_consonant_syllable K map info mask_array start end_) i) =
          glyph_of (slot info i) :=
  ⟨found_consonant_syllable_length K map info mask_array start end_ (Nat.le_of_lt hse),
    found_consonant_syllable_glyphs_perm K map info mask_array start end_ (Nat.le_of_lt hse) he,
    found_consonant_syllable_glyph_outside K map info mask_array start end_
      (Nat.le_of_lt hse) he⟩

/-- C13 at RA HALANT KA followed by AA, under `deva` with `rphf` enabled: the pairs of the
syllable `[0, 3)` are rearranged (KA comes first) and the AA keeps its pair. -/
theorem C13_glyphs_permuted_inside_syllable_witness :
    (0 < 3 ∧ 3 ≤ [slot_RA, slot_HALANT, slot_KA, slot_AA].length) ∧
      (found_consonant_syllable spec_enums map_deva [slot_RA, slot_HALANT, slot_KA, slot_AA]
        test_masks 0 3).map glyph_of =
          [glyph_of slot_KA, glyph_of slot_RA, glyph_of slot_HALANT, glyph_of slot_AA] ∧
      ((syllable (found_consonant_syllable spec_enums map_deva
          [slot_RA, slot_HALANT, slot_KA, slot_AA] test_masks 0 3) 0 3).map glyph_of).Perm
        ((syllable [slot_RA, slot_HALANT, slot_KA, slot_AA] 0 3).map glyph_of) :=
  ⟨by decide, by decide,
    (C13_glyphs_permuted_inside_syllable spec_enums map_deva
      [slot_RA, slot_HALANT, slot_KA, slot_AA] test_masks 0 3 (by decide) (by decide)).2.1⟩

/-! ## Lemmas: the scan over consonants with below-base or post-base forms -/

/-- Over slots that are neither consonants nor joiners the scan keeps `base`. -/
theorem base_scan_passes (K : indic_enums) (info : List hb_glyph_info_t) (limit : Nat) :
    ∀ (i base : Nat), limit < i →
      (∀ m, limit ≤ m → m < i → is_consonant K (slot info m) = false) →
      (∀ m, limit ≤ m → m < i → is_joiner K (slot info m) = false) →
      base_scan K info limit i base = base
  | 0, _, h, _, _ => by omega
  | i + 1, base, _, hc, hj => by
    rw [base_scan, hc i (by omega) (by omega), hj i (by omega) (by omega)]
    simp only [Bool.false_eq_true, if_false]
    split
    · rename_i hlt
      exact base_scan_passes K info limit i base hlt
        (fun m h1 h2 => hc m h1 (by omega)) (fun m h1 h2 => hj m h1 (by omega))
    · rfl

/-- When every consonant of the scan range has a below-base or post-base form and the range
holds no joiner, the scan runs down to `limit` and ends on the consonant of least index. -/
theorem base_scan_first_consonant (K : indic_enums) (info : List hb_glyph_info_t)
    (limit k : Nat) (hlk : limit ≤ k) (hck : is_consonant K (slot info k) = true)
    (hfirst : ∀ m, limit ≤ m → m < k → is_consonant K (slot info m) = false) :
    ∀ (i base : Nat), k < i →
      (∀ m, limit ≤ m → m < i → is_consonant K (slot info m) = true →
        (slot info m).indic_position = K.POS_BELOW_C ∨
          (slot info m).indic_position = K.POS_POST_C) →
      (∀ m, limit ≤ m → m < i → is_joiner K (slot info m) = false) →
      base_scan K info limit i base = k
  | 0, _, h, _, _ => by omega
  | i + 1, base, hki, hpos, hj => by
    have hnot : ∀ m, limit ≤ m → m < i + 1 → is_consonant K (slot info m) = true →
        ¬ ((slot info m).indic_position ≠ K.POS_BELOW_C ∧
          (slot info m).indic_position ≠ K.POS_POST_C) := by
      intro m h1 h2 h3 ⟨h4, h5⟩
      rcases hpos m h1 h2 h3 with h | h
      · exact h4 h
      · exact h5 h
    by_cases hik : i = k
    · subst hik
      rw [base_scan, if_pos hck, if_neg (hnot i hlk (by omega) hck)]
      split
      · rename_i hlt
        exact base_scan_passes K info limit i i hlt hfirst
          (fun m h1 h2 => hj m h1 (by omega))
      · rfl
    · have hlt : k < i := by omega
      have ih := fun b => base_scan_first_consonant K info limit k hlk hck hfirst i b hlt
        (fun m h1 h2 => hpos m h1 (by omega)) (fun m h1 h2 => hj m h1 (by omega))
      by_cases hci : is_consonant K (slot info i) = true
      · rw [base_scan, if_pos hci, if_neg (hnot i (by omega) (by omega) hci),
          if_pos (by omega)]
        exact ih i
      · rw [base_scan, if_neg hci, hj i (by omega) (by omega), if_neg (by simp),
          if_pos (by omega)]
        exact ih base

/-! ## Claims about the base consonant: the joiner, the sort, the first consonant -/

/-- C16 (the code departs from the claim): on RA HALANT KA HALANT ZWNJ with `rphf` enabled the
Reph precondition holds and the syllable holds two consonants, RA and KA; the scan meets the
ZWNJ at index 4 first and stops, and `base` keeps the value `start` the Reph branch gave it:
the base is the index 0 of the initial Ra. -/
theorem C16_initial_ra_is_selected_as_base :
    reph_precondition spec_enums [slot_RA, slot_HALANT, slot_KA, slot_HALANT, slot_ZWNJ]
        test_masks 0 5 = true ∧
      is_consonant spec_enums
        (slot [slot_RA, slot_HALANT, slot_KA, slot_HALANT, slot_ZWNJ] 0) = true ∧
      is_consonant spec_enums
        (slot [slot_RA, slot_HALANT, slot_KA, slot_HALANT, slot_ZWNJ] 2) = true ∧
      find_base spec_enums [slot_RA, slot_HALANT, slot_KA, slot_HALANT, slot_ZWNJ]
        test_masks 0 5 = 0 := by
  decide

/-- C17 (the code departs from the claim): on RA HALANT KA under `dev2` with `rphf` enabled
the base is KA at index 2; the sort puts KA at index 0 and the halant at index 2, and the mask
block goes by the index `base = 2` chosen before the sort.  KA, which enters without the `half`
bit, ends with the pre-base mask, `half` included, and the base mask lands on the halant. -/
theorem C17_base_mask_goes_by_stale_index :
    find_base spec_enums [slot_RA, slot_HALANT, slot_KA] test_masks 0 3 = 2 ∧
      (slot [slot_RA, slot_HALANT, slot_KA] 2).codepoint = 0x0915 ∧
      (slot [slot_RA, slot_HALANT, slot_KA] 2).mask &&& test_masks HALF = 0 ∧
      (slot (found_consonant_syllable spec_enums map_dev2 [slot_RA, slot_HALANT, slot_KA]
        test_masks 0 3) 0).codepoint = 0x0915 ∧
      (slot (found_consonant_syllable spec_enums map_dev2 [slot_RA, slot_HALANT, slot_KA]
        test_masks 0 3) 0).mask =
          1 ||| (test_masks HALF ||| test_masks AKHN ||| test_masks CJCT) ∧
      (slot (found_consonant_syllable spec_enums map_dev2 [slot_RA, slot_HALANT, slot_KA]
        test_masks 0 3) 0).mask &&& test_masks HALF ≠ 0 ∧
      (slot (found_consonant_syllable spec_enums map_dev2 [slot_RA, slot_HALANT, slot_KA]
        test_masks 0 3) 2).codepoint = 0x094D ∧
      (slot (found_consonant_syllable spec_enums map_dev2 [slot_RA, slot_HALANT, slot_KA]
        test_masks 0 3) 2).mask = 1 ||| (test_masks AKHN ||| test_masks CJCT) := by
  decide

/-- C18 as stated fails: in the syllable formed by a below-base consonant, HALANT and a
post-base consonant there is no joiner and every consonant has position `POS_BELOW_C` or
`POS_POST_C`; the consonant of greatest index, the first the backward scan meets, stands at
index 2, yet the base is index 0. -/
theorem C18_base_is_not_the_first_met :
    (∀ i, i < 3 → is_joiner spec_enums (slot [slot_below, slot_HALANT, slot_post] i) = false) ∧
      (∀ i, i < 3 → is_consonant spec_enums (slot [slot_below, slot_HALANT, slot_post] i) = true →
        (slot [slot_below, slot_HALANT, slot_post] i).indic_position = spec_enums.POS_BELOW_C ∨
        (slot [slot_below, slot_HALANT, slot_post] i).indic_position = spec_enums.POS_POST_C) ∧
      is_consonant spec_enums (slot [slot_below, slot_HALANT, slot_post] 2) = true ∧
      find_base spec_enums [slot_below, slot_HALANT, slot_post] test_masks 0 3 = 0 ∧
      find_base spec_enums [slot_below, slot_HALANT, slot_post] test_masks 0 3 ≠ 2 := by
  decide

/-- C18, amended: with `limit` the lower bound of the scan (`start + 2` under the Reph
precondition, `start` otherwise), if the scan range `[limit, end)` holds no joiner, every
consonant in it has position `POS_BELOW_C` or `POS_POST_C`, and `k` is the least index of a
consonant in it, then the base is `k`: the last such consonant the backward scan meets, the
first consonant of the range. -/
theorem C18_base_is_first_consonant_of_scan_range (K : indic_enums)
    (info : List hb_glyph_info_t) (mask_array : Nat → Nat) (start end_ k : Nat)
    (hlimit : (if reph_precondition K info mask_array start end_ then start + 2 else start) ≤ k)
    (hk : k < end_)
    (hck : is_consonant K (slot info k) = true)
    (hfirst : ∀ m,
      (if reph_precondition K info mask_array start end_ then start + 2 else start) ≤ m →
      m < k → is_consonant K (slot info m) = false)
    (hpos : ∀ m,
      (if reph_precondition K info mask_array start end_ then start + 2 else start) ≤ m →
      m < end_ → is_consonant K (slot info m) = true →
      (slot info m).indic_position = K.POS_BELOW_C ∨
        (slot info m).indic_position = K.POS_POST_C)
    (hjoin : ∀ m,
      (if reph_precondition K info mask_array start end_ then start + 2 else start) ≤ m →
      m < end_ → is_joiner K (slot info m) = false) :
    find_base K info mask_array start end_ = k := by
  have hscan := fun b => base_scan_first_consonant K info
    (if reph_precondition K info mask_array start end_ then start + 2 else start) k hlimit hck
    hfirst end_ b hk hpos hjoin
  have hsk : start ≤ k := by
    split at hlimit <;> omega
  unfold find_base
  simp only [hscan]
  rw [if_neg (by omega)]

/-- C18, amended, at the syllable below-base consonant, HALANT, post-base consonant: the base
is the consonant at index 0. -/
theorem C18_base_is_first_consonant_of_scan_range_witness :
    reph_precondition spec_enums [slot_below, slot_HALANT, slot_post] test_masks 0 3 = false ∧
      find_base spec_enums [slot_below, slot_HALANT, slot_post] test_masks 0 3 = 0 :=
  ⟨by decide,
    C18_base_is_first_consonant_of_scan_range spec_enums [slot_below, slot_HALANT, slot_post]
      test_masks 0 3 0 (by decide) (by decide) (by decide)
      (fun m h1 h2 => by omega)
      (fun m _ h2 => by interval_cases m <;> decide)
      (fun m _ h2 => by interval_cases m <;> decide)⟩

/-! ## Claims about the pipeline adapter -/

/-- C15: on an empty builder `collect_features` appends exactly: feature `locl`, feature
`ccmp`, a pause calling `initial_reordering`, then `nukt`, `akhn`, `rphf`, `rkrf`, `pref`,
`blwf`, `half`, `vatu`, `pstf`, `cjct`, each followed by a pause without callback (`nukt`,
`rkrf`, `vatu` global, the other seven not), a pause calling `final_reordering`, then `pres`,
`abvs`, `blws`, `psts`, `haln`, `dist`, `abvm`, `blwm`, each global and followed by a pause
without callback.  Hence the `initial_reordering` pause (index 2) comes before every basic
feature, and the `final_reordering` pause (index 23) after every basic feature and before
every presentation feature. -/
theorem C15_collect_features_sequence :
    _hb_ot_shape_complex_collect_features_indic [] =
      [ map_builder_entry.bool_feature (HB_TAG 'l' 'o' 'c' 'l') none,
        map_builder_entry.bool_feature (HB_TAG 'c' 'c' 'm' 'p') none,
        map_builder_entry.gsub_pause (some pause_callback.initial_reordering),
        map_builder_entry.bool_feature (HB_TAG 'n' 'u' 'k' 't') (some true),
        map_builder_entry.gsub_pause none,
        map_builder_entry.bool_feature (HB_TAG 'a' 'k' 'h' 'n') (some false),
        map_builder_entry.gsub_pause none,
        map_builder_entry.bool_feature (HB_TAG 'r' 'p' 'h' 'f') (some false),
        map_builder_entry.gsub_pause none,
        map_builder_entry.bool_feature (HB_TAG 'r' 'k' 'r' 'f') (some true),
        map_builder_entry.gsub_pause none,
        map_builder_entry.bool_feature (HB_TAG 'p' 'r' 'e' 'f') (some false),
        map_builder_entry.gsub_pause none,
        map_builder_entry.bool_feature (HB_TAG 'b' 'l' 'w' 'f') (some false),
        map_builder_entry.gsub_pause none,
        map_builder_entry.bool_feature (HB_TAG 'h' 'a' 'l' 'f') (some false),
        map_builder_entry.gsub_pause none,
        map_builder_entry.bool_feature (HB_TAG 'v' 'a' 't' 'u') (some true),
        map_builder_entry.gsub_pause none,
        map_builder_entry.bool_feature (HB_TAG 'p' 's' 't' 'f') (some false),
        map_builder_entry.gsub_pause none,
        map_builder_entry.bool_feature (HB_TAG 'c' 'j' 'c' 't') (some false),
        map_builder_entry.gsub_pause none,
        map_builder_entry.gsub_pause (some pause_callback.final_reordering),
        map_builder_entry.bool_feature (HB_TAG 'p' 'r' 'e' 's') (some true),
        map_builder_entry.gsub_pause none,
        map_builder_entry.bool_feature (HB_TAG 'a' 'b' 'v' 's') (some true),
        map_builder_entry.gsub_pause none,
        map_builder_entry.bool_feature (HB_TAG 'b' 'l' 'w' 's') (some true),
        map_builder_entry.gsub_pause none,
        map_builder_entry.bool_feature (HB_TAG 'p' 's' 't' 's') (some true),
        map_builder_entry.gsub_pause none,
        map_builder_entry.bool_feature (HB_TAG 'h' 'a' 'l' 'n') (some true),
        map_builder_entry.gsub_pause none,
        map_builder_entry.bool_feature (HB_TAG 'd' 'i' 's' 't') (some true),
        map_builder_entry.gsub_pause none,
        map_builder_entry.bool_feature (HB_TAG 'a' 'b' 'v' 'm') (some true),
        map_builder_entry.gsub_pause none,
        map_builder_entry.bool_feature (HB_TAG 'b' 'l' 'w' 'm') (some true),
        map_builder_entry.gsub_pause none ] ∧
      (_hb_ot_shape_complex_collect_features_indic []).indexOf
        (map_builder_entry.gsub_pause (some pause_callback.initial_reordering)) = 2 ∧
      (_hb_ot_shape_complex_collect_features_indic []).indexOf
        (map_builder_entry.gsub_pause (some pause_callback.final_reordering)) = 23 ∧
      (∀ f ∈ indic_basic_features,
        2 < (_hb_ot_shape_complex_collect_features_indic []).indexOf
            (map_builder_entry.bool_feature f.tag (some f.is_global)) ∧
          (_hb_ot_shape_complex_collect_features_indic []).indexOf
            (map_builder_entry.bool_feature f.tag (some f.is_global)) < 23) ∧
      (∀ t ∈ indic_other_features,
        23 < (_hb_ot_shape_complex_collect_features_indic []).indexOf
            (map_builder_entry.bool_feature t (some true)) ∧
          (_hb_ot_shape_complex_collect_features_indic []).indexOf
            (map_builder_entry.bool_feature t (some true)) < 40) := by
  decide

/-- C19: the feature enum is aligned with `indic_basic_features`: for each of `AKHN`, `RPHF`,
`PREF`, `BLWF`, `HALF`, `PSTF`, `CJCT` the array entry of that index has the tag of the same
name and is not global, the `mask_array` that `initial_reordering` fills holds at that index
the 1-mask the map gives for that tag, and every enum value is below the array length 10. -/
theorem C19_feature_enum_matches_array (get_1_mask : Nat → Nat) :
    indic_basic_features.length = 10 ∧
      (initial_reordering_mask_array get_1_mask).length = 10 ∧
      (_NUKT < 10 ∧ AKHN < 10 ∧ RPHF < 10 ∧ _RKRF < 10 ∧ PREF < 10 ∧ BLWF < 10 ∧ HALF < 10 ∧
        _VATU < 10 ∧ PSTF < 10 ∧ CJCT < 10) ∧
      (indic_basic_features.getD AKHN default =
          { tag := HB_TAG 'a' 'k' 'h' 'n', is_global := false } ∧
        initial_reordering_masks get_1_mask AKHN = get_1_mask (HB_TAG 'a' 'k' 'h' 'n')) ∧
      (indic_basic_features.getD RPHF default =
          { tag := HB_TAG 'r' 'p' 'h' 'f', is_global := false } ∧
        initial_reordering_masks get_1_mask RPHF = get_1_mask (HB_TAG 'r' 'p' 'h' 'f')) ∧
      (indic_basic_features.getD PREF default =
          { tag := HB_TAG 'p' 'r' 'e' 'f', is_global := false } ∧
        initial_reordering_masks get_1_mask PREF = get_1_mask (HB_TAG 'p' 'r' 'e' 'f')) ∧
      (indic_basic_features.getD BLWF default =
          { tag := HB_TAG 'b' 'l' 'w' 'f', is_global := false } ∧
        initial_reordering_masks get_1_mask BLWF = get_1_mask (HB_TAG 'b' 'l' 'w' 'f')) ∧
      (indic_basic_features.getD HALF default =
          { tag := HB_TAG 'h' 'a' 'l' 'f', is_global := false } ∧
        initial_reordering_masks get_1_mask HALF = get_1_mask (HB_TAG 'h' 'a' 'l' 'f')) ∧
      (indic_basic_features.getD PSTF default =
          { tag := HB_TAG 'p' 's' 't' 'f', is_global := false } ∧
        initial_reordering_masks get_1_mask PSTF = get_1_mask (HB_TAG 'p' 's' 't' 'f')) ∧
      (indic_basic_features.getD CJCT default =
          { tag := HB_TAG 'c' 'j' 'c' 't', is_global := false } ∧
        initial_reordering_masks get_1_mask CJCT = get_1_mask (HB_TAG 'c' 'j' 'c' 't')) :=
  ⟨rfl, rfl, by decide, ⟨rfl, rfl⟩, ⟨rfl, rfl⟩, ⟨rfl, rfl⟩, ⟨rfl, rfl⟩, ⟨rfl, rfl⟩, ⟨rfl, rfl⟩,
    ⟨rfl, rfl⟩⟩

/-! ## Lemmas: the binary search and the classifier -/

theorem compare_codepoint_neg (a b : Nat) : compare_codepoint a b < 0 ↔ a < b := by
  unfold compare_codepoint
  split_ifs with h1 h2 <;> constructor <;> intro h <;> omega

theorem compare_codepoint_pos (a b : Nat) : compare_codepoint a b > 0 ↔ b < a := by
  unfold compare_codepoint
  split_ifs with h1 h2 <;> constructor <;> intro h <;> omega

/-- What the search returns is an element of the array that compares equal to the key. -/
theorem bsearch_loop_sound {α : Type} (key : Nat) (base : List α) (read : α → Nat) :
    ∀ (fuel lo hi : Nat) (r : α),
      bsearch_loop key base read compare_codepoint fuel lo hi = some r →
      r ∈ base ∧ read r = key
  | 0, _, _, _, h => by simp [bsearch_loop] at h
  | fuel + 1, lo, hi, r, h => by
    rw [bsearch_loop] at h
    split at h
    · split at h
      · exact absurd h (by simp)
      · rename_i x hx
        split at h
        · exact bsearch_loop_sound key base read fuel _ _ r h
        · split at h
          · exact bsearch_loop_sound key base read fuel _ _ r h
          · rename_i hneg hpos
            simp only [Option.some.injEq] at h
            subst h
            refine ⟨List.mem_iff_getElem?.mpr ⟨_, hx⟩, ?_⟩
            have h1 : ¬ key < read x := fun hlt => hneg ((compare_codepoint_neg _ _).mpr hlt)
            have h2 : ¬ read x < key := fun hlt => hpos ((compare_codepoint_pos _ _).mpr hlt)
            omega
    · exact absurd h (by simp)

theorem read_lt_of_sorted {α : Type} {base : List α} {read : α → Nat}
    (hs : base.Pairwise (fun x y => read x < read y)) {a b : Nat} {x y : α} (hab : a < b)
    (ha : base[a]? = some x) (hb : base[b]? = some y) : read x < read y := by
  obtain ⟨ha1, ha2⟩ := List.getElem?_eq_some.mp ha
  obtain ⟨hb1, hb2⟩ := List.getElem?_eq_some.mp hb
  have := List.pairwise_iff_getElem.mp hs a b ha1 hb1 hab
  rw [ha2, hb2] at this
  exact this

/-- On an array sorted by code point the search finds the element of a given key. -/
theorem bsearch_loop_complete {α : Type} (key : Nat) (base : List α) (read : α → Nat)
    (hs : base.Pairwise (fun x y => read x < read y)) (p : Nat) (r : α)
    (hp : base[p]? = some r) (hr : read r = key) :
    ∀ (fuel lo hi : Nat), hi - lo ≤ fuel → lo ≤ p → p < hi → hi ≤ base.length →
      bsearch_loop key base read compare_codepoint fuel lo hi = some r
  | 0, lo, hi, h1, h2, h3, _ => by omega
  | fuel + 1, lo, hi, h1, h2, h3, h4 => by
    obtain ⟨x, hx⟩ : ∃ x, base[lo + (hi - lo) / 2]? = some x :=
      ⟨_, List.getElem?_eq_getElem (by omega)⟩
    have heq : lo + (hi - lo) / 2 = p → read x = key := by
      intro e
      rw [e, hp] at hx
      simp only [Option.some.injEq] at hx
      rw [← hx]
      exact hr
    rw [bsearch_loop, if_pos (by omega), hx]
    simp only
    by_cases hlt : key < read x
    · rw [if_pos ((compare_codepoint_neg _ _).mpr hlt)]
      apply bsearch_loop_complete key base read hs p r hp hr fuel _ _ (by omega) h2 _ (by omega)
      by_contra hge
      rcases Nat.lt_or_ge (lo + (hi - lo) / 2) p with h | h
      · have := read_lt_of_sorted hs h hx hp
        omega
      · have := heq (by omega)
        omega
    · rw [if_neg (fun h => hlt ((compare_codepoint_neg _ _).mp h))]
      by_cases hgt : read x < key
      · rw [if_pos ((compare_codepoint_pos _ _).mpr hgt)]
        apply bsearch_loop_complete key base read hs p r hp hr fuel _ _ (by omega) _ h3 h4
        by_contra hge
        rcases Nat.lt_or_ge p (lo + (hi - lo) / 2) with h | h
        · have := read_lt_of_sorted hs h hp hx
          omega
        · have := heq (by omega)
          omega
      · rw [if_neg (fun h => hgt ((compare_codepoint_pos _ _).mp h))]
        rcases Nat.lt_trichotomy p (lo + (hi - lo) / 2) with h | h | h
        · have := read_lt_of_sorted hs h hp hx
          omega
        · rw [← hx, ← h, hp]
        · have := read_lt_of_sorted hs h hx hp
          omega

theorem bsearch_of_mem {α : Type} (key : Nat) (base : List α) (read : α → Nat)
    (hs : base.Pairwise (fun x y => read x < read y)) (r : α) (hmem : r ∈ base)
    (hr : read r = key) : bsearch key base read compare_codepoint = some r := by
  obtain ⟨p, hp⟩ := List.mem_iff_getElem?.mp hmem
  have hlt : p < base.length := by
    by_contra h
    rw [List.getElem?_eq_none (by omega)] at hp
    exact absurd hp (by simp)
  exact bsearch_loop_complete key base read hs p r hp hr base.length 0 base.length
    (by omega) (by omega) hlt (le_refl _)

theorem bsearch_of_not_mem {α : Type} (key : Nat) (base : List α) (read : α → Nat)
    (h : ∀ r ∈ base, read r ≠ key) : bsearch key base read compare_codepoint = none := by
  cases hb : bsearch key base read compare_codepoint with
  | none => rfl
  | some r =>
    obtain ⟨h1, h2⟩ := bsearch_loop_sound key base read _ _ _ r hb
    exact absurd h2 (h r h1)

theorem consonant_position_of_mem (K : indic_enums) (T : indic_tables)
    (hs : T.consonant_positions.Pairwise (fun a b => a.u < b.u)) (u : Nat)
    (r : consonant_position_t) (hmem : r ∈ T.consonant_positions) (hr : r.u = u) :
    consonant_position K T u = r.position := by
  unfold consonant_position
  rw [bsearch_of_mem u T.consonant_positions (fun r => r.u) hs r hmem hr]

theorem consonant_position_of_not_mem (K : indic_enums) (T : indic_tables) (u : Nat)
    (h : ∀ r ∈ T.consonant_positions, r.u ≠ u) : consonant_position K T u = K.POS_BASE_C := by
  unfold consonant_position
  rw [bsearch_of_not_mem u T.consonant_positions (fun r => r.u) h]

theorem is_ra_iff (T : indic_tables) (hs : T.ra_chars.Pairwise (fun a b => a < b)) (u : Nat) :
    is_ra T u = true ↔ u ∈ T.ra_chars := by
  unfold is_ra
  constructor
  · intro h
    obtain ⟨r, hr⟩ := Option.isSome_iff_exists.mp h
    obtain ⟨h1, h2⟩ := bsearch_loop_sound u T.ra_chars (fun c => c) _ _ _ r hr
    rw [← h2]
    exact h1
  · intro h
    rw [bsearch_of_mem u T.ra_chars (fun c => c) hs u h rfl]
    rfl

theorem slot_setup_masks (K : indic_enums) (T : indic_tables) (buffer : List hb_glyph_info_t)
    (i : Nat) (hi : i < buffer.length) :
    slot (_hb_ot_shape_complex_setup_masks_indic K T buffer) i =
      setup_masks_slot K T (slot buffer i) := by
  unfold _hb_ot_shape_complex_setup_masks_indic
  exact for_loop_slot_inside _ (fun _ x => setup_masks_slot K T x)
    (fun k t => List.length_set t k _) (fun _ _ hk => slot_set_self _ hk)
    (fun _ _ _ hj => slot_set_ne _ (Ne.symm hj)) _ _ _ i (by omega) (by omega) hi

/-- The classifier on a code point other than U+0952 whose raw category is C. -/
theorem setup_masks_slot_consonant (K : indic_enums) (T : indic_tables) (x : hb_glyph_info_t)
    (hu : x.codepoint ≠ 0x0952) (hC : T.get_indic_categories x.codepoint &&& 0x0F = K.OT_C) :
    setup_masks_slot K T x =
      { x with
        indic_category := if is_ra T x.codepoint then K.OT_Ra else K.OT_C,
        indic_position := consonant_position K T x.codepoint } := by
  unfold setup_masks_slot
  simp only [hC, if_true]
  by_cases hra : is_ra T x.codepoint = true
  · simp [hra, hu]
  · simp [hra, hu, hC]

/-! ## Claim about the classifier -/

/-- C14: with the consonant-position table and the Ra table sorted by code point, for every
slot of the buffer whose code point `u` is not U+0952 and has raw category C (low nibble of
`get_indic_categories u`), `setup_masks` gives the slot the position `consonant_position u`,
which is the position recorded for `u` in the consonant-position table and `POS_BASE_C` when
`u` is absent from it, and the category Ra if `u` is in the Ra table and C otherwise; and any
slot of any buffer with the same code point gets the same category and position, whatever its
index and neighbours. -/
theorem C14_consonant_classification (K : indic_enums) (T : indic_tables)
    (hcp : T.consonant_positions.Pairwise (fun a b => a.u < b.u))
    (hra : T.ra_chars.Pairwise (fun a b => a < b))
    (buffer : List hb_glyph_info_t) (i : Nat) (hi : i < buffer.length)
    (hu : (slot buffer i).codepoint ≠ 0x0952)
    (hC : T.get_indic_categories (slot buffer i).codepoint &&& 0x0F = K.OT_C) :
    (slot (_hb_ot_shape_complex_setup_masks_indic K T buffer) i).indic_position =
        consonant_position K T (slot buffer i).codepoint ∧
      (∀ r ∈ T.consonant_positions, r.u = (slot buffer i).codepoint →
        (slot (_hb_ot_shape_complex_setup_masks_indic K T buffer) i).indic_position
          = r.position) ∧
      ((∀ r ∈ T.consonant_positions, r.u ≠ (slot buffer i).codepoint) →
        (slot (_hb_ot_shape_complex_setup_masks_indic K T buffer) i).indic_position
          = K.POS_BASE_C) ∧
      (slot (_hb_ot_shape_complex_setup_masks_indic K T buffer) i).indic_category =
        (if (slot buffer i).codepoint ∈ T.ra_chars then K.OT_Ra else K.OT_C) ∧
      (∀ (buffer1 : List hb_glyph_info_t) (j : Nat), j < buffer1.length →
        (slot buffer1 j).codepoint = (slot buffer i).codepoint →
        (slot (_hb_ot_shape_complex_setup_masks_indic K T buffer1) j).indic_category =
            (slot (_hb_ot_shape_complex_setup_masks_indic K T buffer) i).indic_category ∧
          (slot (_hb_ot_shape_complex_setup_masks_indic K T buffer1) j).indic_position =
            (slot (_hb_ot_shape_complex_setup_masks_indic K T buffer) i).indic_position) := by
  have hslot := slot_setup_masks K T buffer i hi
  rw [setup_masks_slot_consonant K T _ hu hC] at hslot
  have hpos : (slot (_hb_ot_shape_complex_setup_masks_indic K T buffer) i).indic_position =
      consonant_position K T (slot buffer i).codepoint := by
    rw [hslot]
  have hcat : (slot (_hb_ot_shape_complex_setup_masks_indic K T buffer) i).indic_category =
      (if is_ra T (slot buffer i).codepoint then K.OT_Ra else K.OT_C) := by
    rw [hslot]
  refine ⟨hpos, ?_, ?_, ?_, ?_⟩
  · intro r hr hru
    rw [hpos]
    exact consonant_position_of_mem K T hcp _ r hr hru
  · intro hnone
    rw [hpos]
    exact consonant_position_of_not_mem K T _ hnone
  · rw [hcat]
    by_cases hmem : (slot buffer i).codepoint ∈ T.ra_chars
    · rw [if_pos hmem, if_pos ((is_ra_iff T hra _).mpr hmem)]
    · rw [if_neg hmem, if_neg (fun h => hmem ((is_ra_iff T hra _).mp h))]
  · intro buffer1 j hj hcode
    have hslot1 := slot_setup_masks K T buffer1 j hj
    rw [setup_masks_slot_consonant K T _ (by rw [hcode]; exact hu) (by rw [hcode]; exact hC)]
      at hslot1
    rw [hslot1, hslot]
    simp only [hcode]
    exact ⟨trivial, trivial⟩

/-- C14 on the buffer KA, RA, U+09AC with the tables `test_tables`: the hypotheses hold for
the RA at index 1, which is absent from the consonant-position table and present in the Ra
table: it gets position `POS_BASE_C` and category Ra; U+09AC at index 2 gets its recorded
position `POS_BELOW_C`. -/
theorem C14_consonant_classification_witness :
    (slot (_hb_ot_shape_complex_setup_masks_indic spec_enums test_tables
        [mk_slot 0x0915 0 0 1, mk_slot 0x0930 0 0 1, mk_slot 0x09AC 0 0 1]) 1).indic_position
      = spec_enums.POS_BASE_C ∧
    (slot (_hb_ot_shape_complex_setup_masks_indic spec_enums test_tables
        [mk_slot 0x0915 0 0 1, mk_slot 0x0930 0 0 1, mk_slot 0x09AC 0 0 1]) 1).indic_category
      = spec_enums.OT_Ra ∧
    (slot (_hb_ot_shape_complex_setup_masks_indic spec_enums test_tables
        [mk_slot 0x0915 0 0 1, mk_slot 0x0930 0 0 1, mk_slot 0x09AC 0 0 1]) 2).indic_position
      = spec_enums.POS_BELOW_C :=
  ⟨(C14_consonant_classification spec_enums test_tables (by decide) (by decide)
      [mk_slot 0x0915 0 0 1, mk_slot 0x0930 0 0 1, mk_slot 0x09AC 0 0 1] 1 (by decide)
      (by decide) (by decide)).2.2.1 (by decide),
    (C14_consonant_classification spec_enums test_tables (by decide) (by decide)
      [mk_slot 0x0915 0 0 1, mk_slot 0x0930 0 0 1, mk_slot 0x09AC 0 0 1] 1 (by decide)
      (by decide) (by decide)).2.2.2.1,
    (C14_consonant_classification spec_enums test_tables (by decide) (by decide)
      [mk_slot 0x0915 0 0 1, mk_slot 0x0930 0 0 1, mk_slot 0x09AC 0 0 1] 2 (by decide)
      (by decide) (by decide)).2.1 { u := 0x09AC, position := spec_enums.POS_BELOW_C }
      (by decide) (by decide)⟩

/-! ## Lemmas: which halant moves, and behind which consonant -/

theorem first_halant_eq_some (K : indic_enums) (l : List hb_glyph_info_t) (i : Nat)
    (hi : (slot l i).indic_category = K.OT_H) :
    ∀ (n a : Nat), a ≤ i → i < a + n →
      (∀ m, a ≤ m → m < i → (slot l m).indic_category ≠ K.OT_H) →
      first_halant K l n a = some i
  | 0, a, h1, h2, _ => by omega
  | n + 1, a, h1, h2, hfirst => by
    rw [first_halant]
    by_cases hai : a = i
    · subst hai
      rw [if_pos hi]
    · rw [if_neg (hfirst a (le_refl a) (by omega))]
      exact first_halant_eq_some K l i hi n (a + 1) (by omega) (by omega)
        (fun m hm1 hm2 => hfirst m (by omega) hm2)

theorem flag_test_eq_is_consonant (K : indic_enums) (x : hb_glyph_info_t) :
    (FLAG x.indic_category &&& (FLAG K.OT_C ||| FLAG K.OT_Ra) ≠ 0) ↔ is_consonant K x = true := by
  unfold is_consonant
  rw [decide_eq_true_iff]

theorem last_consonant_eq (K : indic_enums) (l : List hb_glyph_info_t) (i j : Nat)
    (hij : i < j) (hj : is_consonant K (slot l j) = true) :
    ∀ (j0 : Nat), j ≤ j0 →
      (∀ m, j < m → m ≤ j0 → is_consonant K (slot l m) = false) →
      last_consonant K l i j0 = j
  | 0, h, _ => by omega
  | j0 + 1, h, hlast => by
    rw [last_consonant, if_pos (by omega)]
    by_cases hjj : j0 + 1 = j
    · rw [hjj, if_pos ((flag_test_eq_is_consonant K _).mpr hj)]
    · have hnc : ¬ (FLAG (slot l (j0 + 1)).indic_category &&&
          (FLAG K.OT_C ||| FLAG K.OT_Ra) ≠ 0) := by
        rw [flag_test_eq_is_consonant, hlast (j0 + 1) (by omega) (le_refl _)]
        simp
      rw [if_neg hnc]
      exact last_consonant_eq K l i j hij hj j0 (by omega)
        (fun m hm1 hm2 => hlast m hm1 (by omega))

/-- Under an old-style tag, with `i` the first halant of `(base, end)` and `j` the last
consonant of `(i, end)`, the halant block is the move of the halant from `i` to `j`. -/
theorem old_style_halant_eq_move (K : indic_enums) (map : hb_ot_map_t)
    (l : List hb_glyph_info_t) (base end_ i j : Nat)
    (htag : map.chosen_script 0 &&& 0x000000FF ≠ 50)
    (hbi : base < i) (hij : i < j) (hje : j < end_)
    (hi : (slot l i).indic_category = K.OT_H)
    (hfirst : ∀ m, base < m → m < i → (slot l m).indic_category ≠ K.OT_H)
    (hj : is_consonant K (slot l j) = true)
    (hlast : ∀ m, j < m → m < end_ → is_consonant K (slot l m) = false) :
    old_style_halant K map l base end_ = move_halant l i j := by
  have h1 : first_halant K l (end_ - (base + 1)) (base + 1) = some i :=
    first_halant_eq_some K l i hi _ _ (by omega) (by omega)
      (fun m hm1 hm2 => hfirst m (by omega) hm2)
  have h2 : last_consonant K l i (end_ - 1) = j :=
    last_consonant_eq K l i j hij hj (end_ - 1) (by omega)
      (fun m hm1 hm2 => hlast m hm1 (by omega))
  unfold old_style_halant
  rw [if_pos htag, h1]
  simp only [h2, if_pos hij]

theorem old_style_halant_new_tag (K : indic_enums) (map : hb_ot_map_t)
    (l : List hb_glyph_info_t) (base end_ : Nat)
    (htag : map.chosen_script 0 &&& 0x000000FF = 50) :
    old_style_halant K map l base end_ = l := by
  unfold old_style_halant
  rw [if_neg (by simp [htag])]

/-! ## Lemmas: neighbours of equal position through the sort -/

/-- A list sorted by position splits into the slots below, at and above a position. -/
theorem sorted_split_at_position (q : Nat) :
    ∀ (s : List hb_glyph_info_t),
      s.Pairwise (fun x y => x.indic_position ≤ y.indic_position) →
      s = s.filter (fun x => decide (x.indic_position < q)) ++
        (s.filter (fun x => decide (x.indic_position = q)) ++
          s.filter (fun x => decide (q < x.indic_position)))
  | [], _ => rfl
  | a :: t, hs => by
    have hat : ∀ y ∈ t, a.indic_position ≤ y.indic_position := (List.pairwise_cons.mp hs).1
    have ih := sorted_split_at_position q t (List.pairwise_cons.mp hs).2
    rcases Nat.lt_trichotomy a.indic_position q with h | h | h
    · have h1 : ¬ a.indic_position = q := by omega
      have h2 : ¬ q < a.indic_position := by omega
      simp only [List.filter_cons, h, h1, h2, decide_True, decide_False, if_true,
        Bool.false_eq_true, if_false, List.cons_append]
      rw [← ih]
    · have h1 : ¬ a.indic_position < q := by omega
      have h2 : ¬ q < a.indic_position := by omega
      have h3 : t.filter (fun x => decide (x.indic_position < q)) = [] := by
        rw [List.filter_eq_nil_iff]
        intro y hy
        have := hat y hy
        simp only [decide_eq_true_eq]
        omega
      rw [h3] at ih
      simp only [List.filter_cons, h, h1, h2, h3, decide_True, decide_False, if_true,
        Bool.false_eq_true, if_false, List.cons_append, List.nil_append, lt_self_iff_false]
      simp only [List.nil_append] at ih
      rw [← ih]
    · have h1 : ¬ a.indic_position < q := by omega
      have h2 : ¬ a.indic_position = q := by omega
      have h3 : t.filter (fun x => decide (x.indic_position < q)) = [] := by
        rw [List.filter_eq_nil_iff]
        intro y hy
        have := hat y hy
        simp only [decide_eq_true_eq]
        omega
      have h4 : t.filter (fun x => decide (x.indic_position = q)) = [] := by
        rw [List.filter_eq_nil_iff]
        intro y hy
        have := hat y hy
        simp only [decide_eq_true_eq]
        omega
      rw [h3, h4] at ih
      simp only [List.filter_cons, h, h1, h2, h3, h4, decide_True, decide_False, if_true,
        Bool.false_eq_true, if_false, List.nil_append]
      simp only [List.nil_append] at ih
      rw [← ih]

/-- The sort keeps two neighbours of equal position next to each other, in their order. -/
theorem hb_bubble_sort_keeps_neighbours (A B : List hb_glyph_info_t) (c h : hb_glyph_info_t)
    (hpos : h.indic_position = c.indic_position) :
    ∃ X Y, hb_bubble_sort (A ++ c :: h :: B) compare_indic_order = X ++ c :: h :: Y := by
  have hsplit := sorted_split_at_position c.indic_position _
    (hb_bubble_sort_sorted (A ++ c :: h :: B))
  rw [hb_bubble_sort_stable (A ++ c :: h :: B) c.indic_position] at hsplit
  simp only [List.filter_append, List.filter_cons, hpos, decide_True, if_true] at hsplit
  exact ⟨List.filter (fun x => decide (x.indic_position < c.indic_position))
        (hb_bubble_sort (A ++ c :: h :: B) compare_indic_order) ++
      List.filter (fun x => decide (x.indic_position = c.indic_position)) A,
    List.filter (fun x => decide (x.indic_position = c.indic_position)) B ++
      List.filter (fun x => decide (c.indic_position < x.indic_position))
        (hb_bubble_sort (A ++ c :: h :: B) compare_indic_order),
    hsplit.trans (by simp only [List.append_assoc, List.cons_append])⟩

/-! ## Lemmas: the slots after the base, from entry to the sort -/

theorem before_sort_eq (K : indic_enums) (map : hb_ot_map_t) (info : List hb_glyph_info_t)
    (mask_array : Nat → Nat) (start end_ : Nat) :
    before_sort K map info mask_array start end_ =
      attach_marks K
        (old_style_halant K map (before_halant_move K info mask_array start end_)
          (find_base K info mask_array start end_) end_) start end_ := rfl

theorem before_halant_move_length (K : indic_enums) (info : List hb_glyph_info_t)
    (mask_array : Nat → Nat) (start end_ : Nat) :
    (before_halant_move K info mask_array start end_).length = info.length := by
  unfold before_halant_move
  rw [handle_beginning_ra_length, reorder_characters_length]

theorem slot_reorder_characters_after_base (K : indic_enums) (l : List hb_glyph_info_t)
    (start base m : Nat) (hsb : start ≤ base) (hm : base < m) :
    slot (reorder_characters K l start base) m = slot l m := by
  unfold reorder_characters
  simp only
  rw [slot_set_position_ne _ _ (by omega)]
  exact for_loop_slot_outside _ (fun i t j hj => slot_set_position_ne t _ hj) _ _ _ _
    (Or.inr (by omega))

theorem slot_handle_beginning_ra_ne (K : indic_enums) (l : List hb_glyph_info_t)
    (mask_array : Nat → Nat) (has_reph : Bool) (start end_ m : Nat) (hm : m ≠ start) :
    slot (handle_beginning_ra K l mask_array has_reph start end_) m = slot l m := by
  unfold handle_beginning_ra
  split
  · simp only
    rw [slot_set_mask_ne _ _ hm, slot_set_position_ne _ _ hm]
  · rfl

/-- The slots after the base reach the halant block as they entered. -/
theorem slot_before_halant_move (K : indic_enums) (info : List hb_glyph_info_t)
    (mask_array : Nat → Nat) (start end_ m : Nat)
    (hm : find_base K info mask_array start end_ < m) :
    slot (before_halant_move K info mask_array start end_) m = slot info m := by
  have hsb := start_le_find_base K info mask_array start end_
  unfold before_halant_move
  rw [slot_handle_beginning_ra_ne _ _ _ _ _ _ _ (by omega),
    slot_reorder_characters_after_base _ _ _ _ _ hsb hm]

/-- Mark attachment leaves a slot that is no mark as it is. -/
theorem slot_attach_marks_not_attached (K : indic_enums) (l : List hb_glyph_info_t)
    (start end_ m : Nat) (hm : is_attached K (slot l m) = false) :
    slot (attach_marks K l start end_) m = slot l m := by
  unfold attach_marks
  exact for_loop_invariant
    (fun i info =>
      if is_attached K (slot info i) then
        set_position info i (slot info (i - 1)).indic_position
      else info)
    (fun _ t => slot t m = slot l m) _ _ l rfl
    (by
      intro k t _ _ hP
      simp only
      split
      · rename_i hat
        by_cases hmk : m = k
        · subst hmk
          rw [hP, hm] at hat
          exact absurd hat (by simp)
        · rw [slot_set_position_ne _ _ hmk]
          exact hP
      · exact hP)

theorem eq_of_unposition_eq {a b : hb_glyph_info_t} (h : unposition a = unposition b) :
    a = { b with indic_position := a.indic_position } := by
  cases a
  cases b
  simp only [unposition, hb_glyph_info_t.mk.injEq] at h
  simp only [hb_glyph_info_t.mk.injEq]
  exact ⟨h.1, h.2.1, h.2.2.1, trivial⟩

/-- Mark attachment gives a mark the position of the slot before it. -/
theorem slot_attach_marks_attached (K : indic_enums) (l : List hb_glyph_info_t)
    (start end_ m : Nat) (hse : start < end_) (he : end_ ≤ l.length) (h1 : start < m)
    (h2 : m < end_) (hm : is_attached K (slot l m) = true) :
    slot (attach_marks K l start end_) m =
      { slot l m with
        indic_position := (slot (attach_marks K l start end_) (m - 1)).indic_position } := by
  have hup := slot_congr_of_map_eq (attach_marks_map K l start end_) m
  have hcat : (slot (attach_marks K l start end_) m).indic_category =
      (slot l m).indic_category :=
    category_eq_of_glyph_of (slot_congr_of_map_eq
      (map_glyph_of_of_unposition (attach_marks_map K l start end_)) m)
  have hpos := attach_marks_spec K l start end_ hse he m h1 h2
    (by rw [is_attached_congr K hcat]; exact hm)
  rw [← hpos]
  exact eq_of_unposition_eq hup

theorem list_split_at_pair (L : List hb_glyph_info_t) (q : Nat) (hq : q + 1 < L.length) :
    L = L.take q ++ slot L q :: slot L (q + 1) :: L.drop (q + 2) := by
  have h1 : L.drop q = slot L q :: L.drop (q + 1) := by
    rw [slot_of_lt (by omega : q < L.length)]
    exact List.drop_eq_getElem_cons (by omega)
  have h2 : L.drop (q + 1) = slot L (q + 1) :: L.drop (q + 2) := by
    rw [slot_of_lt hq]
    exact List.drop_eq_getElem_cons hq
  conv_lhs => rw [← List.take_append_drop q L, h1, h2]

theorem slot_append_pair (X Y : List hb_glyph_info_t) (c h : hb_glyph_info_t) :
    slot (X ++ c :: h :: Y) X.length = c ∧ slot (X ++ c :: h :: Y) (X.length + 1) = h := by
  unfold slot
  constructor
  · rw [List.getD_eq_getElem?_getD, List.getElem?_append_right (le_refl _)]
    simp
  · rw [List.getD_eq_getElem?_getD, List.getElem?_append_right (by omega)]
    simp

/-- Under an old-style tag the moved halant reaches the sort right after the last consonant,
with that consonant's position. -/
theorem before_sort_halant_after_consonant (K : indic_enums) (map : hb_ot_map_t)
    (info : List hb_glyph_info_t) (mask_array : Nat → Nat) (start end_ i j : Nat)
    (he : end_ ≤ info.length)
    (htag : map.chosen_script 0 &&& 0x000000FF ≠ 50)
    (hbi : find_base K info mask_array start end_ < i) (hij : i < j) (hje : j < end_)
    (hi : (slot info i).indic_category = K.OT_H)
    (hfirst : ∀ m, find_base K info mask_array start end_ < m → m < i →
      (slot info m).indic_category ≠ K.OT_H)
    (hj : is_consonant K (slot info j) = true)
    (hlast : ∀ m, j < m → m < end_ → is_consonant K (slot info m) = false)
    (hdist : ∀ x, is_consonant K x = true → is_attached K x = false) :
    old_style_halant K map (before_halant_move K info mask_array start end_)
        (find_base K info mask_array start end_) end_ =
      move_halant (before_halant_move K info mask_array start end_) i j ∧
    slot (before_sort K map info mask_array start end_) (j - 1) = slot info j ∧
    slot (before_sort K map info mask_array start end_) j =
      { slot info i with indic_position := (slot info j).indic_position } := by
  have hsb := start_le_find_base K info mask_array start end_
  have hl0 := fun m hm => slot_before_halant_move K info mask_array start end_ m hm
  have hlen0 := before_halant_move_length K info mask_array start end_
  have hmove : old_style_halant K map (before_halant_move K info mask_array start end_)
      (find_base K info mask_array start end_) end_ =
        move_halant (before_halant_move K info mask_array start end_) i j :=
    old_style_halant_eq_move K map _ _ end_ i j htag hbi hij hje
      (by rw [hl0 i hbi]; exact hi)
      (fun m hm1 hm2 => by rw [hl0 m hm1]; exact hfirst m hm1 hm2)
      (by rw [hl0 j (by omega)]; exact hj)
      (fun m hm1 hm2 => by rw [hl0 m (by omega)]; exact hlast m hm1 hm2)
  have hc : slot (move_halant (before_halant_move K info mask_array start end_) i j) (j - 1)
      = slot info j := by
    rw [slot_move_halant _ i j hij (by omega) (j - 1), if_neg (by omega), if_pos (by omega)]
    have e : j - 1 + 1 = j := by omega
    rw [e, hl0 j (by omega)]
  have hh : slot (move_halant (before_halant_move K info mask_array start end_) i j) j
      = slot info i := by
    rw [slot_move_halant _ i j hij (by omega) j, if_neg (by omega), if_neg (by omega),
      if_pos rfl, hl0 i hbi]
  have hpre_c : slot (before_sort K map info mask_array start end_) (j - 1) = slot info j := by
    rw [before_sort_eq, hmove, slot_attach_marks_not_attached K _ start end_ (j - 1)
      (by rw [hc]; exact hdist _ hj), hc]
  refine ⟨hmove, hpre_c, ?_⟩
  have hatt := slot_attach_marks_attached K
    (move_halant (before_halant_move K info mask_array start end_) i j) start end_ j
    (by omega) (by rw [move_halant_length, hlen0]; exact he) (by omega) hje
    (by rw [hh, is_attached_iff]; exact Or.inr (Or.inr (Or.inr hi)))
  rw [← hmove, ← before_sort_eq] at hatt
  rw [hatt, hpre_c, hmove, hh]

/-! ## Claim about the halant move -/

/-- C11: for a syllable inside the buffer.  Under a script tag ending in '2' the halant block
changes nothing, on any buffer.  Under any other tag, if `i` is the first halant of
`(base, end)` and `j` the last consonant of `(i, end)`: the block rotates the run one place
left, the slots of `i + 1 .. j` each moving down one index and the halant taking index `j`,
every other slot staying where it is (so one halant is moved, once); and, consonants not
being marks, after `found_consonant_syllable` that halant stands immediately after that
consonant: at some index `p` of the syllable stands the consonant found at `j`, and at `p + 1`
the halant found at `i`, carrying the consonant's position (masks aside). -/
theorem C11_old_style_halant_move (K : indic_enums) (map : hb_ot_map_t)
    (info : List hb_glyph_info_t) (mask_array : Nat → Nat) (start end_ : Nat)
    (he : end_ ≤ info.length) :
    (map.chosen_script 0 &&& 0x000000FF = 50 →
      ∀ (l : List hb_glyph_info_t) (base : Nat), old_style_halant K map l base end_ = l) ∧
    (map.chosen_script 0 &&& 0x000000FF ≠ 50 →
      ∀ (i j : Nat), find_base K info mask_array start end_ < i → i < j → j < end_ →
      (slot info i).indic_category = K.OT_H →
      (∀ m, find_base K info mask_array start end_ < m → m < i →
        (slot info m).indic_category ≠ K.OT_H) →
      is_consonant K (slot info j) = true →
      (∀ m, j < m → m < end_ → is_consonant K (slot info m) = false) →
      (∀ x, is_consonant K x = true → is_attached K x = false) →
      (∀ m, slot (old_style_halant K map (before_halant_move K info mask_array start end_)
            (find_base K info mask_array start end_) end_) m =
          if m < i then slot (before_halant_move K info mask_array start end_) m
          else if m < j then slot (before_halant_move K info mask_array start end_) (m + 1)
          else if m = j then slot (before_halant_move K info mask_array start end_) i
          else slot (before_halant_move K info mask_array start end_) m) ∧
        ∃ p, start ≤ p ∧ p + 1 < end_ ∧
          unmask (slot (found_consonant_syllable K map info mask_array start end_) p) =
            unmask (slot info j) ∧
          unmask (slot (found_consonant_syllable K map info mask_array start end_) (p + 1)) =
            unmask { slot info i with indic_position := (slot info j).indic_position }) := by
  constructor
  · intro htag l base
    exact old_style_halant_new_tag K map l base end_ htag
  · intro htag i j hbi hij hje hi hfirst hj hlast hdist
    have hsb := start_le_find_base K info mask_array start end_
    obtain ⟨hmove, hc, hh⟩ := before_sort_halant_after_consonant K map info mask_array start
      end_ i j he htag hbi hij hje hi hfirst hj hlast hdist
    constructor
    · intro m
      rw [hmove]
      exact slot_move_halant _ i j hij
        (by rw [before_halant_move_length]; omega) m
    · by_cases h20 : end_ - start ≤ 20
      · have hlen := before_sort_length K map info mask_array start end_
        have hL := syllable_length (before_sort K map info mask_array start end_) start end_
          (by rw [hlen]; exact he)
        have hq1 : slot (syllable (before_sort K map info mask_array start end_) start end_)
            (j - 1 - start) = slot info j := by
          rw [slot_syllable _ start end_ (j - 1 - start) (by omega), ← hc]
          congr 1
          omega
        have hq2 : slot (syllable (before_sort K map info mask_array start end_) start end_)
            (j - 1 - start + 1) =
              { slot info i with indic_position := (slot info j).indic_position } := by
          rw [slot_syllable _ start end_ (j - 1 - start + 1) (by omega), ← hh]
          congr 1
          omega
        have hsplit := list_split_at_pair
          (syllable (before_sort K map info mask_array start end_) start end_)
          (j - 1 - start) (by rw [hL]; omega)
        rw [hq1, hq2] at hsplit
        obtain ⟨X, Y, hXY⟩ := hb_bubble_sort_keeps_neighbours
          ((syllable (before_sort K map info mask_array start end_) start end_).take
            (j - 1 - start))
          ((syllable (before_sort K map info mask_array start end_) start end_).drop
            (j - 1 - start + 2))
          (slot info j)
          { slot info i with indic_position := (slot info j).indic_position } rfl
        rw [← hsplit] at hXY
        have hslen := hb_bubble_sort_length
          (syllable (before_sort K map info mask_array start end_) start end_)
        rw [hXY, hL] at hslen
        simp only [List.length_append, List.length_cons] at hslen
        have hpair := slot_append_pair X Y (slot info j)
          { slot info i with indic_position := (slot info j).indic_position }
        rw [← hXY] at hpair
        have hmap := found_consonant_syllable_map_unmask K map info mask_array start end_ h20
        refine ⟨start + X.length, by omega, by omega, ?_, ?_⟩
        · rw [slot_congr_of_map_eq hmap (start + X.length),
            slot_sort_syllable _ _ _ (by omega) (by rw [hlen]; exact he) (start + X.length)
              (by omega) (by omega)]
          have e : start + X.length - start = X.length := by omega
          rw [e, hpair.1]
        · rw [slot_congr_of_map_eq hmap (start + X.length + 1),
            slot_sort_syllable _ _ _ (by omega) (by rw [hlen]; exact he)
              (start + X.length + 1) (by omega) (by omega)]
          have e : start + X.length + 1 - start = X.length + 1 := by omega
          rw [e, hpair.2]
      · refine ⟨j - 1, by omega, by omega, ?_, ?_⟩
        · rw [found_consonant_syllable_long K map info mask_array start end_ (by omega), hc]
        · have e : j - 1 + 1 = j := by omega
          rw [found_consonant_syllable_long K map info mask_array start end_ (by omega), e, hh]

theorem spec_enums_consonant_not_attached (x : hb_glyph_info_t)
    (hx : is_consonant spec_enums x = true) : is_attached spec_enums x = false := by
  rw [is_consonant_iff] at hx
  rw [Bool.eq_false_iff, Ne, is_attached_iff]
  rcases hx with h | h <;> rw [h] <;> decide

/-- C11 at KA, HALANT, post-base consonant under `deva`: the base is KA at index 0, the first
halant after it stands at 1 and the last consonant at 2; after the call the code points read
KA, consonant, HALANT, and the halant stands right after the consonant. -/
theorem C11_old_style_halant_move_witness :
    3 ≤ [slot_KA, slot_HALANT, slot_post].length ∧
      find_base spec_enums [slot_KA, slot_HALANT, slot_post] test_masks 0 3 = 0 ∧
      (found_consonant_syllable spec_enums map_deva [slot_KA, slot_HALANT, slot_post]
        test_masks 0 3).map (fun x => x.codepoint) = [0x0915, 0x09AF, 0x094D] ∧
      ∃ p, 0 ≤ p ∧ p + 1 < 3 ∧
        unmask (slot (found_consonant_syllable spec_enums map_deva
            [slot_KA, slot_HALANT, slot_post] test_masks 0 3) p) =
          unmask (slot [slot_KA, slot_HALANT, slot_post] 2) ∧
        unmask (slot (found_consonant_syllable spec_enums map_deva
            [slot_KA, slot_HALANT, slot_post] test_masks 0 3) (p + 1)) =
          unmask { slot [slot_KA, slot_HALANT, slot_post] 1 with
            indic_position := (slot [slot_KA, slot_HALANT, slot_post] 2).indic_position } :=
  ⟨by decide, by decide, by decide,
    ((C11_old_style_halant_move spec_enums map_deva [slot_KA, slot_HALANT, slot_post]
      test_masks 0 3 (by decide)).2 (by decide) 1 2 (by decide) (by decide) (by decide)
      (by decide) (fun m h1 h2 => by
        have h3 : find_base spec_enums [slot_KA, slot_HALANT, slot_post] test_masks 0 3 = 0 := by
          decide
        omega)
      (by decide) (fun m h1 h2 => by omega) spec_enums_consonant_not_attached).2⟩

/-! ## Lemmas: the base lies in the syllable -/

/-- Whatever the scan returns is the `base` it was given or a consonant of the range. -/
theorem base_scan_result (K : indic_enums) (info : List hb_glyph_info_t) (limit : Nat) :
    ∀ (i base : Nat), limit < i →
      base_scan K info limit i base = base ∨
        (limit ≤ base_scan K info limit i base ∧ base_scan K info limit i base < i ∧
          is_consonant K (slot info (base_scan K info limit i base)) = true)
  | 0, _, h => by omega
  | i + 1, base, h => by
    rw [base_scan]
    by_cases hc : is_consonant K (slot info i) = true
    · rw [if_pos hc]
      split
      · exact Or.inr ⟨by omega, by omega, hc⟩
      · split
        · rename_i hlt
          rcases base_scan_result K info limit i i hlt with h1 | ⟨h1, h2, h3⟩
          · rw [h1]
            exact Or.inr ⟨by omega, by omega, hc⟩
          · exact Or.inr ⟨h1, by omega, h3⟩
        · exact Or.inr ⟨by omega, by omega, hc⟩
    · rw [if_neg hc]
      split
      · exact Or.inl rfl
      · split
        · rename_i hlt
          rcases base_scan_result K info limit i base hlt with h1 | ⟨h1, h2, h3⟩
          · exact Or.inl h1
          · exact Or.inr ⟨h1, by omega, h3⟩
        · exact Or.inl rfl

/-- When the scan meets a consonant before any joiner, it returns a consonant of the range. -/
theorem base_scan_finds (K : indic_enums) (info : List hb_glyph_info_t) (limit k : Nat)
    (hlk : limit ≤ k) (hck : is_consonant K (slot info k) = true) :
    ∀ (i base : Nat), k < i →
      (∀ m, k < m → m < i → is_joiner K (slot info m) = false) →
      limit ≤ base_scan K info limit i base ∧ base_scan K info limit i base < i ∧
        is_consonant K (slot info (base_scan K info limit i base)) = true
  | 0, _, h, _ => by omega
  | i + 1, base, hki, hj => by
    rw [base_scan]
    by_cases hc : is_consonant K (slot info i) = true
    · rw [if_pos hc]
      split
      · exact ⟨by omega, by omega, hc⟩
      · split
        · rename_i hlt
          rcases base_scan_result K info limit i i hlt with h1 | ⟨h1, h2, h3⟩
          · rw [h1]
            exact ⟨by omega, by omega, hc⟩
          · exact ⟨h1, by omega, h3⟩
        · exact ⟨by omega, by omega, hc⟩
    · have hik : k < i := by
        rcases Nat.lt_or_ge k i with h | h
        · exact h
        · have e : i = k := by omega
          rw [e] at hc
          exact absurd hck hc
      rw [if_neg hc, hj i hik (by omega)]
      simp only [Bool.false_eq_true, if_false]
      rw [if_pos (by omega)]
      obtain ⟨h1, h2, h3⟩ := base_scan_finds K info limit k hlk hck i base hik
        (fun m hm1 hm2 => hj m hm1 (by omega))
      exact ⟨h1, by omega, h3⟩

/-- Under the Reph precondition, or when the scan meets a consonant before any joiner, the
base lies in the syllable and is a consonant. -/
theorem find_base_in_syllable (K : indic_enums) (info : List hb_glyph_info_t)
    (mask_array : Nat → Nat) (start end_ : Nat)
    (h : reph_precondition K info mask_array start end_ = true ∨
      ∃ k, start ≤ k ∧ k < end_ ∧ is_consonant K (slot info k) = true ∧
        ∀ m, k < m → m < end_ → is_joiner K (slot info m) = false) :
    start ≤ find_base K info mask_array start end_ ∧
      find_base K info mask_array start end_ < end_ ∧
      is_consonant K (slot info (find_base K info mask_array start end_)) = true := by
  by_cases hr : reph_precondition K info mask_array start end_ = true
  · have hr2 := hr
    unfold reph_precondition at hr2
    simp only [Bool.and_eq_true, decide_eq_true_eq] at hr2
    obtain ⟨⟨⟨_, h2⟩, hra⟩, _⟩ := hr2
    have hcs : is_consonant K (slot info start) = true :=
      (is_consonant_iff K _).mpr (Or.inr hra)
    unfold find_base
    simp only [hr, if_true]
    rcases base_scan_result K info (start + 2) end_ start (by omega) with h1 | ⟨h1, h3, h4⟩
    · rw [h1, if_neg (by omega)]
      exact ⟨le_refl _, by omega, hcs⟩
    · rw [if_neg (by omega)]
      exact ⟨by omega, h3, h4⟩
  · rcases h with h | ⟨k, hk1, hk2, hk3, hk4⟩
    · exact absurd h hr
    · have hr3 : reph_precondition K info mask_array start end_ = false := by
        simpa using hr
      unfold find_base
      simp only [hr3, Bool.false_eq_true, if_false]
      obtain ⟨h1, h2, h3⟩ := base_scan_finds K info start k hk1 hk3 end_ end_ hk2 hk4
      rw [if_neg (by omega)]
      exact ⟨h1, h2, h3⟩

/-! ## Lemmas: the watched function agrees with the function -/

theorem in_span_eq_some {α : Type} (start end_ i : Nat) (r : α) (h1 : start ≤ i)
    (h2 : i < end_) : in_span start end_ i r = some r := by
  unfold in_span
  rw [if_pos ⟨h1, h2⟩]

theorem for_loop_checked_eq {σ : Type} (body : Nat → σ → σ) (cbody : Nat → σ → Option σ) :
    ∀ (n a : Nat) (s : σ), (∀ i t, a ≤ i → i < a + n → cbody i t = some (body i t)) →
      for_loop_checked cbody n a s = some (for_loop body n a s)
  | 0, _, _, _ => rfl
  | n + 1, a, s, h => by
    rw [for_loop_checked, for_loop, h a s (le_refl _) (by omega), Option.some_bind]
    exact for_loop_checked_eq body cbody n (a + 1) (body a s)
      (fun i t h1 h2 => h i t (by omega) (by omega))

theorem reph_precondition_checked_eq (K : indic_enums) (info : List hb_glyph_info_t)
    (mask_array : Nat → Nat) (start end_ : Nat) :
    reph_precondition_checked K info mask_array start end_ =
      some (reph_precondition K info mask_array start end_) := by
  unfold reph_precondition_checked reph_precondition
  by_cases h : mask_array RPHF ≠ 0 ∧ start + 2 < end_
  · rw [if_pos h, in_span_eq_some _ _ _ _ (le_refl _) (by omega), Option.some_bind]
    by_cases hra : (slot info start).indic_category = K.OT_Ra
    · rw [if_pos hra, in_span_eq_some _ _ _ _ (by omega) (by omega), Option.some_bind]
      simp [h.1, h.2, hra]
    · rw [if_neg hra]
      simp [hra]
  · rw [if_neg h]
    rw [not_and_or] at h
    rcases h with h | h
    · simp only [ne_eq, Decidable.not_not] at h
      simp [h]
    · simp [h]

theorem base_scan_checked_eq (K : indic_enums) (info : List hb_glyph_info_t)
    (limit start end_ : Nat) (hl : start ≤ limit) :
    ∀ (i base : Nat), start < i → i ≤ end_ →
      base_scan_checked K info limit start end_ i base = some (base_scan K info limit i base)
  | 0, _, h, _ => by omega
  | i + 1, base, h1, h2 => by
    rw [base_scan_checked, base_scan, in_span_eq_some _ _ _ _ (by omega) (by omega),
      Option.some_bind]
    split
    · split
      · rfl
      · split
        · rename_i hlt
          exact base_scan_checked_eq K info limit start end_ hl i i (by omega) (by omega)
        · rfl
    · split
      · rfl
      · split
        · rename_i hlt
          exact base_scan_checked_eq K info limit start end_ hl i base (by omega) (by omega)
        · rfl

theorem find_base_checked_eq (K : indic_enums) (info : List hb_glyph_info_t)
    (mask_array : Nat → Nat) (start end_ : Nat) (hse : start < end_) :
    find_base_checked K info mask_array start end_ =
      some (find_base K info mask_array start end_,
        reph_precondition K info mask_array start end_) := by
  unfold find_base_checked find_base
  rw [reph_precondition_checked_eq, Option.some_bind,
    base_scan_checked_eq K info _ start end_ (by split <;> omega) end_ _ hse (le_refl _),
    Option.some_bind]

theorem reorder_characters_checked_eq (K : indic_enums) (info : List hb_glyph_info_t)
    (start end_ base : Nat) (hb1 : start ≤ base) (hb2 : base < end_) :
    reorder_characters_checked K info start end_ base =
      some (reorder_characters K info start base) := by
  unfold reorder_characters_checked reorder_characters
  rw [for_loop_checked_eq (fun i info => set_position info i K.POS_PRE_C) _ _ _ _
      (fun i t h1 h2 => in_span_eq_some _ _ _ _ (by omega) (by omega)),
    Option.some_bind, in_span_eq_some _ _ _ _ hb1 hb2]

theorem handle_beginning_ra_checked_eq (K : indic_enums) (info : List hb_glyph_info_t)
    (mask_array : Nat → Nat) (has_reph : Bool) (start end_ : Nat) (hse : start < end_) :
    handle_beginning_ra_checked K info mask_array has_reph start end_ =
      some (handle_beginning_ra K info mask_array has_reph start end_) := by
  unfold handle_beginning_ra_checked handle_beginning_ra
  by_cases h : (has_reph && decide (start + 3 ≤ end_)) = true
  · have h3 : start + 3 ≤ end_ := by
      simp only [Bool.and_eq_true, decide_eq_true_eq] at h
      exact h.2
    rw [if_pos h, in_span_eq_some _ _ _ _ (by omega) (by omega), Option.some_bind, h,
      Bool.true_and]
    split
    · rw [in_span_eq_some _ _ _ _ (le_refl _) hse, Option.some_bind,
        in_span_eq_some _ _ _ _ (le_refl _) hse]
    · rfl
  · rw [if_neg h]
    have h2 : (has_reph && decide (start + 3 ≤ end_)) = false := by simpa using h
    rw [h2, Bool.false_and]
    rfl

theorem first_halant_checked_eq (K : indic_enums) (info : List hb_glyph_info_t)
    (start end_ : Nat) : ∀ (n a : Nat), start ≤ a → a + n ≤ end_ →
      first_halant_checked K info start end_ n a = some (first_halant K info n a)
  | 0, _, _, _ => rfl
  | n + 1, a, h1, h2 => by
    rw [first_halant_checked, first_halant, in_span_eq_some _ _ _ _ h1 (by omega),
      Option.some_bind]
    split
    · rfl
    · exact first_halant_checked_eq K info start end_ n (a + 1) (by omega) (by omega)

theorem last_consonant_checked_eq (K : indic_enums) (info : List hb_glyph_info_t)
    (start end_ i : Nat) (hi : start ≤ i) : ∀ (j : Nat), j < end_ →
      last_consonant_checked K info start end_ i j = some (last_consonant K info i j)
  | 0, _ => rfl
  | j + 1, h => by
    rw [last_consonant_checked, last_consonant]
    split
    · rw [in_span_eq_some _ _ _ _ (by omega) h, Option.some_bind]
      split
      · rfl
      · exact last_consonant_checked_eq K info start end_ i hi j (by omega)
    · rfl

theorem move_halant_checked_eq (info : List hb_glyph_info_t) (start end_ i j : Nat)
    (hi : start ≤ i) (hij : i < j) (hj : j < end_) :
    move_halant_checked info start end_ i j = some (move_halant info i j) := by
  unfold move_halant_checked move_halant
  rw [in_span_eq_some _ _ _ _ hi (by omega), Option.some_bind,
    for_loop_checked_eq (fun k acc => acc.set k (slot info (k + 1))) _ _ _ _
      (fun k t h1 h2 => by
        rw [in_span_eq_some _ _ _ _ (by omega) (by omega), Option.some_bind,
          in_span_eq_some _ _ _ _ (by omega) (by omega)]),
    Option.some_bind, in_span_eq_some _ _ _ _ (by omega) hj]

theorem old_style_halant_checked_eq (K : indic_enums) (map : hb_ot_map_t)
    (info : List hb_glyph_info_t) (start base end_ : Nat) (hb1 : start ≤ base)
    (hb2 : base < end_) :
    old_style_halant_checked K map info start base end_ =
      some (old_style_halant K map info base end_) := by
  unfold old_style_halant_checked old_style_halant
  split
  · rw [first_halant_checked_eq K info start end_ _ _ (by omega) (by omega), Option.some_bind]
    cases hf : first_halant K info (end_ - (base + 1)) (base + 1) with
    | none => rfl
    | some i =>
      obtain ⟨h1, h2, _, _⟩ := first_halant_some K info _ _ i hf
      simp only
      rw [last_consonant_checked_eq K info start end_ i (by omega) (end_ - 1) (by omega),
        Option.some_bind]
      split
      · rename_i hgt
        have hle := last_consonant_le K info i (end_ - 1)
        exact move_halant_checked_eq info start end_ i _ (by omega) hgt (by omega)
      · rfl
  · rfl

theorem attach_marks_checked_eq (K : indic_enums) (info : List hb_glyph_info_t)
    (start end_ : Nat) :
    attach_marks_checked K info start end_ = some (attach_marks K info start end_) := by
  unfold attach_marks_checked attach_marks
  apply for_loop_checked_eq
  intro i t h1 h2
  rw [in_span_eq_some _ _ _ _ (by omega) (by omega), Option.some_bind]
  split
  · rw [in_span_eq_some _ _ _ _ (by omega) (by omega), Option.some_bind,
      in_span_eq_some _ _ _ _ (by omega) (by omega)]
  · rfl

theorem setup_syllable_masks_checked_eq (info : List hb_glyph_info_t) (mask_array : Nat → Nat)
    (start base end_ : Nat) (hb1 : start ≤ base) (hb2 : base < end_) :
    setup_syllable_masks_checked info mask_array start base end_ =
      some (setup_syllable_masks info mask_array start base end_) := by
  unfold setup_syllable_masks_checked setup_syllable_masks
  rw [for_loop_checked_eq (fun i info => or_mask info i _) _ _ _ _
      (fun i t h1 h2 => in_span_eq_some _ _ _ _ (by omega) (by omega)),
    Option.some_bind, in_span_eq_some _ _ _ _ hb1 hb2, Option.some_bind,
    for_loop_checked_eq (fun i info => or_mask info i _) _ _ _ _
      (fun i t h1 h2 => in_span_eq_some _ _ _ _ (by omega) (by omega))]

theorem joiner_walk_checked_eq (K : indic_enums) (mask_array : Nat → Nat) (non_joiner : Bool)
    (start end_ : Nat) : ∀ (j : Nat) (info : List hb_glyph_info_t), start < j → j ≤ end_ →
      joiner_walk_checked K mask_array non_joiner start end_ j info =
        some (joiner_walk K mask_array non_joiner start j info)
  | 0, _, h, _ => by omega
  | j + 1, info, h1, h2 => by
    have hc : (if non_joiner = true then
          in_span start end_ j (clear_half mask_array non_joiner info j)
        else some info) = some (clear_half mask_array non_joiner info j) := by
      split
      · exact in_span_eq_some _ _ _ _ (by omega) (by omega)
      · rename_i hn
        have hn2 : non_joiner = false := by simpa using hn
        rw [hn2]
        rfl
    rw [joiner_walk_checked, joiner_walk, hc, Option.some_bind]
    by_cases hjs : j > start
    · rw [if_pos hjs, in_span_eq_some _ _ _ _ (by omega) (by omega), Option.some_bind]
      by_cases hcons : is_consonant K (slot (clear_half mask_array non_joiner info j) j) = true
      · rw [if_neg (by simp [hcons]), if_neg (by simp [hcons])]
      · rw [if_pos hcons, if_pos ⟨hjs, hcons⟩]
        exact joiner_walk_checked_eq K mask_array non_joiner start end_ j _ hjs (by omega)
    · rw [if_neg hjs, if_neg (by omega)]

theorem apply_joiners_checked_eq (K : indic_enums) (info : List hb_glyph_info_t)
    (mask_array : Nat → Nat) (start end_ : Nat) :
    apply_joiners_checked K info mask_array start end_ =
      some (apply_joiners K info mask_array start end_) := by
  unfold apply_joiners_checked apply_joiners
  apply for_loop_checked_eq
  intro i t h1 h2
  rw [in_span_eq_some _ _ _ _ (by omega) (by omega), Option.some_bind]
  split
  · exact joiner_walk_checked_eq K mask_array _ start end_ i t (by omega) (by omega)
  · rfl

/-- With the base inside the syllable, no access of the function leaves `[start, end)` and no
loop counter is decremented at zero: the watched function returns the buffer the function
leaves behind. -/
theorem found_consonant_syllable_checked_eq (K : indic_enums) (map : hb_ot_map_t)
    (info : List hb_glyph_info_t) (mask_array : Nat → Nat) (start end_ : Nat)
    (hse : start < end_) (hbase : find_base K info mask_array start end_ < end_) :
    found_consonant_syllable_checked K map info mask_array start end_ =
      some (found_consonant_syllable K map info mask_array start end_) := by
  have hb1 := start_le_find_base K info mask_array start end_
  unfold found_consonant_syllable_checked
  rw [find_base_checked_eq K info mask_array start end_ hse, Option.some_bind]
  simp only
  rw [reorder_characters_checked_eq K info start end_ _ hb1 hbase, Option.some_bind,
    handle_beginning_ra_checked_eq K _ mask_array _ start end_ hse, Option.some_bind,
    old_style_halant_checked_eq K map _ start _ end_ hb1 hbase, Option.some_bind,
    attach_marks_checked_eq, Option.some_bind]
  by_cases h20 : end_ - start > 20
  · rw [if_pos h20, found_consonant_syllable_long K map info mask_array start end_ h20]
    rfl
  · rw [if_neg h20, setup_syllable_masks_checked_eq _ mask_array start _ end_ hb1 hbase,
      Option.some_bind, apply_joiners_checked_eq,
      found_consonant_syllable_short K map info mask_array start end_ (by omega)]
    rfl

/-! ## Claim about the safety of the call -/

/-- C20: for a non-empty syllable inside the buffer, if the Reph precondition holds or the
backward scan from `end - 1` meets a consonant before any joiner (some `k` in `[start, end)`
is a consonant and no joiner stands in `(k, end)`), then the base satisfies
`start <= base < end` and `slot[base]` is a consonant, and the function with every slot access
watched returns the very buffer `found_consonant_syllable` leaves behind: every index it reads
or writes lies in `[start, end)`, and every loop runs to its end without its counter being
decremented at zero (the loops are structural recursions, so each of them terminates). -/
theorem C20_base_and_accesses_inside_syllable (K : indic_enums) (map : hb_ot_map_t)
    (info : List hb_glyph_info_t) (mask_array : Nat → Nat) (start end_ : Nat)
    (hse : start < end_) (he : end_ ≤ info.length)
    (h : reph_precondition K info mask_array start end_ = true ∨
      ∃ k, start ≤ k ∧ k < end_ ∧ is_consonant K (slot info k) = true ∧
        ∀ m, k < m → m < end_ → is_joiner K (slot info m) = false) :
    start ≤ find_base K info mask_array start end_ ∧
      find_base K info mask_array start end_ < end_ ∧
      find_base K info mask_array start end_ < info.length ∧
      is_consonant K (slot info (find_base K info mask_array start end_)) = true ∧
      found_consonant_syllable_checked K map info mask_array start end_ =
        some (found_consonant_syllable K map info mask_array start end_) := by
  obtain ⟨h1, h2, h3⟩ := find_base_in_syllable K info mask_array start end_ h
  exact ⟨h1, h2, by omega, h3,
    found_consonant_syllable_checked_eq K map info mask_array start end_ hse h2⟩

/-- C20 at RA HALANT KA HALANT post-base consonant, followed by AA, under `deva` with `rphf`
enabled: the Reph precondition holds, the base is KA at index 2, and the watched function runs
through; on KA HALANT ZWJ, where neither condition holds, it fails. -/
theorem C20_base_and_accesses_inside_syllable_witness :
    reph_precondition spec_enums
        [slot_RA, slot_HALANT, slot_KA, slot_HALANT, slot_post, slot_AA] test_masks 0 5 = true ∧
      find_base spec_enums
        [slot_RA, slot_HALANT, slot_KA, slot_HALANT, slot_post, slot_AA] test_masks 0 5 = 2 ∧
      found_consonant_syllable_checked spec_enums map_deva
          [slot_RA, slot_HALANT, slot_KA, slot_HALANT, slot_post, slot_AA] test_masks 0 5 =
        some (found_consonant_syllable spec_enums map_deva
          [slot_RA, slot_HALANT, slot_KA, slot_HALANT, slot_post, slot_AA] test_masks 0 5) ∧
      found_consonant_syllable_checked spec_enums map_deva
          [slot_KA, slot_HALANT, slot_ZWJ, slot_AA] test_masks 0 3 = none :=
  ⟨by decide, by decide,
    (C20_base_and_accesses_inside_syllable spec_enums map_deva
      [slot_RA, slot_HALANT, slot_KA, slot_HALANT, slot_post, slot_AA] test_masks 0 5
      (by decide) (by decide) (Or.inl (by decide))).2.2.2.2,
    by decide⟩

end Indic
